import Mathlib

/-!
# Streaming merge layer of the storage read path

A shallow embedding of `storage/reads/merge.go` and `tsdb/cursors/string.go`.

* Source streams (`ResultSet`) and string iterators are Go interface values, that is,
  pointers to objects that the merger mutates through method calls.  They are modelled
  by a memory (`List` of object states) addressed by `Nat` pointers; every method call
  is an explicit update of that memory.
* `models.Tags` and `models.CompareTags` are not part of the two files: the tag type is
  a type parameter `τ` and the comparator a parameter `cmp : τ → τ → Int`.
* `cursors.CursorStats` is not part of the two files: it is a type parameter `σ` with a
  `+` (its `Add`), associative and commutative where sums are compared.  A record of two
  Go `int` counts with the wrapping `+=` instantiates it where overflow matters.
* `container/heap` is the Go standard library; `heap.Init`, `heap.Fix`, `heap.Pop` and
  their helpers `up` and `down` are transcribed here over `resultSetHeap`.
-/

namespace reads

/-! ## Source streams -/

/-- A finite source stream behind the `ResultSet` interface: `tags` is what `Tags()`
returns now, `pending` are the tag sets the following successful `Next()` calls move to,
`err` is what `Err()` reports, `stats` what `Stats()` reports, `closed` counts the
`Close()` calls received and `done` records that a `Next()` call has returned false. -/
structure ResultSet (τ σ : Type) where
  tags : τ
  pending : List τ
  err : Option String
  stats : σ
  closed : Nat
  done : Bool
deriving DecidableEq, Repr

variable {τ σ : Type}

/-- `Next()` of a source stream: moves to the next pending tag set, or reports
exhaustion. -/
def ResultSet.Next (s : ResultSet τ σ) : Bool × ResultSet τ σ :=
  match s.pending with
  | t :: ts => (true, { s with tags := t, pending := ts })
  | [] => (false, { s with done := true })

/-- `Tags()` of a source stream. -/
def ResultSet.Tags (s : ResultSet τ σ) : τ := s.tags

/-- `Err()` of a source stream. -/
def ResultSet.Err (s : ResultSet τ σ) : Option String := s.err

/-- `Stats()` of a source stream. -/
def ResultSet.Stats (s : ResultSet τ σ) : σ := s.stats

/-- `Close()` of a source stream: the probe counts the call. -/
def ResultSet.Close (s : ResultSet τ σ) : ResultSet τ σ :=
  { s with closed := s.closed + 1 }

/-- The memory holding the source stream objects; a `ResultSet` interface value is an
index into it. -/
abbrev Mem (τ σ : Type) := List (ResultSet τ σ)

/-- `rs.Close()` through a pointer. -/
def Mem.close (mem : Mem τ σ) (p : Nat) : Mem τ σ :=
  match mem[p]? with
  | some s => mem.set p s.Close
  | none => mem

/-! ## The heap container -/

/-- `type resultSetHeap struct { items []ResultSet }`. -/
structure resultSetHeap where
  items : List Nat
deriving DecidableEq, Repr

/-- The order `Less` puts on two stream pointers:
`models.CompareTags(a.Tags(), b.Tags()) == -1`. -/
def ptrLess (cmp : τ → τ → Int) (mem : Mem τ σ) (p q : Nat) : Bool :=
  match mem[p]?, mem[q]? with
  | some a, some b => cmp a.Tags b.Tags == -1
  | _, _ => false

/-- `resultSetHeap.Less`.  An index outside `items` panics in Go; the callers below
only pass indices below `Len()`. -/
def resultSetHeap.Less (cmp : τ → τ → Int) (mem : Mem τ σ) (h : resultSetHeap)
    (i j : Nat) : Bool :=
  match h.items[i]?, h.items[j]? with
  | some p, some q => ptrLess cmp mem p q
  | _, _ => false

/-- `resultSetHeap.Len`. -/
def resultSetHeap.Len (h : resultSetHeap) : Nat := h.items.length

/-- `resultSetHeap.Swap`. -/
def resultSetHeap.Swap (h : resultSetHeap) (i j : Nat) : resultSetHeap :=
  match h.items[i]?, h.items[j]? with
  | some p, some q => { items := (h.items.set i q).set j p }
  | _, _ => h

/-- `resultSetHeap.Pop`: drops the last slot (the returned item is ignored by every
caller). -/
def resultSetHeap.Pop (h : resultSetHeap) : resultSetHeap :=
  { items := h.items.take (h.items.length - 1) }

namespace heap

/-- The loop of `down` in `container/heap`, returning the heap and the final `i`.
The first argument bounds the number of iterations; `i` more than doubles in each
one, so `n` iterations are never used up. -/
def downLoop (cmp : τ → τ → Int) (mem : Mem τ σ) :
    Nat → resultSetHeap → Nat → Nat → resultSetHeap × Nat
  | 0, h, i, _ => (h, i)
  | fuel + 1, h, i, n =>
    let j1 := 2 * i + 1
    if j1 ≥ n then (h, i)
    else
      let j := if j1 + 1 < n && h.Less cmp mem (j1 + 1) j1 then j1 + 1 else j1
      if !h.Less cmp mem j i then (h, i)
      else downLoop cmp mem fuel (h.Swap i j) j n

/-- `down(h, i0, n)` of `container/heap`; the Boolean is `i > i0`. -/
def down (cmp : τ → τ → Int) (mem : Mem τ σ) (h : resultSetHeap) (i0 n : Nat) :
    resultSetHeap × Bool :=
  let r := downLoop cmp mem n h i0 n
  (r.1, decide (r.2 > i0))

/-- The loop of `up` in `container/heap`.  For `j = 0` Go computes `(0 - 1) / 2 = 0`,
as truncated subtraction does here. -/
def upLoop (cmp : τ → τ → Int) (mem : Mem τ σ) : Nat → resultSetHeap → Nat → resultSetHeap
  | 0, h, _ => h
  | fuel + 1, h, j =>
    let i := (j - 1) / 2
    if i == j || !h.Less cmp mem j i then h
    else upLoop cmp mem fuel (h.Swap i j) i

/-- `up(h, j)` of `container/heap`. -/
def up (cmp : τ → τ → Int) (mem : Mem τ σ) (h : resultSetHeap) (j : Nat) : resultSetHeap :=
  upLoop cmp mem (j + 1) h j

/-- The loop of `heap.Init`: `for i := n/2 - 1; i >= 0; i--`, entered with `k = n/2`. -/
def initLoop (cmp : τ → τ → Int) (mem : Mem τ σ) (n : Nat) : Nat → resultSetHeap → resultSetHeap
  | 0, h => h
  | k + 1, h => initLoop cmp mem n k (down cmp mem h k n).1

/-- `heap.Init`. -/
def Init (cmp : τ → τ → Int) (mem : Mem τ σ) (h : resultSetHeap) : resultSetHeap :=
  initLoop cmp mem h.Len (h.Len / 2) h

/-- `heap.Fix`. -/
def Fix (cmp : τ → τ → Int) (mem : Mem τ σ) (h : resultSetHeap) (i : Nat) : resultSetHeap :=
  let r := down cmp mem h i h.Len
  if !r.2 then up cmp mem r.1 i else r.1

/-- `heap.Pop`. -/
def Pop (cmp : τ → τ → Int) (mem : Mem τ σ) (h : resultSetHeap) : resultSetHeap :=
  let n := h.Len - 1
  let h1 := h.Swap 0 n
  (down cmp mem h1 0 n).1.Pop

end heap

/-- The loop of `resultSetHeap.init`: every stream is advanced once; those that yield a
value are appended, the others are closed. -/
def resultSetHeap.initLoop : Mem τ σ → List Nat → List Nat → Mem τ σ × List Nat
  | mem, items, [] => (mem, items)
  | mem, items, rs :: rest =>
    match mem[rs]? with
    | none => resultSetHeap.initLoop mem items rest
    | some s =>
      let r := s.Next
      if r.1 then resultSetHeap.initLoop (mem.set rs r.2) (items ++ [rs]) rest
      else resultSetHeap.initLoop (mem.set rs r.2.Close) items rest

/-- `resultSetHeap.init`. -/
def resultSetHeap.init (cmp : τ → τ → Int) (mem : Mem τ σ) (results : List Nat) :
    Mem τ σ × resultSetHeap :=
  let r := resultSetHeap.initLoop mem [] results
  (r.1, heap.Init cmp r.1 { items := r.2 })

/-! ## The tag-ordered merger -/

/-- `type mergedResultSet struct`. -/
structure mergedResultSet (σ : Type) where
  heap : resultSetHeap
  err : Option String
  first : Bool
  stats : σ
deriving DecidableEq, Repr

/-- The `ResultSet` interface value returned by `NewMergedResultSet`: `nil`, one of the
given streams, or a new merger. -/
inductive Result (σ : Type) where
  | nil : Result σ
  | stream : Nat → Result σ
  | merged : mergedResultSet σ → Result σ
deriving DecidableEq, Repr

/-- `NewMergedResultSet`.  The argument lists the stream objects; the slice handed to
the Go function holds the pointers `0, 1, ...` to them. -/
def NewMergedResultSet [Zero σ] (cmp : τ → τ → Int) (results : Mem τ σ) :
    Mem τ σ × Result σ :=
  match results with
  | [] => (results, .nil)
  | [_] => (results, .stream 0)
  | _ =>
    let r := resultSetHeap.init cmp results (List.range results.length)
    (r.1, .merged { heap := r.2, err := none, first := true, stats := 0 })

/-- `mergedResultSet.Err`. -/
def mergedResultSet.Err (r : mergedResultSet σ) : Option String := r.err

/-- The loop of `mergedResultSet.Close`. -/
def closeAll : Mem τ σ → List Nat → Mem τ σ
  | mem, [] => mem
  | mem, rs :: rest => closeAll (Mem.close mem rs) rest

/-- `mergedResultSet.Close`. -/
def mergedResultSet.Close (mem : Mem τ σ) (r : mergedResultSet σ) :
    Mem τ σ × mergedResultSet σ :=
  (closeAll mem r.heap.items, { r with heap := { items := [] } })

/-- `mergedResultSet.Next`. -/
def mergedResultSet.Next [Add σ] (cmp : τ → τ → Int) (mem : Mem τ σ) (r : mergedResultSet σ) :
    Bool × Mem τ σ × mergedResultSet σ :=
  match r.heap.items with
  | [] => (false, mem, r)
  | top :: _ =>
    if !r.first then
      match mem[top]? with
      | none => (false, mem, r)
      | some s =>
        let n := s.Next
        let mem1 := mem.set top n.2
        if n.1 then
          (true, mem1, { r with heap := heap.Fix cmp mem1 r.heap 0 })
        else
          let err := n.2.Err
          let stats := n.2.Stats
          let mem2 := Mem.close mem1 top
          let r2 : mergedResultSet σ := { r with heap := heap.Pop cmp mem2 r.heap }
          let c : Mem τ σ × mergedResultSet σ := if err.isSome then mergedResultSet.Close mem2 { r2 with err := err }
            else (mem2, r2)
          let r3 : mergedResultSet σ := { c.2 with stats := c.2.stats + stats }
          (decide (r3.heap.items.length > 0), c.1, r3)
    else (true, mem, { r with first := false })

/-- `mergedResultSet.Tags`; `none` is the index-out-of-range panic on an empty heap. -/
def mergedResultSet.Tags (mem : Mem τ σ) (r : mergedResultSet σ) : Option τ :=
  match r.heap.items with
  | [] => none
  | top :: _ => (mem[top]?).map ResultSet.Tags

/-- `mergedResultSet.Stats`. -/
def mergedResultSet.Stats (r : mergedResultSet σ) : σ := r.stats

/-- The consumer loop `for r.Next() { out = append(out, r.Tags()) }`: the tag sets
observed until `Next()` returns false.  `none` when the bound on the number of `Next()`
calls is used up first (or `Tags()` panics). -/
def drain [Add σ] (cmp : τ → τ → Int) :
    Nat → Mem τ σ → mergedResultSet σ → Option (List τ × Mem τ σ × mergedResultSet σ)
  | 0, _, _ => none
  | fuel + 1, mem, r =>
    let n := mergedResultSet.Next cmp mem r
    if n.1 then
      match mergedResultSet.Tags n.2.1 n.2.2 with
      | none => none
      | some t => (drain cmp fuel n.2.1 n.2.2).map (fun o => (t :: o.1, o.2))
    else some ([], n.2.1, n.2.2)

/-- A fresh source stream over the given tag sets. -/
def ResultSet.ofList [Zero σ] (t0 : τ) (ts : List τ) : ResultSet τ σ :=
  { tags := t0, pending := ts, err := none, stats := 0, closed := 0, done := false }

/-- The three-way comparison of natural numbers, standing in for `models.CompareTags`
on concrete inputs. -/
def natCmp (a b : Nat) : Int := if a < b then -1 else if a = b then 0 else 1


/-- A `Next()` call through the `ResultSet` interface value returned by
`NewMergedResultSet`; `none` is the panic of a method call on a nil interface (or on a
pointer outside the memory). -/
def Result.Next [Add σ] (cmp : τ → τ → Int) (mem : Mem τ σ) :
    Result σ → Option (Bool × Mem τ σ × Result σ)
  | .nil => none
  | .stream p =>
    match mem[p]? with
    | some s => some (s.Next.1, mem.set p s.Next.2, .stream p)
    | none => none
  | .merged r =>
    let n := mergedResultSet.Next cmp mem r
    some (n.1, n.2.1, .merged n.2.2)

/-- A call made by the consumer of a merger. -/
inductive Call where
  | next : Call
  | close : Call
deriving DecidableEq, Repr

/-- A sequence of `Next()` and `Close()` calls on a merger: the values returned by the
`Next()` calls, in order, and the final memory and merger. -/
def run [Add σ] (cmp : τ → τ → Int) :
    List Call → Mem τ σ → mergedResultSet σ → List Bool × Mem τ σ × mergedResultSet σ
  | [], mem, r => ([], mem, r)
  | Call.next :: cs, mem, r =>
    let n := mergedResultSet.Next cmp mem r
    let o := run cmp cs n.2.1 n.2.2
    (n.1 :: o.1, o.2)
  | Call.close :: cs, mem, r =>
    let c := mergedResultSet.Close mem r
    run cmp cs c.1 c.2

/-- `mergedResultSet.Cursor`: the cursor of the stream at the heap root, identified here
by the pointer to that stream (the type `cursors.Cursor` is not part of the two files);
`none` is the index-out-of-range panic on an empty heap. -/
def mergedResultSet.Cursor (r : mergedResultSet σ) : Option Nat :=
  match r.heap.items with
  | [] => none
  | top :: _ => some top

end reads

/-! ## String iterators (`tsdb/cursors/string.go`) -/

namespace cursors

/-- `type StringSliceIterator struct { s []string; v string; i int }`.  The index `i`
is never negative: `NewStringSliceIterator` sets it to 0 and `Next` only increments it
while it is below `len(s)`. -/
structure StringSliceIterator where
  s : List String
  v : String
  i : Nat
deriving DecidableEq, Repr

/-- `NewStringSliceIterator`. -/
def NewStringSliceIterator (s : List String) : StringSliceIterator :=
  { s := s, v := "", i := 0 }

/-- `StringSliceIterator.Next`. -/
def StringSliceIterator.Next (it : StringSliceIterator) : Bool × StringSliceIterator :=
  if h : it.i < it.s.length then (true, { it with v := it.s[it.i], i := it.i + 1 })
  else (false, { it with v := "" })

/-- `StringSliceIterator.Value`. -/
def StringSliceIterator.Value (it : StringSliceIterator) : String := it.v

/-- An object behind the `StringIterator` interface: one of the two implementations of
the package, `*stringIterator` (no values) and `*StringSliceIterator`. -/
inductive StringIterator where
  | empty : StringIterator
  | slice : StringSliceIterator → StringIterator
deriving DecidableEq, Repr

/-- `var EmptyStringIterator StringIterator = &stringIterator{}`. -/
def EmptyStringIterator : StringIterator := StringIterator.empty

/-- `Next()` through the interface. -/
def StringIterator.Next : StringIterator → Bool × StringIterator
  | .empty => (false, .empty)
  | .slice x => (x.Next.1, .slice x.Next.2)

/-- `Value()` through the interface. -/
def StringIterator.Value : StringIterator → String
  | .empty => ""
  | .slice x => x.Value

/-- A bound on the number of `Next()` calls that an iterator answers with true. -/
def StringIterator.bound : StringIterator → Nat
  | .empty => 0
  | .slice x => x.s.length - x.i

end cursors

namespace reads

open cursors

variable {τ σ : Type}

/-! ## The deduplicating string merger -/

/-- The memory holding the string iterator objects; a `cursors.StringIterator`
interface value is an index into it. -/
abbrev Iters := List StringIterator

/-- `type MergedStringIterator struct`.  The map `uniqueValues` is the list of its
keys, `none` the nil map. -/
structure MergedStringIterator where
  iterators : List Nat
  uniqueValues : Option (List String)
  nextValue : String
deriving DecidableEq, Repr

/-- `NewMergedStringIterator`.  The argument lists the iterator objects; the slice
handed to the Go function holds the pointers `0, 1, ...` to them. -/
def NewMergedStringIterator (iterators : Iters) : Iters × MergedStringIterator :=
  (iterators,
    { iterators := List.range iterators.length, uniqueValues := some [], nextValue := "" })

/-- The inner loop `for iterator.Next() { ... }` of `MergedStringIterator.Next` on the
iterator behind `p`.  `some (true, _)` is the `return true` inside the loop,
`some (false, _)` the end of the loop; `none` is a panic (the store into a nil map, or
a pointer outside the memory).  The first argument bounds the number of iterations;
the caller passes one more than the number of values the iterator can deliver. -/
def MergedStringIterator.scan (p : Nat) :
    Nat → Iters → MergedStringIterator → Option (Bool × Iters × MergedStringIterator)
  | 0, _, _ => none
  | fuel + 1, mem, mr =>
    match mem[p]? with
    | none => none
    | some it =>
      let n := it.Next
      let mem1 := mem.set p n.2
      if n.1 then
        let mr1 : MergedStringIterator := { mr with nextValue := n.2.Value }
        match mr1.uniqueValues with
        | none => none
        | some m =>
          if mr1.nextValue ∈ m then MergedStringIterator.scan p fuel mem1 mr1
          else some (true, mem1, { mr1 with uniqueValues := some (mr1.nextValue :: m) })
      else some (false, mem1, mr)

/-- The number of iterations granted to the inner loop on the iterator behind `p`. -/
def scanBound (mem : Iters) (p : Nat) : Nat :=
  match mem[p]? with
  | some it => it.bound + 1
  | none => 1

/-- The outer loop `for len(mr.iterators) > 0 { ... }` of `MergedStringIterator.Next`,
entered with `mr.iterators` as the first argument, and the two statements after it. -/
def MergedStringIterator.nextLoop :
    List Nat → Iters → MergedStringIterator → Option (Bool × Iters × MergedStringIterator)
  | [], mem, mr => some (false, mem, { mr with iterators := [], uniqueValues := none })
  | p :: rest, mem, mr =>
    match MergedStringIterator.scan p (scanBound mem p) mem mr with
    | none => none
    | some (true, mem1, mr1) => some (true, mem1, mr1)
    | some (false, mem1, mr1) =>
      MergedStringIterator.nextLoop rest mem1 { mr1 with iterators := rest }

/-- `MergedStringIterator.Next`. -/
def MergedStringIterator.Next (mem : Iters) (mr : MergedStringIterator) :
    Option (Bool × Iters × MergedStringIterator) :=
  MergedStringIterator.nextLoop mr.iterators mem mr

/-- `MergedStringIterator.Value`. -/
def MergedStringIterator.Value (mr : MergedStringIterator) : String := mr.nextValue

/-- The consumer loop `for mr.Next() { out = append(out, mr.Value()) }`: the values
observed until `Next()` returns false.  `none` when the bound on the number of `Next()`
calls is used up first, or a call panics. -/
def drainStrings :
    Nat → Iters → MergedStringIterator → Option (List String × Iters × MergedStringIterator)
  | 0, _, _ => none
  | fuel + 1, mem, mr =>
    match mr.Next mem with
    | none => none
    | some (true, mem1, mr1) =>
      (drainStrings fuel mem1 mr1).map (fun o => (mr1.Value :: o.1, o.2))
    | some (false, mem1, mr1) => some ([], mem1, mr1)

/-- The given number of `Next()` calls in a row: the `Value()` observed after each call
that returned true, and the final state.  `none` when a call panics. -/
def callStrings :
    Nat → Iters → MergedStringIterator → Option (List String × Iters × MergedStringIterator)
  | 0, mem, mr => some ([], mem, mr)
  | n + 1, mem, mr =>
    match mr.Next mem with
    | none => none
    | some (b, mem1, mr1) =>
      (callStrings n mem1 mr1).map (fun o => ((if b then [mr1.Value] else []) ++ o.1, o.2))

/-- The given number of `Next()` calls in a row on a slice iterator: the results of the
calls and the `Value()` observed after each, and the final iterator. -/
def callSlice : Nat → StringSliceIterator → List (Bool × String) × StringSliceIterator
  | 0, it => ([], it)
  | n + 1, it =>
    let o := callSlice n it.Next.2
    ((it.Next.1, it.Next.2.Value) :: o.1, o.2)


/-! ## The accesses to the source streams

The functions below follow the control flow of the functions above and list, in order,
the method calls that they make on the source streams. -/

/-- A method call on the source stream behind a pointer: a call of `Next()`, `Tags()`,
`Cursor()`, `Err()` or `Stats()` (a read), or a call of `Close()`. -/
inductive Access where
  | read : Nat → Access
  | close : Nat → Access
deriving DecidableEq, Repr

/-- The calls of `resultSetHeap.Less(i, j)`: `Tags()` on the items at `i` and at `j`. -/
def resultSetHeap.LessLog (h : resultSetHeap) (i j : Nat) : List Access :=
  (match h.items[i]? with
    | some p => [Access.read p]
    | none => []) ++
  (match h.items[j]? with
    | some q => [Access.read q]
    | none => [])

namespace heap

/-- The calls of the loop of `down`: `Less(j2, j1)` is evaluated only when `j2 < n`,
then `Less(j, i)`. -/
def downLoopLog (cmp : τ → τ → Int) (mem : Mem τ σ) :
    Nat → resultSetHeap → Nat → Nat → List Access
  | 0, _, _, _ => []
  | fuel + 1, h, i, n =>
    let j1 := 2 * i + 1
    if j1 ≥ n then []
    else
      let l1 := if j1 + 1 < n then h.LessLog (j1 + 1) j1 else []
      let j := if j1 + 1 < n && h.Less cmp mem (j1 + 1) j1 then j1 + 1 else j1
      let l2 := h.LessLog j i
      if !h.Less cmp mem j i then l1 ++ l2
      else l1 ++ l2 ++ downLoopLog cmp mem fuel (h.Swap i j) j n

/-- The calls of `down(h, i0, n)`. -/
def downLog (cmp : τ → τ → Int) (mem : Mem τ σ) (h : resultSetHeap) (i0 n : Nat) :
    List Access :=
  downLoopLog cmp mem n h i0 n

/-- The calls of the loop of `up`: `Less(j, i)` is evaluated only when `i != j`. -/
def upLoopLog (cmp : τ → τ → Int) (mem : Mem τ σ) : Nat → resultSetHeap → Nat → List Access
  | 0, _, _ => []
  | fuel + 1, h, j =>
    let i := (j - 1) / 2
    if i == j then []
    else if !h.Less cmp mem j i then h.LessLog j i
    else h.LessLog j i ++ upLoopLog cmp mem fuel (h.Swap i j) i

/-- The calls of `up(h, j)`. -/
def upLog (cmp : τ → τ → Int) (mem : Mem τ σ) (h : resultSetHeap) (j : Nat) : List Access :=
  upLoopLog cmp mem (j + 1) h j

/-- The calls of the loop of `heap.Init`. -/
def initLoopLog (cmp : τ → τ → Int) (mem : Mem τ σ) (n : Nat) :
    Nat → resultSetHeap → List Access
  | 0, _ => []
  | k + 1, h => downLog cmp mem h k n ++ initLoopLog cmp mem n k (down cmp mem h k n).1

/-- The calls of `heap.Init`. -/
def InitLog (cmp : τ → τ → Int) (mem : Mem τ σ) (h : resultSetHeap) : List Access :=
  initLoopLog cmp mem h.Len (h.Len / 2) h

/-- The calls of `heap.Fix`. -/
def FixLog (cmp : τ → τ → Int) (mem : Mem τ σ) (h : resultSetHeap) (i : Nat) : List Access :=
  let r := down cmp mem h i h.Len
  downLog cmp mem h i h.Len ++ (if !r.2 then upLog cmp mem r.1 i else [])

/-- The calls of `heap.Pop`. -/
def PopLog (cmp : τ → τ → Int) (mem : Mem τ σ) (h : resultSetHeap) : List Access :=
  let n := h.Len - 1
  downLog cmp mem (h.Swap 0 n) 0 n

end heap

/-- The calls of the loop of `resultSetHeap.init`: `Next()` on every stream, and
`Close()` on those that yield nothing. -/
def resultSetHeap.initLoopLog : Mem τ σ → List Nat → List Access
  | _, [] => []
  | mem, rs :: rest =>
    match mem[rs]? with
    | none => resultSetHeap.initLoopLog mem rest
    | some s =>
      let r := s.Next
      if r.1 then Access.read rs :: resultSetHeap.initLoopLog (mem.set rs r.2) rest
      else Access.read rs :: Access.close rs ::
        resultSetHeap.initLoopLog (mem.set rs r.2.Close) rest

/-- The calls of `resultSetHeap.init`. -/
def resultSetHeap.initLog (cmp : τ → τ → Int) (mem : Mem τ σ) (results : List Nat) :
    List Access :=
  let r := resultSetHeap.initLoop mem [] results
  resultSetHeap.initLoopLog mem results ++ heap.InitLog cmp r.1 { items := r.2 }

/-- The calls of `NewMergedResultSet` on two or more streams. -/
def NewMergedResultSetLog (cmp : τ → τ → Int) (results : Mem τ σ) : List Access :=
  resultSetHeap.initLog cmp results (List.range results.length)

/-- The calls of `mergedResultSet.Close`. -/
def mergedResultSet.CloseLog (r : mergedResultSet σ) : List Access :=
  r.heap.items.map Access.close

/-- The calls of `mergedResultSet.Next`: `Next()` on the root and then those of
`heap.Fix`, or `Next()`, `Err()`, `Stats()` and `Close()` on the root, those of
`heap.Pop`, and those of `Close` when the root reported an error. -/
def mergedResultSet.NextLog [Add σ] (cmp : τ → τ → Int) (mem : Mem τ σ)
    (r : mergedResultSet σ) : List Access :=
  match r.heap.items with
  | [] => []
  | top :: _ =>
    if !r.first then
      match mem[top]? with
      | none => []
      | some s =>
        let n := s.Next
        let mem1 := mem.set top n.2
        if n.1 then Access.read top :: heap.FixLog cmp mem1 r.heap 0
        else
          let err := n.2.Err
          let mem2 := Mem.close mem1 top
          let r2 : mergedResultSet σ := { r with heap := heap.Pop cmp mem2 r.heap }
          [Access.read top, Access.read top, Access.read top, Access.close top] ++
            heap.PopLog cmp mem2 r.heap ++
            (if err.isSome then mergedResultSet.CloseLog r2 else [])
    else []

/-- A call made by the consumer of a merger, `Tags()` and `Cursor()` included. -/
inductive Op where
  | next : Op
  | tags : Op
  | cursor : Op
  | close : Op
deriving DecidableEq, Repr

/-- The calls on the source streams made during a sequence of calls on a merger.
`Tags()` and `Cursor()` on an empty heap panic, which ends the sequence. -/
def runLog [Add σ] (cmp : τ → τ → Int) :
    List Op → Mem τ σ → mergedResultSet σ → List Access
  | [], _, _ => []
  | Op.next :: cs, mem, r =>
    let n := mergedResultSet.Next cmp mem r
    mergedResultSet.NextLog cmp mem r ++ runLog cmp cs n.2.1 n.2.2
  | Op.tags :: cs, mem, r =>
    match r.heap.items with
    | [] => []
    | top :: _ => Access.read top :: runLog cmp cs mem r
  | Op.cursor :: cs, mem, r =>
    match r.heap.items with
    | [] => []
    | top :: _ => Access.read top :: runLog cmp cs mem r
  | Op.close :: cs, mem, r =>
    let c := mergedResultSet.Close mem r
    mergedResultSet.CloseLog r ++ runLog cmp cs c.1 c.2

/-- No stream is read after it has been closed: in the list of calls, given the streams
closed before, no read is of a stream closed earlier. -/
def noReadAfterClose : List Nat → List Access → Bool
  | _, [] => true
  | closed, Access.read p :: t => decide (p ∉ closed) && noReadAfterClose closed t
  | closed, Access.close p :: t => noReadAfterClose (p :: closed) t


end reads

/-! ## Cursor statistics -/

namespace cursors

/-- The value a Go `int` holds for the arithmetic result `x` on a 64-bit platform: the
two's complement wrap-around into the range from `-2^63` to `2^63 - 1`. -/
def wrapInt (x : Int) : Int :=
  (x + 9223372036854775808) % 18446744073709551616 - 9223372036854775808

/-- Modelled from the spec: `cursors.CursorStats` is not part of the two files.  The
spec describes it as an accumulator record of a scanned-values count and a
scanned-bytes count; the counts are Go `int`s. -/
structure CursorStats where
  ScannedValues : Int
  ScannedBytes : Int
deriving DecidableEq, Repr

/-- Modelled from the spec: `CursorStats.Add`, the add operation of the accumulator
record.  Each count is increased with `+=` on a Go `int`, which wraps around. -/
def CursorStats.Add (s other : CursorStats) : CursorStats :=
  { ScannedValues := wrapInt (s.ScannedValues + other.ScannedValues),
    ScannedBytes := wrapInt (s.ScannedBytes + other.ScannedBytes) }

instance : Add CursorStats := ⟨CursorStats.Add⟩

instance : Zero CursorStats := ⟨{ ScannedValues := 0, ScannedBytes := 0 }⟩

/-- The order of the statistics: both counts are compared. -/
instance : LE CursorStats :=
  ⟨fun a b => a.ScannedValues ≤ b.ScannedValues ∧ a.ScannedBytes ≤ b.ScannedBytes⟩

instance (a b : CursorStats) : Decidable (a ≤ b) :=
  inferInstanceAs (Decidable (a.ScannedValues ≤ b.ScannedValues ∧ a.ScannedBytes ≤ b.ScannedBytes))

end cursors

namespace reads

open cursors

variable {τ σ : Type}


/-! ## Specification vocabulary for the heap -/

/-- The transposition of the indices `a` and `b`. -/
def tr (a b x : Nat) : Nat := if x = a then b else if x = b then a else x

/-- Node `k` is in heap order with the children it has below `n`. -/
def HeapAt (cmp : τ → τ → Int) (mem : Mem τ σ) (h : resultSetHeap) (n k : Nat) : Prop :=
  ∀ c, c < n → (c = 2 * k + 1 ∨ c = 2 * k + 2) → h.Less cmp mem c k = false

/-- The binary min-heap property under `Less`: no child compares less than its parent. -/
def IsHeap (cmp : τ → τ → Int) (mem : Mem τ σ) (h : resultSetHeap) : Prop :=
  ∀ k, HeapAt cmp mem h h.Len k

/-- On the slots of the heap, `Less` is a strict weak order. -/
structure LessOrder (cmp : τ → τ → Int) (mem : Mem τ σ) (h : resultSetHeap) : Prop where
  asymm : ∀ i j, i < h.Len → j < h.Len → h.Less cmp mem i j = true → h.Less cmp mem j i = false
  ntrans : ∀ i j k, i < h.Len → j < h.Len → k < h.Len →
    h.Less cmp mem i j = false → h.Less cmp mem j k = false → h.Less cmp mem i k = false

/-- The comparator is a three-way comparison for a total preorder, as
`models.CompareTags` is. -/
structure IsCompare (cmp : τ → τ → Int) : Prop where
  range : ∀ a b, cmp a b = -1 ∨ cmp a b = 0 ∨ cmp a b = 1
  swap : ∀ a b, cmp b a = - cmp a b
  trans : ∀ a b c, cmp a b ≤ 0 → cmp b c ≤ 0 → cmp a c ≤ 0

/-- A sequence of tag sets is non-decreasing under the comparator. -/
def NonDecreasing (cmp : τ → τ → Int) (l : List τ) : Prop :=
  List.Chain' (fun a b => cmp a b ≤ 0) l


/-- The heap refers to distinct stream objects of the memory. -/
def WF (mem : Mem τ σ) (items : List Nat) : Prop :=
  (∀ p ∈ items, p < mem.length) ∧ items.Nodup

/-- The tag sets an active stream still has to deliver: the one it is positioned on and
the pending ones. -/
def contents (mem : Mem τ σ) (p : Nat) : List τ :=
  match mem[p]? with
  | some s => s.tags :: s.pending
  | none => []

/-- The state of a stream after a `Next()` call that found it exhausted and the
`Close()` call that follows. -/
def ResultSet.finish (s : ResultSet τ σ) : ResultSet τ σ :=
  { s with done := true, closed := s.closed + 1 }

end reads

namespace reads

variable {τ σ : Type}

/-- The invariant behind the ordering of the merged output: the heap refers to
distinct streams, it is a min-heap, and every active stream is non-decreasing from its
current tag set on. -/
structure Inv1 (cmp : τ → τ → Int) (mem : Mem τ σ) (r : mergedResultSet σ) : Prop where
  wf : WF mem r.heap.items
  heap : IsHeap cmp mem r.heap
  sorted : ∀ p ∈ r.heap.items, NonDecreasing cmp (contents mem p)

end reads

namespace reads

variable {τ σ : Type}

/-- The state of a stream after the first `Next()` call that `resultSetHeap.init` makes
on it, and the `Close()` call that follows when the stream has nothing to deliver. -/
def ResultSet.start (s : ResultSet τ σ) : ResultSet τ σ :=
  match s.pending with
  | t :: ts => { s with tags := t, pending := ts }
  | [] => s.finish

/-- The stream behind the pointer has a tag set to deliver. -/
def hasNext (mem : Mem τ σ) (p : Nat) : Bool :=
  match mem[p]? with
  | some s => !s.pending.isEmpty
  | none => false

/-- The tag sets the active streams still have to deliver. -/
def remaining (mem : Mem τ σ) (items : List Nat) : List τ :=
  items.flatMap (contents mem)

/-- A bound on the number of `Next()` calls that still return true. -/
def budget (mem : Mem τ σ) (r : mergedResultSet σ) : Nat :=
  (remaining mem r.heap.items).length + (if r.first then 1 else 0)

end reads

namespace reads

variable {τ σ : Type}

/-- The input of the stream behind a pointer. -/
def pendingAt (mem : Mem τ σ) (p : Nat) : List τ :=
  match mem[p]? with
  | some s => s.pending
  | none => []

/-- A number of `Next()` calls that drains the merger of the given streams. -/
def drainBound (results : Mem τ σ) : Nat :=
  (results.flatMap ResultSet.pending).length + 2

end reads

namespace reads

variable {τ σ : Type}

/-- No active stream reports an error. -/
def ErrFree (mem : Mem τ σ) (items : List Nat) : Prop :=
  ∀ p ∈ items, ∀ s, mem[p]? = some s → s.err = none

end reads

namespace reads

variable {τ σ : Type}

/-- The closing discipline: the heap refers to distinct streams; a stream in the heap
has received no `Close()` call from the merger and every other stream exactly one; and
once an error is recorded the heap is empty. -/
structure Inv4 (results mem : Mem τ σ) (r : mergedResultSet σ) : Prop where
  wf : WF mem r.heap.items
  closed : ∀ i s0, results[i]? = some s0 →
    ∃ s, mem[i]? = some s ∧ s.closed = s0.closed + (if i ∈ r.heap.items then 0 else 1)
  err : r.err ≠ none → r.heap.items = []

end reads

namespace reads

/-- Two sample streams: the first delivers `[1]` and then fails with `boom` (its
statistics are 5), the second delivers `[2]` (its statistics are 7). -/
def sampleFailing : Mem Nat Nat :=
  [{ tags := 0, pending := [1], err := some "boom", stats := 5, closed := 0, done := false },
   { tags := 0, pending := [2], err := none, stats := 7, closed := 0, done := false }]

/-- Two sample streams delivering `[1]` and `[2]` without error (their statistics are 5
and 7). -/
def sampleClean : Mem Nat Nat :=
  [{ tags := 0, pending := [1], err := none, stats := 5, closed := 0, done := false },
   { tags := 0, pending := [2], err := none, stats := 7, closed := 0, done := false }]

/-- The merger that `NewMergedResultSet` builds from two streams that both deliver a
value. -/
def sampleMerger : mergedResultSet Nat :=
  { heap := { items := [0, 1] }, err := none, first := true, stats := 0 }

end reads

namespace reads

variable {τ σ : Type}

/-- The sum of the final `Stats()` of the streams selected by a test on the state a
stream was handed in with and its final state. -/
def statsOver [Zero σ] [Add σ] (P : ResultSet τ σ → ResultSet τ σ → Bool)
    (results mem : Mem τ σ) : σ :=
  ((results.zip mem).map (fun x => if P x.1 x.2 then x.2.stats else 0)).sum

/-- The streams that completed without reporting an error, the first advance of which
did not fail. -/
def completedCleanly (s0 s : ResultSet τ σ) : Bool :=
  s.done && s.err.isNone && !s0.pending.isEmpty

/-- The streams that a `Next()` call of the merger found exhausted at the heap root:
the first advance did not fail and a later one did, with or without an error. -/
def foundExhausted (s0 s : ResultSet τ σ) : Bool :=
  s.done && !s0.pending.isEmpty

/-- The invariant behind the statistics: the active streams delivered a value at
construction and have not reported exhaustion, and the total is the sum over the
streams found exhausted at the root. -/
structure Inv5 [Zero σ] [Add σ] (results mem : Mem τ σ) (r : mergedResultSet σ) : Prop where
  wf : WF mem r.heap.items
  len : mem.length = results.length
  active : ∀ p ∈ r.heap.items, hasNext results p = true ∧ ∀ s, mem[p]? = some s → s.done = false
  stats : r.stats = statsOver foundExhausted results mem

end reads

/-! ## Specification vocabulary for the string merger -/

namespace cursors

/-- The values an iterator still has to deliver, in order. -/
def StringIterator.values : StringIterator → List String
  | .empty => []
  | .slice x => x.s.drop x.i

end cursors

namespace reads

open cursors

/-- The values the iterator behind a pointer still has to deliver. -/
def valuesAt (mem : Iters) (p : Nat) : List String :=
  match mem[p]? with
  | some it => it.values
  | none => []

/-- The concatenation, in list order, of the values the listed iterators still have to
deliver. -/
def todo (mem : Iters) (its : List Nat) : List String :=
  its.flatMap (valuesAt mem)

/-- The strings of a list that are not among `seen` and have not occurred earlier in
the list. -/
def unseen : List String → List String → List String
  | _, [] => []
  | seen, x :: xs => if x ∈ seen then unseen seen xs else x :: unseen (x :: seen) xs

/-- A list with every occurrence of a string after its first occurrence removed. -/
def firstOccurrences : List String → List String
  | [] => []
  | x :: xs => x :: (firstOccurrences xs).filter (fun y => decide (y ≠ x))

/-- A number of `Next()` calls that drains the string merger of the given iterators. -/
def stringsBound (iterators : Iters) : Nat :=
  (iterators.flatMap StringIterator.values).length + 1

/-- The remaining-source list refers to distinct iterator objects of the memory. -/
def WFs (mem : Iters) (its : List Nat) : Prop :=
  (∀ p ∈ its, p < mem.length) ∧ its.Nodup

/-- The invariant of the string merger while the membership set is allocated: the
remaining-source list refers to distinct iterators and every other iterator is
drained. -/
structure InvS (mem : Iters) (mr : MergedStringIterator) (m : List String) : Prop where
  wf : WFs mem mr.iterators
  set : mr.uniqueValues = some m
  drained : ∀ q, q ∉ mr.iterators → valuesAt mem q = []

/-- The string merger is exhausted: the remaining-source list is empty, the
membership set is released and every iterator is drained. -/
def Exhausted (mem : Iters) (mr : MergedStringIterator) : Prop :=
  mr.iterators = [] ∧ mr.uniqueValues = none ∧ ∀ q, valuesAt mem q = []

/-- Two sample slice iterators over `["a", "b"]` and `["b", "c"]`. -/
def sampleStrings : Iters :=
  [StringIterator.slice (NewStringSliceIterator ["a", "b"]),
   StringIterator.slice (NewStringSliceIterator ["b", "c"])]

/-- Two sample slice iterators over `["b"]` and `["a"]`: each is sorted, the second
holds the smaller value. -/
def sampleUnsorted : Iters :=
  [StringIterator.slice (NewStringSliceIterator ["b"]),
   StringIterator.slice (NewStringSliceIterator ["a"])]

end reads

namespace reads

variable {τ σ : Type}

/-- Two sample streams without any tag set: the first advance of both fails. -/
def sampleEmpty : Mem Nat Nat :=
  [{ tags := 0, pending := [], err := none, stats := 5, closed := 0, done := false },
   { tags := 0, pending := [], err := none, stats := 7, closed := 0, done := false }]

/-- The stream that a `Next()` call of the merger finds exhausted at the heap root, if
there is one: the call is not the first one, the heap is not empty, and the stream at
index 0 has no tag set left. -/
def exhaustedRoot (mem : Mem τ σ) (r : mergedResultSet σ) : Option (ResultSet τ σ) :=
  match r.heap.items with
  | [] => none
  | top :: _ =>
    if r.first then none
    else
      match mem[top]? with
      | some s => if s.pending.isEmpty then some s else none
      | none => none

/-- The invariant behind the position of the active streams: every stream in the heap
is positioned on one of the tag sets of its input and has the later ones to deliver. -/
structure Inv6 (results mem : Mem τ σ) (r : mergedResultSet σ) : Prop where
  wf : WF mem r.heap.items
  len : mem.length = results.length
  pos : ∀ p ∈ r.heap.items, ∀ s0 s, results[p]? = some s0 → mem[p]? = some s →
    ∃ k, s0.pending[k]? = some s.tags ∧ s.pending = s0.pending.drop (k + 1)

end reads

namespace reads

variable {τ σ : Type}

/-- Every call of the list is a read of a stream with the property `P`. -/
def ReadsOnly (P : Nat → Prop) (l : List Access) : Prop :=
  ∀ a ∈ l, ∃ p, a = Access.read p ∧ P p

/-- The stream pointer is in one of the first `n` slots of the heap. -/
def Below (h : resultSetHeap) (n : Nat) (p : Nat) : Prop :=
  ∃ k, k < n ∧ h.items[k]? = some p

end reads

namespace reads

open cursors

/-- Two sample streams delivering `[1]` and `[2]` without error; the first reports the
largest count a Go `int` holds as its scanned values, the second reports 1. -/
def sampleOverflow : Mem Nat CursorStats :=
  [{ tags := 0, pending := [1], err := none,
     stats := { ScannedValues := 9223372036854775807, ScannedBytes := 0 },
     closed := 0, done := false },
   { tags := 0, pending := [2], err := none,
     stats := { ScannedValues := 1, ScannedBytes := 0 }, closed := 0, done := false }]

/-- The merger built from the two sample streams, after its first `Next()` call. -/
def sampleStarted : mergedResultSet CursorStats :=
  { heap := { items := [0, 1] }, err := none, first := false, stats := 0 }

end reads

namespace reads

variable {τ σ : Type}

/-! ## Slots and swaps -/

theorem tr_lt {a b x n : Nat} (ha : a < n) (hb : b < n) (hx : x < n) : tr a b x < n := by
  unfold tr; split_ifs <;> assumption

theorem tr_ge {a b x n : Nat} (ha : a < n) (hb : b < n) (hx : n ≤ x) : tr a b x = x := by
  unfold tr; split_ifs <;> omega

theorem Swap_length (h : resultSetHeap) (a b : Nat) : (h.Swap a b).Len = h.Len := by
  unfold resultSetHeap.Swap resultSetHeap.Len; split <;> simp

theorem Swap_get (h : resultSetHeap) {a b : Nat} (ha : a < h.Len) (hb : b < h.Len) (x : Nat) :
    (h.Swap a b).items[x]? = h.items[tr a b x]? := by
  unfold resultSetHeap.Len at ha hb
  unfold resultSetHeap.Swap tr
  rw [List.getElem?_eq_getElem ha, List.getElem?_eq_getElem hb]
  simp only [List.getElem?_set, List.length_set]
  by_cases h1 : x = a
  · subst h1
    by_cases h2 : b = x
    · subst h2; simp [ha]
    · simp [h2, ha, hb]
  · by_cases h2 : x = b
    · subst h2; simp [hb, h1]
    · have h3 : ¬ b = x := fun e => h2 e.symm
      have h4 : ¬ a = x := fun e => h1 e.symm
      simp [h1, h2, h3, h4]

theorem Swap_Less (cmp : τ → τ → Int) (mem : Mem τ σ) (h : resultSetHeap) {a b : Nat}
    (ha : a < h.Len) (hb : b < h.Len) (x y : Nat) :
    (h.Swap a b).Less cmp mem x y = h.Less cmp mem (tr a b x) (tr a b y) := by
  unfold resultSetHeap.Less
  rw [Swap_get h ha hb, Swap_get h ha hb]

theorem Swap_perm (h : resultSetHeap) (a b : Nat) : (h.Swap a b).items.Perm h.items := by
  unfold resultSetHeap.Swap
  split
  · rename_i p q hp hq
    rw [List.perm_iff_count]
    intro x
    obtain ⟨ha, rfl⟩ := List.getElem?_eq_some_iff.mp hp
    obtain ⟨hb, rfl⟩ := List.getElem?_eq_some_iff.mp hq
    by_cases e : a = b
    · subst e
      simp only [List.length_set, List.set_set]
      rw [List.count_set _ _ _ _ ha]
      have c1 := List.count_pos_iff.mpr (List.getElem_mem ha)
      by_cases e1 : h.items[a] = x
      · simp [e1]; subst e1; omega
      · simp [e1]
    · rw [List.count_set _ _ _ _ (by simpa using hb), List.count_set _ _ _ _ ha]
      simp only [List.getElem_set]
      have c1 := List.count_pos_iff.mpr (List.getElem_mem ha)
      have c2 := List.count_pos_iff.mpr (List.getElem_mem hb)
      simp only [e, if_false]
      by_cases e1 : h.items[a] = x <;> by_cases e2 : h.items[b] = x <;> simp [e1, e2] <;>
        first | omega | (subst e1; omega)
  · exact List.Perm.refl _

theorem Swap_LessOrder (cmp : τ → τ → Int) (mem : Mem τ σ) (h : resultSetHeap) {a b : Nat}
    (ha : a < h.Len) (hb : b < h.Len) (ho : LessOrder cmp mem h) :
    LessOrder cmp mem (h.Swap a b) := by
  constructor
  · intro i j hi hj hl
    rw [Swap_length] at hi hj
    rw [Swap_Less cmp mem h ha hb] at hl ⊢
    exact ho.asymm _ _ (tr_lt ha hb hi) (tr_lt ha hb hj) hl
  · intro i j k hi hj hk h1 h2
    rw [Swap_length] at hi hj hk
    rw [Swap_Less cmp mem h ha hb] at h1 h2 ⊢
    exact ho.ntrans _ _ _ (tr_lt ha hb hi) (tr_lt ha hb hj) (tr_lt ha hb hk) h1 h2

end reads

namespace reads

variable {τ σ : Type}

/-! ## Sifting down -/

theorem tr_left (a b : Nat) : tr a b a = b := by simp [tr]

theorem tr_right (a b : Nat) : tr a b b = a := by
  unfold tr
  by_cases h : b = a
  · simp [h]
  · simp [h]

theorem tr_other {a b x : Nat} (h1 : x ≠ a) (h2 : x ≠ b) : tr a b x = x := by
  simp [tr, h1, h2]

/-- One round of the loop of `down`, with the guards resolved. -/
theorem downLoop_succ (cmp : τ → τ → Int) (mem : Mem τ σ) (fuel : Nat) (h : resultSetHeap)
    (i n : Nat) :
    heap.downLoop cmp mem (fuel + 1) h i n =
      if 2 * i + 1 ≥ n then (h, i)
      else if h.Less cmp mem
          (if 2 * i + 1 + 1 < n ∧ h.Less cmp mem (2 * i + 1 + 1) (2 * i + 1) = true
            then 2 * i + 1 + 1 else 2 * i + 1) i = true
        then heap.downLoop cmp mem fuel
          (h.Swap i (if 2 * i + 1 + 1 < n ∧ h.Less cmp mem (2 * i + 1 + 1) (2 * i + 1) = true
            then 2 * i + 1 + 1 else 2 * i + 1))
          (if 2 * i + 1 + 1 < n ∧ h.Less cmp mem (2 * i + 1 + 1) (2 * i + 1) = true
            then 2 * i + 1 + 1 else 2 * i + 1) n
        else (h, i) := by
  simp only [heap.downLoop, Bool.and_eq_true, decide_eq_true_eq, Bool.not_eq_true']
  by_cases h1 : 2 * i + 1 ≥ n
  · simp [h1]
  · simp only [h1, if_false]
    split_ifs <;> simp_all

/-- The child `down` picks at node `i`: it lies below `n` and no sibling is less. -/
theorem down_choice (cmp : τ → τ → Int) (mem : Mem τ σ) (h : resultSetHeap) (i n : Nat)
    (hn : n ≤ h.Len) (ho : LessOrder cmp mem h) (h1 : ¬ 2 * i + 1 ≥ n) (j : Nat)
    (hj : j = if 2 * i + 1 + 1 < n ∧ h.Less cmp mem (2 * i + 1 + 1) (2 * i + 1) = true
            then 2 * i + 1 + 1 else 2 * i + 1) :
    j < n ∧ (j = 2 * i + 1 ∨ j = 2 * i + 2) ∧
      ∀ c, c < n → (c = 2 * i + 1 ∨ c = 2 * i + 2) → c ≠ j → h.Less cmp mem c j = false := by
  by_cases hc : 2 * i + 1 + 1 < n ∧ h.Less cmp mem (2 * i + 1 + 1) (2 * i + 1) = true
  · rw [if_pos hc] at hj
    refine ⟨by omega, by omega, ?_⟩
    intro c hcn hcc hne
    have e : c = 2 * i + 1 := by omega
    subst e; subst hj
    exact ho.asymm _ _ (by omega) (by omega) hc.2
  · rw [if_neg hc] at hj
    refine ⟨by omega, by omega, ?_⟩
    intro c hcn hcc hne
    have e : c = 2 * i + 1 + 1 := by omega
    subst e; subst hj
    by_cases hl : h.Less cmp mem (2 * i + 1 + 1) (2 * i + 1) = true
    · exact absurd ⟨hcn, hl⟩ hc
    · simpa using hl

theorem downLoop_heap (cmp : τ → τ → Int) (mem : Mem τ σ) (lo n : Nat) :
    ∀ (fuel : Nat) (h : resultSetHeap) (i : Nat),
      n ≤ h.Len → LessOrder cmp mem h → lo ≤ i → n ≤ fuel + i →
      (∀ k, lo ≤ k → k ≠ i → HeapAt cmp mem h n k) →
      (∀ c p, c < n → (c = 2 * i + 1 ∨ c = 2 * i + 2) → (i = 2 * p + 1 ∨ i = 2 * p + 2) →
        lo ≤ p → h.Less cmp mem c p = false) →
      ∀ k, lo ≤ k → HeapAt cmp mem (heap.downLoop cmp mem fuel h i n).1 n k := by
  intro fuel
  induction fuel with
  | zero =>
    intro h i hn ho hlo hf hI hG k hk
    simp only [heap.downLoop]
    by_cases e : k = i
    · subst e; intro c hc hcc; omega
    · exact hI k hk e
  | succ fuel ih =>
    intro h i hn ho hlo hf hI hG
    rw [downLoop_succ]
    by_cases h1 : 2 * i + 1 ≥ n
    · rw [if_pos h1]
      intro k hk
      by_cases e : k = i
      · subst e; intro c hc hcc; omega
      · exact hI k hk e
    · rw [if_neg h1]
      obtain ⟨hjn, hjc, hmin⟩ := down_choice cmp mem h i n hn ho h1 _ rfl
      generalize (if 2 * i + 1 + 1 < n ∧ h.Less cmp mem (2 * i + 1 + 1) (2 * i + 1) = true
            then 2 * i + 1 + 1 else 2 * i + 1) = j at hjn hjc hmin ⊢
      by_cases h2 : h.Less cmp mem j i = true
      · rw [if_pos h2]
        have hi : i < h.Len := by omega
        have hj : j < h.Len := by omega
        apply ih (h.Swap i j) j (by rw [Swap_length]; exact hn)
          (Swap_LessOrder cmp mem h hi hj ho) (by omega) (by omega)
        · intro k hk hkj c hc hcc
          rw [Swap_Less cmp mem h hi hj]
          by_cases e : k = i
          · subst e
            rw [tr_left]
            by_cases e2 : c = j
            · subst e2; rw [tr_right]
              exact ho.asymm _ _ hj hi h2
            · rw [tr_other (by omega) e2]
              exact hmin c hc hcc e2
          · rw [tr_other e hkj]
            by_cases e2 : c = i
            · subst e2; rw [tr_left]
              exact hG j k hjn hjc hcc hk
            · rw [tr_other e2 (by omega)]
              exact hI k hk e c hc hcc
        · intro c p hc hcc hjp hp
          have e : p = i := by omega
          subst e
          rw [Swap_Less cmp mem h hi hj, tr_left, tr_other (by omega) (by omega)]
          exact hI j (by omega) (by omega) c hc hcc
      · rw [if_neg h2]
        intro k hk
        by_cases e : k = i
        · subst e
          intro c hc hcc
          by_cases e2 : c = j
          · subst e2; simpa using h2
          · exact ho.ntrans c j k (by omega) (by omega) (by omega) (hmin c hc hcc e2)
              (by simpa using h2)
        · exact hI k hk e

/-- A round of the loop of `down` either stops or swaps node `i` with a child below `n`. -/
theorem downLoop_cases (cmp : τ → τ → Int) (mem : Mem τ σ) (fuel : Nat) (h : resultSetHeap)
    (i n : Nat) :
    heap.downLoop cmp mem (fuel + 1) h i n = (h, i) ∨
      ∃ j, i < j ∧ j < n ∧
        heap.downLoop cmp mem (fuel + 1) h i n = heap.downLoop cmp mem fuel (h.Swap i j) j n := by
  rw [downLoop_succ]
  by_cases h1 : 2 * i + 1 ≥ n
  · left; rw [if_pos h1]
  · rw [if_neg h1]
    have hj : (if 2 * i + 1 + 1 < n ∧ h.Less cmp mem (2 * i + 1 + 1) (2 * i + 1) = true
            then 2 * i + 1 + 1 else 2 * i + 1) < n ∧
        i < (if 2 * i + 1 + 1 < n ∧ h.Less cmp mem (2 * i + 1 + 1) (2 * i + 1) = true
            then 2 * i + 1 + 1 else 2 * i + 1) := by
      split_ifs with hc
      · exact ⟨hc.1, by omega⟩
      · exact ⟨by omega, by omega⟩
    generalize (if 2 * i + 1 + 1 < n ∧ h.Less cmp mem (2 * i + 1 + 1) (2 * i + 1) = true
            then 2 * i + 1 + 1 else 2 * i + 1) = j at hj ⊢
    by_cases h2 : h.Less cmp mem j i = true
    · right; rw [if_pos h2]; exact ⟨j, hj.2, hj.1, rfl⟩
    · left; rw [if_neg h2]

theorem downLoop_length (cmp : τ → τ → Int) (mem : Mem τ σ) (n : Nat) :
    ∀ (fuel : Nat) (h : resultSetHeap) (i : Nat),
      (heap.downLoop cmp mem fuel h i n).1.Len = h.Len := by
  intro fuel
  induction fuel with
  | zero => intro h i; rfl
  | succ fuel ih =>
    intro h i
    rcases downLoop_cases cmp mem fuel h i n with e | ⟨j, _, _, e⟩
    · rw [e]
    · rw [e, ih, Swap_length]

theorem downLoop_perm (cmp : τ → τ → Int) (mem : Mem τ σ) (n : Nat) :
    ∀ (fuel : Nat) (h : resultSetHeap) (i : Nat),
      (heap.downLoop cmp mem fuel h i n).1.items.Perm h.items := by
  intro fuel
  induction fuel with
  | zero => intro h i; exact List.Perm.refl _
  | succ fuel ih =>
    intro h i
    rcases downLoop_cases cmp mem fuel h i n with e | ⟨j, _, _, e⟩
    · rw [e]
    · rw [e]; exact (ih _ _).trans (Swap_perm _ _ _)

/-- The loop of `down(h, i, n)` leaves the slots from `n` on alone. -/
theorem downLoop_get_ge (cmp : τ → τ → Int) (mem : Mem τ σ) (n : Nat) :
    ∀ (fuel : Nat) (h : resultSetHeap) (i : Nat), n ≤ h.Len → ∀ x, n ≤ x →
      (heap.downLoop cmp mem fuel h i n).1.items[x]? = h.items[x]? := by
  intro fuel
  induction fuel with
  | zero => intro h i _ x _; rfl
  | succ fuel ih =>
    intro h i hn x hx
    rcases downLoop_cases cmp mem fuel h i n with e | ⟨j, hij, hjn, e⟩
    · rw [e]
    · rw [e, ih _ _ (by rw [Swap_length]; exact hn) x hx,
        Swap_get h (by omega) (by omega), tr_other (by omega) (by omega)]

end reads

namespace reads

variable {τ σ : Type}

/-! ## The order on stream pointers -/

theorem ptrLess_asymm {cmp : τ → τ → Int} (hc : IsCompare cmp) (mem : Mem τ σ) (p q : Nat)
    (h : ptrLess cmp mem p q = true) : ptrLess cmp mem q p = false := by
  unfold ptrLess at h ⊢
  cases hp : mem[p]? with
  | none => simp [hp] at h
  | some a =>
    cases hq : mem[q]? with
    | none => simp [hp, hq] at h
    | some b =>
      simp only [hp, hq, beq_iff_eq] at h
      simp only [beq_eq_false_iff_ne, ne_eq]
      rw [hc.swap a.Tags b.Tags, h]; decide

theorem ptrLess_ntrans {cmp : τ → τ → Int} (hc : IsCompare cmp) (mem : Mem τ σ) (p q r : Nat)
    (hq : q < mem.length) (h1 : ptrLess cmp mem p q = false) (h2 : ptrLess cmp mem q r = false) :
    ptrLess cmp mem p r = false := by
  unfold ptrLess at h1 h2 ⊢
  rw [List.getElem?_eq_getElem hq] at h1 h2
  cases hp : mem[p]? with
  | none => rfl
  | some a =>
    cases hr : mem[r]? with
    | none => rfl
    | some c =>
      simp only [hp, hr, beq_eq_false_iff_ne, ne_eq] at h1 h2 ⊢
      have s1 := hc.swap a.Tags mem[q].Tags
      have s2 := hc.swap mem[q].Tags c.Tags
      have s3 := hc.swap a.Tags c.Tags
      have r1 := hc.range a.Tags mem[q].Tags
      have r2 := hc.range mem[q].Tags c.Tags
      have r3 := hc.range a.Tags c.Tags
      have t := hc.trans c.Tags mem[q].Tags a.Tags (by omega) (by omega)
      omega

theorem Less_eq_ptrLess (cmp : τ → τ → Int) (mem : Mem τ σ) (h : resultSetHeap) {i j : Nat}
    (hi : i < h.Len) (hj : j < h.Len) :
    h.Less cmp mem i j = ptrLess cmp mem (h.items.get ⟨i, hi⟩) (h.items.get ⟨j, hj⟩) := by
  unfold resultSetHeap.Less
  rw [List.getElem?_eq_getElem hi, List.getElem?_eq_getElem hj]
  rfl

theorem LessOrder_of {cmp : τ → τ → Int} (hc : IsCompare cmp) (mem : Mem τ σ)
    (h : resultSetHeap) (hv : ∀ p ∈ h.items, p < mem.length) : LessOrder cmp mem h := by
  constructor
  · intro i j hi hj hl
    rw [Less_eq_ptrLess cmp mem h hi hj] at hl
    rw [Less_eq_ptrLess cmp mem h hj hi]
    exact ptrLess_asymm hc mem _ _ hl
  · intro i j k hi hj hk h1 h2
    rw [Less_eq_ptrLess cmp mem h hi hj] at h1
    rw [Less_eq_ptrLess cmp mem h hj hk] at h2
    rw [Less_eq_ptrLess cmp mem h hi hk]
    exact ptrLess_ntrans hc mem _ _ _ (hv _ (List.get_mem _ _ _)) h1 h2

/-! ## The heap operations -/

theorem down_length (cmp : τ → τ → Int) (mem : Mem τ σ) (h : resultSetHeap) (i n : Nat) :
    (heap.down cmp mem h i n).1.Len = h.Len := downLoop_length cmp mem n n h i

theorem down_perm (cmp : τ → τ → Int) (mem : Mem τ σ) (h : resultSetHeap) (i n : Nat) :
    (heap.down cmp mem h i n).1.items.Perm h.items := downLoop_perm cmp mem n n h i

theorem down_heap {cmp : τ → τ → Int} (hc : IsCompare cmp) (mem : Mem τ σ) (h : resultSetHeap)
    (hv : ∀ p ∈ h.items, p < mem.length) (i n : Nat) (hn : n ≤ h.Len)
    (hI : ∀ k, i < k → HeapAt cmp mem h n k) :
    ∀ k, i ≤ k → HeapAt cmp mem (heap.down cmp mem h i n).1 n k := by
  apply downLoop_heap cmp mem i n n h i hn (LessOrder_of hc mem h hv) (le_refl _) (by omega)
  · intro k hk hne; exact hI k (by omega)
  · intro c p _ _ hp hip; omega

theorem initLoop_length (cmp : τ → τ → Int) (mem : Mem τ σ) (n : Nat) :
    ∀ (k : Nat) (h : resultSetHeap), (heap.initLoop cmp mem n k h).Len = h.Len := by
  intro k
  induction k with
  | zero => intro h; rfl
  | succ k ih => intro h; simp only [heap.initLoop]; rw [ih, down_length]

theorem initLoop_perm (cmp : τ → τ → Int) (mem : Mem τ σ) (n : Nat) :
    ∀ (k : Nat) (h : resultSetHeap), (heap.initLoop cmp mem n k h).items.Perm h.items := by
  intro k
  induction k with
  | zero => intro h; exact List.Perm.refl _
  | succ k ih => intro h; simp only [heap.initLoop]; exact (ih _).trans (down_perm _ _ _ _ _)

theorem initLoop_heap {cmp : τ → τ → Int} (hc : IsCompare cmp) (mem : Mem τ σ) (n : Nat) :
    ∀ (k : Nat) (h : resultSetHeap), (∀ p ∈ h.items, p < mem.length) → n ≤ h.Len →
      (∀ j, k ≤ j → HeapAt cmp mem h n j) →
      ∀ j, HeapAt cmp mem (heap.initLoop cmp mem n k h) n j := by
  intro k
  induction k with
  | zero => intro h _ _ hI j; exact hI j (Nat.zero_le _)
  | succ k ih =>
    intro h hv hn hI
    simp only [heap.initLoop]
    apply ih
    · intro p hp; exact hv p ((down_perm cmp mem h k n).subset hp)
    · rw [down_length]; exact hn
    · exact down_heap hc mem h hv k n hn (fun j hj => hI j hj)

theorem Init_perm (cmp : τ → τ → Int) (mem : Mem τ σ) (h : resultSetHeap) :
    (heap.Init cmp mem h).items.Perm h.items := initLoop_perm cmp mem _ _ h

/-- After `heap.Init` the items satisfy the min-heap property. -/
theorem Init_heap {cmp : τ → τ → Int} (hc : IsCompare cmp) (mem : Mem τ σ) (h : resultSetHeap)
    (hv : ∀ p ∈ h.items, p < mem.length) : IsHeap cmp mem (heap.Init cmp mem h) := by
  intro j
  have hl : (heap.Init cmp mem h).Len = h.Len := initLoop_length cmp mem _ _ h
  rw [hl]
  apply initLoop_heap hc mem h.Len (h.Len / 2) h hv (le_refl _)
  intro k hk c hcn hcc
  omega

theorem up_zero (cmp : τ → τ → Int) (mem : Mem τ σ) (h : resultSetHeap) :
    heap.up cmp mem h 0 = h := by
  simp [heap.up, heap.upLoop]

theorem Fix_zero (cmp : τ → τ → Int) (mem : Mem τ σ) (h : resultSetHeap) :
    heap.Fix cmp mem h 0 = (heap.down cmp mem h 0 h.Len).1 := by
  unfold heap.Fix
  simp only
  split
  · rw [up_zero]
  · rfl

theorem Fix_perm (cmp : τ → τ → Int) (mem : Mem τ σ) (h : resultSetHeap) :
    (heap.Fix cmp mem h 0).items.Perm h.items := by
  rw [Fix_zero]; exact down_perm _ _ _ _ _

/-- The call `heap.Fix(h, 0)` restores the min-heap property when only the root is out
of place. -/
theorem Fix_heap {cmp : τ → τ → Int} (hc : IsCompare cmp) (mem : Mem τ σ) (h : resultSetHeap)
    (hv : ∀ p ∈ h.items, p < mem.length) (hI : ∀ k, 0 < k → HeapAt cmp mem h h.Len k) :
    IsHeap cmp mem (heap.Fix cmp mem h 0) := by
  intro k
  rw [Fix_zero, down_length]
  exact down_heap hc mem h hv 0 h.Len (le_refl _) hI k (Nat.zero_le _)

theorem Pop_length (cmp : τ → τ → Int) (mem : Mem τ σ) (h : resultSetHeap) :
    (heap.Pop cmp mem h).Len = h.Len - 1 := by
  unfold heap.Pop resultSetHeap.Pop
  simp only [resultSetHeap.Len, List.length_take]
  have := down_length cmp mem (h.Swap 0 (h.Len - 1)) 0 (h.Len - 1)
  rw [Swap_length] at this
  simp only [resultSetHeap.Len] at this
  omega

theorem Pop_get (cmp : τ → τ → Int) (mem : Mem τ σ) (h : resultSetHeap) (x : Nat)
    (hx : x < h.Len - 1) :
    (heap.Pop cmp mem h).items[x]? =
      (heap.down cmp mem (h.Swap 0 (h.Len - 1)) 0 (h.Len - 1)).1.items[x]? := by
  unfold heap.Pop resultSetHeap.Pop
  simp only
  have := down_length cmp mem (h.Swap 0 (h.Len - 1)) 0 (h.Len - 1)
  rw [Swap_length] at this
  simp only [resultSetHeap.Len] at this hx ⊢
  rw [List.getElem?_take_of_lt (by omega)]

/-- The call `heap.Pop(h)` removes the root and keeps every other item. -/
theorem Pop_perm (cmp : τ → τ → Int) (mem : Mem τ σ) (h : resultSetHeap) (top : Nat)
    (rest : List Nat) (hi : h.items = top :: rest) :
    (heap.Pop cmp mem h).items.Perm rest := by
  have hlen : h.Len = rest.length + 1 := by simp [resultSetHeap.Len, hi]
  have h0 : (0 : Nat) < h.Len := by omega
  have hn : h.Len - 1 < h.Len := by omega
  set d := (heap.down cmp mem (h.Swap 0 (h.Len - 1)) 0 (h.Len - 1)).1 with hd
  have hdl : d.Len = h.Len := by rw [hd, down_length, Swap_length]
  have hdp : d.items.Perm h.items := (down_perm _ _ _ _ _).trans (Swap_perm _ _ _)
  have hlast : d.items[h.Len - 1]? = some top := by
    rw [hd]
    unfold heap.down
    simp only
    rw [downLoop_get_ge cmp mem _ _ _ _ (by rw [Swap_length]; omega) _ (le_refl _),
      Swap_get h h0 hn, tr_right, hi]
    simp
  have hsplit : d.items = d.items.take (h.Len - 1) ++ [top] := by
    have e1 := (List.take_append_drop (h.Len - 1) d.items).symm
    have e2 : d.items.drop (h.Len - 1) = [top] := by
      apply List.ext_getElem?
      intro m
      rw [List.getElem?_drop]
      cases m with
      | zero => simpa using hlast
      | succ m =>
        simp only [List.getElem?_cons_succ, List.getElem?_nil]
        apply List.getElem?_eq_none
        have e3 : d.Len = d.items.length := rfl
        omega
    rw [e2] at e1
    exact e1
  have hP : (heap.Pop cmp mem h).items = d.items.take (h.Len - 1) := by
    unfold heap.Pop resultSetHeap.Pop
    simp only
    rw [← hd]
    simp only [resultSetHeap.Len] at hdl ⊢
    rw [hdl]
  rw [hP]
  have : (d.items.take (h.Len - 1) ++ [top]).Perm (rest ++ [top]) := by
    rw [← hsplit]
    exact hdp.trans (by rw [hi]; exact (List.perm_append_singleton top rest).symm)
  exact (List.perm_append_right_iff [top]).mp this

/-- The call `heap.Pop(h)` keeps the min-heap property. -/
theorem Pop_heap {cmp : τ → τ → Int} (hc : IsCompare cmp) (mem : Mem τ σ) (h : resultSetHeap)
    (hv : ∀ p ∈ h.items, p < mem.length) (hh : IsHeap cmp mem h) :
    IsHeap cmp mem (heap.Pop cmp mem h) := by
  intro k c hcn hcc
  rw [Pop_length] at hcn
  have hk : k < h.Len - 1 := by omega
  unfold resultSetHeap.Less
  rw [Pop_get cmp mem h c hcn, Pop_get cmp mem h k hk]
  have h0 : (0 : Nat) < h.Len := by omega
  have hn : h.Len - 1 < h.Len := by omega
  have hv1 : ∀ p ∈ (h.Swap 0 (h.Len - 1)).items, p < mem.length :=
    fun p hp => hv p ((Swap_perm h 0 (h.Len - 1)).subset hp)
  have := down_heap hc mem (h.Swap 0 (h.Len - 1)) hv1 0 (h.Len - 1)
    (by rw [Swap_length]; omega) (by
      intro k' hk' c' hc' hcc'
      rw [Swap_Less cmp mem h h0 hn, tr_other (by omega) (by omega),
        tr_other (by omega) (by omega)]
      exact hh k' c' (by omega) hcc') k (Nat.zero_le _) c hcn hcc
  exact this

/-- In a min-heap no item compares less than the root. -/
theorem root_min {cmp : τ → τ → Int} (hc : IsCompare cmp) (mem : Mem τ σ) (h : resultSetHeap)
    (hv : ∀ p ∈ h.items, p < mem.length) (hh : IsHeap cmp mem h) :
    ∀ k, k < h.Len → h.Less cmp mem k 0 = false := by
  have ho := LessOrder_of hc mem h hv
  intro k
  induction k using Nat.strong_induction_on with
  | _ k ih =>
    intro hk
    cases k with
    | zero =>
      cases e : h.Less cmp mem 0 0 with
      | false => rfl
      | true => have := ho.asymm 0 0 hk hk e; rw [e] at this; exact this
    | succ k =>
      have hp : k / 2 < k + 1 := by omega
      have h1 : h.Less cmp mem (k + 1) (k / 2) = false := hh (k / 2) (k + 1) hk (by omega)
      exact ho.ntrans _ _ _ hk (by omega) (by omega) h1 (ih (k / 2) hp (by omega))

end reads

namespace reads

variable {τ σ : Type}

/-! ## Memory updates -/

theorem Mem.close_length (mem : Mem τ σ) (p : Nat) : (Mem.close mem p).length = mem.length := by
  unfold Mem.close; split <;> simp

theorem Mem.close_get (mem : Mem τ σ) (p q : Nat) :
    (Mem.close mem p)[q]? = if q = p then (mem[p]?).map ResultSet.Close else mem[q]? := by
  unfold Mem.close
  cases hp : mem[p]? with
  | none =>
    by_cases e : q = p
    · subst e; simp [hp]
    · simp [e]
  | some s =>
    have hlt : p < mem.length := (List.getElem?_eq_some_iff.mp hp).1
    by_cases e : q = p
    · subst e; simp [List.getElem?_set, hlt]
    · have e' : ¬ p = q := fun h => e h.symm
      simp [List.getElem?_set, e, e']

theorem closeAll_length : ∀ (l : List Nat) (mem : Mem τ σ), (closeAll mem l).length = mem.length := by
  intro l
  induction l with
  | nil => intro mem; rfl
  | cons p l ih => intro mem; simp only [closeAll]; rw [ih, Mem.close_length]

theorem closeAll_get : ∀ (l : List Nat) (mem : Mem τ σ) (q : Nat), l.Nodup →
    (closeAll mem l)[q]? = if q ∈ l then (mem[q]?).map ResultSet.Close else mem[q]? := by
  intro l
  induction l with
  | nil => intro mem q _; simp [closeAll]
  | cons p l ih =>
    intro mem q hn
    have hn' := List.nodup_cons.mp hn
    simp only [closeAll]
    rw [ih _ q hn'.2, Mem.close_get]
    by_cases e : q = p
    · subst e; simp [hn'.1]
    · simp [e]

/-! ## The cases of `mergedResultSet.Next` -/

theorem Next_nil [Add σ] (cmp : τ → τ → Int) (mem : Mem τ σ) (r : mergedResultSet σ)
    (hi : r.heap.items = []) : mergedResultSet.Next cmp mem r = (false, mem, r) := by
  unfold mergedResultSet.Next; rw [hi]

theorem Next_first [Add σ] (cmp : τ → τ → Int) (mem : Mem τ σ) (r : mergedResultSet σ)
    {top : Nat} {rest : List Nat} (hi : r.heap.items = top :: rest) (hf : r.first = true) :
    mergedResultSet.Next cmp mem r = (true, mem, { r with first := false }) := by
  unfold mergedResultSet.Next; rw [hi]; simp [hf]

theorem Next_advance [Add σ] (cmp : τ → τ → Int) (mem : Mem τ σ) (r : mergedResultSet σ)
    {top : Nat} {rest : List Nat} (hi : r.heap.items = top :: rest) (hf : r.first = false)
    {s : ResultSet τ σ} (hs : mem[top]? = some s) {t : τ} {ts : List τ}
    (hp : s.pending = t :: ts) :
    mergedResultSet.Next cmp mem r =
      (true, mem.set top { s with tags := t, pending := ts },
        { r with heap := heap.Fix cmp (mem.set top { s with tags := t, pending := ts }) r.heap 0 }) := by
  unfold mergedResultSet.Next; rw [hi]; simp [hf, hs, ResultSet.Next, hp]

theorem Next_pop [Add σ] (cmp : τ → τ → Int) (mem : Mem τ σ) (r : mergedResultSet σ)
    {top : Nat} {rest : List Nat} (hi : r.heap.items = top :: rest) (hf : r.first = false)
    {s : ResultSet τ σ} (hs : mem[top]? = some s) (hp : s.pending = []) (he : s.err = none) :
    mergedResultSet.Next cmp mem r =
      (decide ((heap.Pop cmp (mem.set top s.finish) r.heap).items.length > 0),
        mem.set top s.finish,
        { r with heap := heap.Pop cmp (mem.set top s.finish) r.heap,
                 stats := r.stats + s.stats }) := by
  have hlt : top < mem.length := (List.getElem?_eq_some_iff.mp hs).1
  unfold mergedResultSet.Next; rw [hi]
  simp [hf, hs, ResultSet.Next, hp, Mem.close, hlt, ResultSet.Err, he, ResultSet.Close,
    ResultSet.finish, ResultSet.Stats]

theorem Next_error [Add σ] (cmp : τ → τ → Int) (mem : Mem τ σ) (r : mergedResultSet σ)
    {top : Nat} {rest : List Nat} (hi : r.heap.items = top :: rest) (hf : r.first = false)
    {s : ResultSet τ σ} (hs : mem[top]? = some s) (hp : s.pending = []) {e : String}
    (he : s.err = some e) :
    mergedResultSet.Next cmp mem r =
      (false,
        closeAll (mem.set top s.finish) (heap.Pop cmp (mem.set top s.finish) r.heap).items,
        { heap := { items := [] }, err := some e, first := false,
          stats := r.stats + s.stats }) := by
  have hlt : top < mem.length := (List.getElem?_eq_some_iff.mp hs).1
  unfold mergedResultSet.Next; rw [hi]
  simp [hf, hs, ResultSet.Next, hp, Mem.close, hlt, ResultSet.Err, he, ResultSet.Close,
    ResultSet.finish, ResultSet.Stats, mergedResultSet.Close]

end reads

namespace reads

variable {τ σ : Type}

/-- The cases of `mergedResultSet.Next` on a well-formed heap: empty heap, first call,
root advanced, root exhausted without error, root exhausted with an error. -/
theorem Next_cases [Add σ] (cmp : τ → τ → Int) (mem : Mem τ σ) (r : mergedResultSet σ)
    (hw : WF mem r.heap.items) :
    (r.heap.items = [] ∧ mergedResultSet.Next cmp mem r = (false, mem, r)) ∨
    (∃ top rest, r.heap.items = top :: rest ∧ r.first = true ∧
      mergedResultSet.Next cmp mem r = (true, mem, { r with first := false })) ∨
    (∃ top rest s t ts, r.heap.items = top :: rest ∧ r.first = false ∧ mem[top]? = some s ∧
      s.pending = t :: ts ∧
      mergedResultSet.Next cmp mem r =
        (true, mem.set top { s with tags := t, pending := ts },
          { r with heap :=
              heap.Fix cmp (mem.set top { s with tags := t, pending := ts }) r.heap 0 })) ∨
    (∃ top rest s, r.heap.items = top :: rest ∧ r.first = false ∧ mem[top]? = some s ∧
      s.pending = [] ∧ s.err = none ∧
      mergedResultSet.Next cmp mem r =
        (decide ((heap.Pop cmp (mem.set top s.finish) r.heap).items.length > 0),
          mem.set top s.finish,
          { r with heap := heap.Pop cmp (mem.set top s.finish) r.heap,
                   stats := r.stats + s.stats })) ∨
    (∃ top rest s e, r.heap.items = top :: rest ∧ r.first = false ∧ mem[top]? = some s ∧
      s.pending = [] ∧ s.err = some e ∧
      mergedResultSet.Next cmp mem r =
        (false,
          closeAll (mem.set top s.finish) (heap.Pop cmp (mem.set top s.finish) r.heap).items,
          { heap := { items := [] }, err := some e, first := false,
            stats := r.stats + s.stats })) := by
  cases hi : r.heap.items with
  | nil => left; exact ⟨rfl, Next_nil cmp mem r hi⟩
  | cons top rest =>
    right
    rcases Bool.eq_false_or_eq_true r.first with hf | hf
    · left; exact ⟨top, rest, rfl, hf, Next_first cmp mem r hi hf⟩
    · right
      have hlt : top < mem.length := hw.1 top (by rw [hi]; exact List.mem_cons_self _ _)
      have hs : mem[top]? = some (mem.get ⟨top, hlt⟩) := List.getElem?_eq_getElem hlt
      generalize mem.get ⟨top, hlt⟩ = s at hs
      cases hp : s.pending with
      | cons t ts =>
        left; exact ⟨top, rest, s, t, ts, rfl, hf, hs, hp, Next_advance cmp mem r hi hf hs hp⟩
      | nil =>
        right
        cases he : s.err with
        | none => left; exact ⟨top, rest, s, rfl, hf, hs, hp, he, Next_pop cmp mem r hi hf hs hp he⟩
        | some e =>
          right; exact ⟨top, rest, s, e, rfl, hf, hs, hp, he, Next_error cmp mem r hi hf hs hp he⟩

theorem WF_perm {mem mem' : Mem τ σ} {l l' : List Nat} (hw : WF mem l) (hp : l'.Perm l)
    (hl : mem'.length = mem.length) : WF mem' l' :=
  ⟨fun p hp' => by rw [hl]; exact hw.1 p (hp.subset hp'), hp.nodup_iff.mpr hw.2⟩

theorem WF_tail {mem : Mem τ σ} {top : Nat} {rest : List Nat} (hw : WF mem (top :: rest)) :
    WF mem rest ∧ top ∉ rest :=
  ⟨⟨fun p hp => hw.1 p (List.mem_cons_of_mem _ hp), (List.nodup_cons.mp hw.2).2⟩,
    (List.nodup_cons.mp hw.2).1⟩

/-- `Next` keeps the heap well-formed and the memory size. -/
theorem Next_WF [Add σ] (cmp : τ → τ → Int) (mem : Mem τ σ) (r : mergedResultSet σ)
    (hw : WF mem r.heap.items) :
    WF (mergedResultSet.Next cmp mem r).2.1 (mergedResultSet.Next cmp mem r).2.2.heap.items ∧
      (mergedResultSet.Next cmp mem r).2.1.length = mem.length := by
  rcases Next_cases cmp mem r hw with ⟨_, e⟩ | ⟨top, rest, _, _, e⟩ |
    ⟨top, rest, s, t, ts, hi, _, hs, _, e⟩ | ⟨top, rest, s, hi, _, hs, _, _, e⟩ |
    ⟨top, rest, s, e', hi, _, hs, _, _, e⟩
  · rw [e]; exact ⟨hw, rfl⟩
  · rw [e]; exact ⟨hw, rfl⟩
  · rw [e]
    exact ⟨WF_perm hw (Fix_perm _ _ _) (by simp), by simp⟩
  · rw [e]
    refine ⟨WF_perm (WF_tail (hi ▸ hw)).1 (Pop_perm _ _ _ top rest hi) (by simp), by simp⟩
  · rw [e]
    refine ⟨⟨by simp, List.nodup_nil⟩, ?_⟩
    simp [closeAll_length]

/-- A `Next` call that returns false leaves the heap empty. -/
theorem Next_false [Add σ] (cmp : τ → τ → Int) (mem : Mem τ σ) (r : mergedResultSet σ)
    (hw : WF mem r.heap.items) (hb : (mergedResultSet.Next cmp mem r).1 = false) :
    (mergedResultSet.Next cmp mem r).2.2.heap.items = [] := by
  rcases Next_cases cmp mem r hw with ⟨hi, e⟩ | ⟨top, rest, _, _, e⟩ |
    ⟨top, rest, s, t, ts, hi, _, hs, _, e⟩ | ⟨top, rest, s, hi, _, hs, _, _, e⟩ |
    ⟨top, rest, s, e', hi, _, hs, _, _, e⟩
  · rw [e]; exact hi
  · rw [e] at hb; simp at hb
  · rw [e] at hb; simp at hb
  · rw [e] at hb ⊢
    simp only [gt_iff_lt, decide_eq_false_iff_not, not_lt, Nat.le_zero_eq,
      List.length_eq_zero] at hb
    exact hb
  · rw [e]

/-- A `Next` call that returns true leaves the heap non-empty, so that `Tags()` is
defined. -/
theorem Next_true [Add σ] (cmp : τ → τ → Int) (mem : Mem τ σ) (r : mergedResultSet σ)
    (hw : WF mem r.heap.items) (hb : (mergedResultSet.Next cmp mem r).1 = true) :
    ∃ top rest s, (mergedResultSet.Next cmp mem r).2.2.heap.items = top :: rest ∧
      (mergedResultSet.Next cmp mem r).2.1[top]? = some s ∧
      mergedResultSet.Tags (mergedResultSet.Next cmp mem r).2.1
        (mergedResultSet.Next cmp mem r).2.2 = some s.tags := by
  have hw' := (Next_WF cmp mem r hw).1
  have hne : (mergedResultSet.Next cmp mem r).2.2.heap.items ≠ [] := by
    rcases Next_cases cmp mem r hw with ⟨hi, e⟩ | ⟨top, rest, hi, _, e⟩ |
      ⟨top, rest, s, t, ts, hi, _, hs, _, e⟩ | ⟨top, rest, s, hi, _, hs, _, _, e⟩ |
      ⟨top, rest, s, e', hi, _, hs, _, _, e⟩
    · rw [e] at hb; simp at hb
    · rw [e]; simp [hi]
    · rw [e]
      intro h0
      have := (Fix_perm cmp (mem.set top { s with tags := t, pending := ts }) r.heap).length_eq
      simp only at h0
      rw [h0, hi] at this
      simp at this
    · rw [e] at hb ⊢
      simp only [gt_iff_lt, decide_eq_true_eq] at hb
      intro h0
      simp only at h0
      rw [h0] at hb
      simp at hb
    · rw [e] at hb; simp at hb
  generalize mergedResultSet.Next cmp mem r = n at hw' hne ⊢
  cases hi : n.2.2.heap.items with
  | nil => exact absurd hi hne
  | cons top rest =>
    have hlt : top < n.2.1.length := hw'.1 top (by rw [hi]; exact List.mem_cons_self _ _)
    refine ⟨top, rest, n.2.1.get ⟨top, hlt⟩, rfl, List.getElem?_eq_getElem hlt, ?_⟩
    unfold mergedResultSet.Tags
    rw [hi]
    simp only
    rw [List.getElem?_eq_getElem hlt]
    rfl

end reads

namespace reads

variable {τ σ : Type}

/-! ## The ordering invariant -/

theorem mem_of_getElem?_some {l : List Nat} {i p : Nat} (h : l[i]? = some p) : p ∈ l := by
  obtain ⟨hi, e⟩ := List.getElem?_eq_some_iff.mp h
  rw [← e]; exact List.getElem_mem hi

theorem mem_of_getElem?_eq_some {α : Type} {l : List α} {i : Nat} {p : α}
    (h : l[i]? = some p) : p ∈ l := by
  obtain ⟨hi, e⟩ := List.getElem?_eq_some_iff.mp h
  rw [← e]; exact List.getElem_mem hi

theorem ptrLess_set_ne (cmp : τ → τ → Int) (mem : Mem τ σ) (top : Nat) (x : ResultSet τ σ)
    {p q : Nat} (hp : p ≠ top) (hq : q ≠ top) :
    ptrLess cmp (mem.set top x) p q = ptrLess cmp mem p q := by
  unfold ptrLess
  rw [List.getElem?_set_ne (Ne.symm hp), List.getElem?_set_ne (Ne.symm hq)]

theorem getElem?_set_tags (mem : Mem τ σ) {top : Nat} {s x : ResultSet τ σ}
    (hs : mem[top]? = some s) (hx : x.tags = s.tags) (p : Nat) :
    ((mem.set top x)[p]?).map ResultSet.Tags = (mem[p]?).map ResultSet.Tags := by
  have hlt : top < mem.length := (List.getElem?_eq_some_iff.mp hs).1
  by_cases e : top = p
  · subst e; simp [List.getElem?_set, hlt, hs, ResultSet.Tags, hx]
  · rw [List.getElem?_set_ne e]

theorem ptrLess_congr (cmp : τ → τ → Int) (mem mem' : Mem τ σ) (p q : Nat)
    (hp : (mem'[p]?).map ResultSet.Tags = (mem[p]?).map ResultSet.Tags)
    (hq : (mem'[q]?).map ResultSet.Tags = (mem[q]?).map ResultSet.Tags) :
    ptrLess cmp mem' p q = ptrLess cmp mem p q := by
  unfold ptrLess
  cases h1 : mem'[p]? <;> cases h2 : mem[p]? <;> cases h3 : mem'[q]? <;> cases h4 : mem[q]? <;>
    simp_all

theorem Less_congr (cmp : τ → τ → Int) (mem mem' : Mem τ σ) (h : resultSetHeap) (i j : Nat)
    (hp : ∀ p ∈ h.items, (mem'[p]?).map ResultSet.Tags = (mem[p]?).map ResultSet.Tags) :
    h.Less cmp mem' i j = h.Less cmp mem i j := by
  unfold resultSetHeap.Less
  cases hi : h.items[i]? with
  | none => rfl
  | some p =>
    cases hj : h.items[j]? with
    | none => rfl
    | some q =>
      exact ptrLess_congr cmp mem mem' p q (hp p (mem_of_getElem?_some hi))
        (hp q (mem_of_getElem?_some hj))

theorem IsHeap_congr (cmp : τ → τ → Int) (mem mem' : Mem τ σ) (h : resultSetHeap)
    (hp : ∀ p ∈ h.items, (mem'[p]?).map ResultSet.Tags = (mem[p]?).map ResultSet.Tags)
    (hh : IsHeap cmp mem h) : IsHeap cmp mem' h := by
  intro k c hc hcc
  rw [Less_congr cmp mem mem' h c k hp]
  exact hh k c hc hcc

theorem contents_of {mem : Mem τ σ} {p : Nat} {s : ResultSet τ σ} (h : mem[p]? = some s) :
    contents mem p = s.tags :: s.pending := by
  unfold contents; rw [h]

theorem contents_set_ne (mem : Mem τ σ) {top q : Nat} (x : ResultSet τ σ) (h : q ≠ top) :
    contents (mem.set top x) q = contents mem q := by
  unfold contents; rw [List.getElem?_set_ne (Ne.symm h)]

theorem contents_set_eq (mem : Mem τ σ) {top : Nat} (x : ResultSet τ σ) (h : top < mem.length) :
    contents (mem.set top x) top = x.tags :: x.pending := by
  unfold contents; simp [List.getElem?_set, h]

theorem cmp_self_le {cmp : τ → τ → Int} (hc : IsCompare cmp) (a : τ) : cmp a a ≤ 0 := by
  have := hc.swap a a; omega

theorem chain_le {cmp : τ → τ → Int} (hc : IsCompare cmp) :
    ∀ (l : List τ) (a : τ), NonDecreasing cmp (a :: l) → ∀ x ∈ l, cmp a x ≤ 0 := by
  intro l
  induction l with
  | nil => intro a _ x hx; simp at hx
  | cons b l ih =>
    intro a h x hx
    have h' := List.chain'_cons.mp h
    rcases List.mem_cons.mp hx with e | hx'
    · rw [e]; exact h'.1
    · exact hc.trans a b x h'.1 (ih b h'.2 x hx')

/-- The root of the min-heap is positioned on a tag set that is not greater than the tag
set any active stream is positioned on. -/
theorem root_le {cmp : τ → τ → Int} (hc : IsCompare cmp) (mem : Mem τ σ) (h : resultSetHeap)
    (hv : ∀ p ∈ h.items, p < mem.length) (hh : IsHeap cmp mem h) {top : Nat} {rest : List Nat}
    (hi : h.items = top :: rest) {s : ResultSet τ σ} (hs : mem[top]? = some s) :
    ∀ q ∈ h.items, ∀ sq, mem[q]? = some sq → cmp s.tags sq.tags ≤ 0 := by
  intro q hq sq hsq
  obtain ⟨k, hk, hkq⟩ := List.getElem_of_mem hq
  have h0 : 0 < h.Len := by simp [resultSetHeap.Len, hi]
  have := root_min hc mem h hv hh k hk
  unfold resultSetHeap.Less at this
  rw [List.getElem?_eq_getElem hk, List.getElem?_eq_getElem h0] at this
  simp only [hkq] at this
  have e0 : h.items[0] = top := by simp [hi]
  rw [e0] at this
  unfold ptrLess at this
  rw [hsq, hs] at this
  simp only [beq_eq_false_iff_ne, ne_eq, ResultSet.Tags] at this
  have s1 := hc.swap s.tags sq.tags
  have r1 := hc.range sq.tags s.tags
  omega

/-- Every tag set that an active stream still has to deliver is at least the root's. -/
theorem contents_ge_root {cmp : τ → τ → Int} (hc : IsCompare cmp) (mem : Mem τ σ)
    (r : mergedResultSet σ) (hI : Inv1 cmp mem r) {top : Nat} {rest : List Nat}
    (hi : r.heap.items = top :: rest) {s : ResultSet τ σ} (hs : mem[top]? = some s) :
    ∀ q ∈ r.heap.items, ∀ x ∈ contents mem q, cmp s.tags x ≤ 0 := by
  intro q hq x hx
  have hlt := hI.wf.1 q hq
  have hsq : mem[q]? = some (mem.get ⟨q, hlt⟩) := List.getElem?_eq_getElem hlt
  generalize mem.get ⟨q, hlt⟩ = sq at hsq
  have h1 := root_le hc mem r.heap hI.wf.1 hI.heap hi hs q hq sq hsq
  have h2 := hI.sorted q hq
  rw [contents_of hsq] at hx h2
  rcases List.mem_cons.mp hx with e | hx'
  · rw [e]; exact h1
  · exact hc.trans _ _ _ h1 (chain_le hc _ _ h2 x hx')

theorem nodup_head_ne {top : Nat} {rest : List Nat} (hn : (top :: rest).Nodup) {k : Nat}
    (hk : k < (top :: rest).length) (h0 : 0 < k) : (top :: rest).get ⟨k, hk⟩ ≠ top := by
  intro e
  have hm : (top :: rest).get ⟨k, hk⟩ ∈ rest := by
    cases k with
    | zero => omega
    | succ k => exact List.getElem_mem _
  rw [e] at hm
  exact (List.nodup_cons.mp hn).1 hm

theorem IsHeap_empty (cmp : τ → τ → Int) (mem : Mem τ σ) : IsHeap cmp mem { items := [] } := by
  intro k c hc _
  simp [resultSetHeap.Len] at hc

/-- `Next` keeps the min-heap property. -/
theorem Next_heap [Add σ] {cmp : τ → τ → Int} (hc : IsCompare cmp) (mem : Mem τ σ)
    (r : mergedResultSet σ) (hw : WF mem r.heap.items) (hh : IsHeap cmp mem r.heap) :
    IsHeap cmp (mergedResultSet.Next cmp mem r).2.1 (mergedResultSet.Next cmp mem r).2.2.heap := by
  rcases Next_cases cmp mem r hw with ⟨_, e⟩ | ⟨top, rest, _, _, e⟩ |
    ⟨top, rest, s, t, ts, hi, _, hs, _, e⟩ | ⟨top, rest, s, hi, _, hs, _, _, e⟩ |
    ⟨top, rest, s, e', hi, _, hs, _, _, e⟩
  · rw [e]; exact hh
  · rw [e]; exact hh
  · rw [e]
    have hv1 : ∀ p ∈ r.heap.items,
        p < (mem.set top { s with tags := t, pending := ts }).length := by
      intro p hp; rw [List.length_set]; exact hw.1 p hp
    apply Fix_heap hc _ _ hv1
    intro k hk c hcn hcc
    have hkn : k < r.heap.Len := by omega
    rw [Less_eq_ptrLess cmp _ r.heap hcn hkn]
    have hn := hw.2
    have n1 : r.heap.items.get ⟨c, hcn⟩ ≠ top := by
      have := nodup_head_ne (hi ▸ hn) (k := c) (by rw [← hi]; exact hcn) (by omega)
      simpa [hi] using this
    have n2 : r.heap.items.get ⟨k, hkn⟩ ≠ top := by
      have := nodup_head_ne (hi ▸ hn) (k := k) (by rw [← hi]; exact hkn) hk
      simpa [hi] using this
    rw [ptrLess_set_ne cmp mem top _ n1 n2, ← Less_eq_ptrLess cmp mem r.heap hcn hkn]
    exact hh k c hcn hcc
  · rw [e]
    have hv1 : ∀ p ∈ r.heap.items, p < (mem.set top s.finish).length := by
      intro p hp; rw [List.length_set]; exact hw.1 p hp
    apply Pop_heap hc _ _ hv1
    exact IsHeap_congr cmp mem _ r.heap
      (fun p _ => getElem?_set_tags mem hs (by simp [ResultSet.finish]) p) hh
  · rw [e]; exact IsHeap_empty cmp _

/-- `Next` keeps the ordering invariant. -/
theorem Next_Inv1 [Add σ] {cmp : τ → τ → Int} (hc : IsCompare cmp) (mem : Mem τ σ)
    (r : mergedResultSet σ) (hI : Inv1 cmp mem r) :
    Inv1 cmp (mergedResultSet.Next cmp mem r).2.1 (mergedResultSet.Next cmp mem r).2.2 := by
  have hw' := (Next_WF cmp mem r hI.wf).1
  refine ⟨hw', Next_heap hc mem r hI.wf hI.heap, ?_⟩
  · rcases Next_cases cmp mem r hI.wf with ⟨_, e⟩ | ⟨top, rest, _, _, e⟩ |
      ⟨top, rest, s, t, ts, hi, _, hs, hp, e⟩ | ⟨top, rest, s, hi, _, hs, _, _, e⟩ |
      ⟨top, rest, s, e', hi, _, hs, _, _, e⟩
    · rw [e]; exact hI.sorted
    · rw [e]; exact hI.sorted
    · rw [e]
      intro p hpm
      have hp' : p ∈ r.heap.items := (Fix_perm _ _ _).subset hpm
      have hlt : top < mem.length := (List.getElem?_eq_some_iff.mp hs).1
      by_cases e1 : p = top
      · subst e1
        simp only
        rw [contents_set_eq mem _ hlt]
        have := hI.sorted p hp'
        rw [contents_of hs, hp] at this
        exact (List.chain'_cons.mp this).2
      · simp only
        rw [contents_set_ne mem _ e1]
        exact hI.sorted p hp'
    · rw [e]
      intro p hp
      have hp' : p ∈ rest := (Pop_perm _ _ _ top rest hi).subset hp
      have hne : p ≠ top := fun h => (WF_tail (hi ▸ hI.wf)).2 (h ▸ hp')
      simp only
      rw [contents_set_ne mem _ hne]
      exact hI.sorted p (by rw [hi]; exact List.mem_cons_of_mem _ hp')
    · rw [e]; intro p hp; simp at hp

/-- After a successful `Next` that is not the first call, the root is positioned on a
tag set not less than the one before. -/
theorem Next_le [Add σ] {cmp : τ → τ → Int} (hc : IsCompare cmp) (mem : Mem τ σ)
    (r : mergedResultSet σ) (hI : Inv1 cmp mem r) (hf : r.first = false) {top : Nat}
    {rest : List Nat} (hi : r.heap.items = top :: rest) {s : ResultSet τ σ}
    (hs : mem[top]? = some s) {top' : Nat} {rest' : List Nat} {s' : ResultSet τ σ}
    (hi' : (mergedResultSet.Next cmp mem r).2.2.heap.items = top' :: rest')
    (hs' : (mergedResultSet.Next cmp mem r).2.1[top']? = some s') :
    cmp s.tags s'.tags ≤ 0 := by
  have hge := contents_ge_root hc mem r hI hi hs
  have hlt : top < mem.length := (List.getElem?_eq_some_iff.mp hs).1
  rcases Next_cases cmp mem r hI.wf with ⟨h0, e⟩ | ⟨top1, rest1, _, hf1, e⟩ |
    ⟨top1, rest1, s1, t, ts, hi1, _, hs1, hp, e⟩ | ⟨top1, rest1, s1, hi1, _, hs1, _, _, e⟩ |
    ⟨top1, rest1, s1, e', hi1, _, hs1, _, _, e⟩
  · rw [hi] at h0; simp at h0
  · rw [hf] at hf1; simp at hf1
  · rw [hi] at hi1
    obtain ⟨rfl, rfl⟩ := List.cons.inj hi1
    rw [hs] at hs1
    obtain rfl := Option.some.inj hs1
    rw [e] at hi' hs'
    simp only at hi' hs'
    have hm : top' ∈ r.heap.items :=
      (Fix_perm _ _ _).subset (by rw [hi']; exact List.mem_cons_self _ _)
    by_cases e1 : top' = top
    · subst e1
      simp only [List.getElem?_set, hlt, if_true] at hs'
      obtain rfl := Option.some.inj hs'
      apply hge top' hm
      rw [contents_of hs, hp]; simp
    · rw [List.getElem?_set_ne (Ne.symm e1)] at hs'
      apply hge top' hm
      rw [contents_of hs']; simp
  · rw [hi] at hi1
    obtain ⟨rfl, rfl⟩ := List.cons.inj hi1
    rw [e] at hi' hs'
    simp only at hi' hs'
    have hm' : top' ∈ rest :=
      (Pop_perm _ _ _ top rest hi).subset (by rw [hi']; exact List.mem_cons_self _ _)
    have hne : top' ≠ top := fun h => (WF_tail (hi ▸ hI.wf)).2 (h ▸ hm')
    rw [List.getElem?_set_ne (Ne.symm hne)] at hs'
    apply hge top' (by rw [hi]; exact List.mem_cons_of_mem _ hm')
    rw [contents_of hs']; simp
  · rw [e] at hi'; simp at hi'

end reads

namespace reads

variable {τ σ : Type}

/-! ## Construction -/

theorem hasNext_set_ne (mem : Mem τ σ) {p q : Nat} (x : ResultSet τ σ) (h : q ≠ p) :
    hasNext (mem.set p x) q = hasNext mem q := by
  unfold hasNext; rw [List.getElem?_set_ne (Ne.symm h)]

/-- The loop of `resultSetHeap.init` advances every listed stream once, appends those
that yielded a value and closes the others. -/
theorem initLoop_spec : ∀ (ps : List Nat) (mem : Mem τ σ) (items : List Nat), ps.Nodup →
    (∀ p ∈ ps, p < mem.length) →
    (resultSetHeap.initLoop mem items ps).1.length = mem.length ∧
    (∀ q, (resultSetHeap.initLoop mem items ps).1[q]? =
      if q ∈ ps then (mem[q]?).map ResultSet.start else mem[q]?) ∧
    (resultSetHeap.initLoop mem items ps).2 = items ++ ps.filter (hasNext mem) := by
  intro ps
  induction ps with
  | nil => intro mem items _ _; simp [resultSetHeap.initLoop]
  | cons p ps ih =>
    intro mem items hn hv
    have hn' := List.nodup_cons.mp hn
    have hlt : p < mem.length := hv p (List.mem_cons_self _ _)
    have hs : mem[p]? = some (mem.get ⟨p, hlt⟩) := List.getElem?_eq_getElem hlt
    generalize mem.get ⟨p, hlt⟩ = s at hs
    have hfilter : ∀ x : ResultSet τ σ,
        ps.filter (hasNext (mem.set p x)) = ps.filter (hasNext mem) := by
      intro x
      apply List.filter_congr
      intro q hq
      exact hasNext_set_ne mem x (fun e => hn'.1 (e ▸ hq))
    cases hp : s.pending with
    | cons t ts =>
      have e : resultSetHeap.initLoop mem items (p :: ps) =
          resultSetHeap.initLoop (mem.set p { s with tags := t, pending := ts })
            (items ++ [p]) ps := by
        rw [resultSetHeap.initLoop]; simp [hs, ResultSet.Next, hp]
      rw [e]
      obtain ⟨h1, h2, h3⟩ := ih (mem.set p { s with tags := t, pending := ts }) (items ++ [p])
        hn'.2 (by intro q hq; rw [List.length_set]; exact hv q (List.mem_cons_of_mem _ hq))
      refine ⟨by rw [h1, List.length_set], ?_, ?_⟩
      · intro q
        rw [h2 q]
        by_cases e1 : q = p
        · subst e1
          simp [hn'.1, List.getElem?_set, hlt, hs, ResultSet.start, hp]
        · have e1' : ¬ p = q := fun h => e1 h.symm
          simp [e1, List.getElem?_set_ne e1']
      · rw [h3, hfilter]
        have : hasNext mem p = true := by simp [hasNext, hs, hp]
        simp [List.filter_cons, this]
    | nil =>
      have e : resultSetHeap.initLoop mem items (p :: ps) =
          resultSetHeap.initLoop (mem.set p s.finish) items ps := by
        rw [resultSetHeap.initLoop]
        simp [hs, ResultSet.Next, hp, ResultSet.Close, ResultSet.finish]
      rw [e]
      obtain ⟨h1, h2, h3⟩ := ih (mem.set p s.finish) items
        hn'.2 (by intro q hq; rw [List.length_set]; exact hv q (List.mem_cons_of_mem _ hq))
      refine ⟨by rw [h1, List.length_set], ?_, ?_⟩
      · intro q
        rw [h2 q]
        by_cases e1 : q = p
        · subst e1
          simp [hn'.1, List.getElem?_set, hlt, hs, ResultSet.start, hp]
        · have e1' : ¬ p = q := fun h => e1 h.symm
          simp [e1, List.getElem?_set_ne e1']
      · rw [h3, hfilter]
        have : hasNext mem p = false := by simp [hasNext, hs, hp]
        simp [List.filter_cons, this]

/-- The memory after `resultSetHeap.init`: every stream has been advanced once. -/
theorem init_mem (cmp : τ → τ → Int) (results : Mem τ σ) :
    (resultSetHeap.init cmp results (List.range results.length)).1 =
      results.map ResultSet.start := by
  obtain ⟨h1, h2, _⟩ := initLoop_spec (List.range results.length) results []
    (List.nodup_range _) (fun p hp => List.mem_range.mp hp)
  unfold resultSetHeap.init
  simp only
  apply List.ext_getElem?
  intro q
  rw [h2 q, List.getElem?_map]
  by_cases hq : q < results.length
  · simp [hq]
  · simp only [List.mem_range, hq, if_false]
    rw [List.getElem?_eq_none (by omega)]
    rfl

/-- The heap after `resultSetHeap.init` holds exactly the streams that yielded a
value. -/
theorem init_items (cmp : τ → τ → Int) (results : Mem τ σ) :
    (resultSetHeap.init cmp results (List.range results.length)).2.items.Perm
      ((List.range results.length).filter (hasNext results)) := by
  obtain ⟨_, _, h3⟩ := initLoop_spec (List.range results.length) results []
    (List.nodup_range _) (fun p hp => List.mem_range.mp hp)
  unfold resultSetHeap.init
  simp only
  refine (Init_perm _ _ _).trans ?_
  simp only
  rw [h3]
  simp

theorem init_WF (cmp : τ → τ → Int) (results : Mem τ σ) :
    WF (resultSetHeap.init cmp results (List.range results.length)).1
      (resultSetHeap.init cmp results (List.range results.length)).2.items := by
  constructor
  · intro p hp
    have := (init_items cmp results).subset hp
    rw [init_mem, List.length_map]
    exact List.mem_range.mp (List.mem_filter.mp this).1
  · exact (init_items cmp results).nodup_iff.mpr ((List.nodup_range _).filter _)

theorem init_heap {cmp : τ → τ → Int} (hc : IsCompare cmp) (results : Mem τ σ) :
    IsHeap cmp (resultSetHeap.init cmp results (List.range results.length)).1
      (resultSetHeap.init cmp results (List.range results.length)).2 := by
  obtain ⟨h1, _, h3⟩ := initLoop_spec (List.range results.length) results []
    (List.nodup_range _) (fun p hp => List.mem_range.mp hp)
  unfold resultSetHeap.init
  simp only
  apply Init_heap hc
  intro p hp
  simp only at hp
  rw [h3] at hp
  rw [h1]
  simp only [List.nil_append] at hp
  exact List.mem_range.mp (List.mem_filter.mp hp).1

/-- An active stream after `resultSetHeap.init` has its whole input to deliver. -/
theorem init_contents (results : Mem τ σ) {p : Nat} (hp : hasNext results p = true) :
    ∃ s, results[p]? = some s ∧ contents (results.map ResultSet.start) p = s.pending := by
  unfold hasNext at hp
  cases hs : results[p]? with
  | none => simp [hs] at hp
  | some s =>
    refine ⟨s, rfl, ?_⟩
    unfold contents
    rw [List.getElem?_map, hs]
    simp only [Option.map_some']
    cases hpe : s.pending with
    | nil => simp [hs, hpe] at hp
    | cons t ts => simp [ResultSet.start, hpe]

/-- The value of `NewMergedResultSet` on two or more streams. -/
theorem NewMergedResultSet_eq [Zero σ] (cmp : τ → τ → Int) (results : Mem τ σ)
    (hl : 2 ≤ results.length) :
    NewMergedResultSet cmp results =
      (results.map ResultSet.start,
        .merged { heap := (resultSetHeap.init cmp results (List.range results.length)).2,
                  err := none, first := true, stats := 0 }) := by
  unfold NewMergedResultSet
  match results, hl with
  | a :: b :: l, _ =>
    simp only
    rw [init_mem]

end reads

namespace reads

variable {τ σ : Type}

/-! ## What remains to be delivered -/

theorem remaining_set_ne (mem : Mem τ σ) {top : Nat} (x : ResultSet τ σ) {l : List Nat}
    (h : top ∉ l) : remaining (mem.set top x) l = remaining mem l := by
  unfold remaining
  induction l with
  | nil => rfl
  | cons q l ih =>
    have hq : q ≠ top := fun e => h (e ▸ List.mem_cons_self _ _)
    have hl : top ∉ l := fun e => h (List.mem_cons_of_mem _ e)
    simp only [List.flatMap_cons]
    rw [contents_set_ne mem x hq, ih hl]

theorem remaining_perm (mem : Mem τ σ) {l l' : List Nat} (h : l.Perm l') :
    (remaining mem l).Perm (remaining mem l') :=
  List.Perm.flatMap_right _ h

theorem remaining_cons (mem : Mem τ σ) (top : Nat) (rest : List Nat) :
    remaining mem (top :: rest) = contents mem top ++ remaining mem rest := by
  simp [remaining]

/-- After the root has been advanced and the heap fixed, what remains is what the root
now has to deliver plus what the other streams had. -/
theorem advance_remaining (mem : Mem τ σ) {top : Nat} {rest : List Nat}
    (hw : WF mem (top :: rest)) (x : ResultSet τ σ) {l1 : List Nat}
    (hp : l1.Perm (top :: rest)) :
    (remaining (mem.set top x) l1).Perm ((x.tags :: x.pending) ++ remaining mem rest) := by
  refine (remaining_perm _ hp).trans ?_
  rw [remaining_cons, contents_set_eq mem x (hw.1 top (List.mem_cons_self _ _)),
    remaining_set_ne mem x (WF_tail hw).2]

/-- After the root has been popped, what remains is what the other streams had. -/
theorem pop_remaining (mem : Mem τ σ) {top : Nat} {rest : List Nat}
    (hw : WF mem (top :: rest)) (x : ResultSet τ σ) {l1 : List Nat} (hp : l1.Perm rest) :
    (remaining (mem.set top x) l1).Perm (remaining mem rest) := by
  refine (remaining_perm _ hp).trans ?_
  rw [remaining_set_ne mem x (WF_tail hw).2]

/-- Every `Next` call that returns true uses up the budget. -/
theorem Next_budget [Add σ] (cmp : τ → τ → Int) (mem : Mem τ σ) (r : mergedResultSet σ)
    (hw : WF mem r.heap.items) (hb : (mergedResultSet.Next cmp mem r).1 = true) :
    budget (mergedResultSet.Next cmp mem r).2.1 (mergedResultSet.Next cmp mem r).2.2 <
      budget mem r := by
  rcases Next_cases cmp mem r hw with ⟨hi, e⟩ | ⟨top, rest, hi, hf, e⟩ |
    ⟨top, rest, s, t, ts, hi, hf, hs, hp, e⟩ | ⟨top, rest, s, hi, hf, hs, hp, _, e⟩ |
    ⟨top, rest, s, e', hi, _, hs, _, _, e⟩
  · rw [e] at hb; simp at hb
  · rw [e]; simp [budget, hf]
  · rw [e]
    have h1 := (advance_remaining mem (hi ▸ hw) { s with tags := t, pending := ts }
      (hi ▸ Fix_perm cmp (mem.set top { s with tags := t, pending := ts }) r.heap)).length_eq
    simp only [budget, hf]
    rw [h1, hi, remaining_cons, contents_of hs, hp]
    simp
  · rw [e]
    have h1 := (pop_remaining mem (hi ▸ hw) s.finish
      (Pop_perm cmp (mem.set top s.finish) r.heap top rest hi)).length_eq
    simp only [budget, hf]
    rw [h1, hi, remaining_cons, contents_of hs, hp]
    simp
  · rw [e] at hb; simp at hb

theorem Next_first_false [Add σ] (cmp : τ → τ → Int) (mem : Mem τ σ) (r : mergedResultSet σ)
    (hw : WF mem r.heap.items) (h : r.first = false ∨ r.heap.items ≠ []) :
    (mergedResultSet.Next cmp mem r).2.2.first = false := by
  rcases Next_cases cmp mem r hw with ⟨hi, e⟩ | ⟨top, rest, hi, hf, e⟩ |
    ⟨top, rest, s, t, ts, hi, hf, hs, hp, e⟩ | ⟨top, rest, s, hi, hf, hs, hp, _, e⟩ |
    ⟨top, rest, s, e', hi, _, hs, _, _, e⟩
  · rw [e]
    rcases h with h | h
    · exact h
    · exact absurd hi h
  · rw [e]
  · rw [e]; exact hf
  · rw [e]; exact hf
  · rw [e]

/-- With a bound above the budget the consumer loop runs until `Next()` returns
false. -/
theorem drain_terminates [Add σ] (cmp : τ → τ → Int) :
    ∀ (fuel : Nat) (mem : Mem τ σ) (r : mergedResultSet σ), WF mem r.heap.items →
      budget mem r < fuel → ∃ o, drain cmp fuel mem r = some o := by
  intro fuel
  induction fuel with
  | zero => intro mem r _ h; omega
  | succ fuel ih =>
    intro mem r hw hf
    rw [drain]
    cases hb : (mergedResultSet.Next cmp mem r).1 with
    | false => simp
    | true =>
      obtain ⟨top, rest, s, _, _, ht⟩ := Next_true cmp mem r hw hb
      have hlt := Next_budget cmp mem r hw hb
      obtain ⟨o, ho⟩ := ih _ _ (Next_WF cmp mem r hw).1 (by omega)
      simp [ht, ho]

/-- The end of the consumer loop: the heap is empty. -/
theorem drain_empty [Add σ] (cmp : τ → τ → Int) :
    ∀ (fuel : Nat) (mem : Mem τ σ) (r : mergedResultSet σ), WF mem r.heap.items →
      ∀ o, drain cmp fuel mem r = some o → o.2.2.heap.items = [] := by
  intro fuel
  induction fuel with
  | zero => intro mem r _ o h; simp [drain] at h
  | succ fuel ih =>
    intro mem r hw o ho
    rw [drain] at ho
    cases hb : (mergedResultSet.Next cmp mem r).1 with
    | false =>
      simp only [hb, Bool.false_eq_true, if_false, Option.some.injEq] at ho
      rw [← ho]
      exact Next_false cmp mem r hw hb
    | true =>
      obtain ⟨top, rest, s, _, _, ht⟩ := Next_true cmp mem r hw hb
      simp only [hb, if_true, ht, Option.map_eq_some'] at ho
      obtain ⟨o1, ho1, rfl⟩ := ho
      exact ih _ _ (Next_WF cmp mem r hw).1 o1 ho1

/-- The tag sets observed by the consumer loop after the first call are non-decreasing
and not less than the tag set the root was positioned on. -/
theorem drain_sorted [Add σ] {cmp : τ → τ → Int} (hc : IsCompare cmp) :
    ∀ (fuel : Nat) (mem : Mem τ σ) (r : mergedResultSet σ), Inv1 cmp mem r →
      r.first = false → ∀ top rest s, r.heap.items = top :: rest → mem[top]? = some s →
      ∀ o, drain cmp fuel mem r = some o → List.Chain (fun a b => cmp a b ≤ 0) s.tags o.1 := by
  intro fuel
  induction fuel with
  | zero => intro mem r _ _ _ _ _ _ _ o h; simp [drain] at h
  | succ fuel ih =>
    intro mem r hI hf top rest s hi hs o ho
    rw [drain] at ho
    cases hb : (mergedResultSet.Next cmp mem r).1 with
    | false =>
      simp only [hb, Bool.false_eq_true, if_false, Option.some.injEq] at ho
      rw [← ho]
      exact List.Chain.nil
    | true =>
      obtain ⟨top', rest', s', hi', hs', ht⟩ := Next_true cmp mem r hI.wf hb
      simp only [hb, if_true, ht, Option.map_eq_some'] at ho
      obtain ⟨o1, ho1, rfl⟩ := ho
      have h1 := ih _ _ (Next_Inv1 hc mem r hI)
        (Next_first_false cmp mem r hI.wf (Or.inl hf)) top' rest' s' hi' hs' o1 ho1
      exact List.Chain.cons (Next_le hc mem r hI hf hi hs hi' hs') h1

end reads

namespace reads

variable {τ σ : Type}

/-! ## The merger after construction -/

theorem flatMap_filter_nil {α β : Type} (P : α → Bool) (f : α → List β) :
    ∀ (l : List α), (∀ x ∈ l, P x = false → f x = []) →
      (l.filter P).flatMap f = l.flatMap f := by
  intro l
  induction l with
  | nil => intro _; rfl
  | cons a l ih =>
    intro h
    have ih' := ih (fun x hx => h x (List.mem_cons_of_mem _ hx))
    cases hP : P a with
    | true => simp [List.filter_cons, hP, ih']
    | false => simp [List.filter_cons, hP, ih', h a (List.mem_cons_self _ _) hP]

theorem flatMap_range_pendingAt : ∀ (l : Mem τ σ),
    (List.range l.length).flatMap (pendingAt l) = l.flatMap ResultSet.pending := by
  intro l
  induction l with
  | nil => rfl
  | cons a l ih =>
    rw [List.length_cons, List.range_succ_eq_map, List.flatMap_cons, List.flatMap_cons, ← ih]
    have e1 : pendingAt (a :: l) 0 = a.pending := by simp [pendingAt]
    have e2 : (List.map Nat.succ (List.range l.length)).flatMap (pendingAt (a :: l)) =
        (List.range l.length).flatMap (pendingAt l) := by
      rw [List.flatMap_def, List.flatMap_def, List.map_map]
      congr 1
      apply List.map_congr_left
      intro p _
      simp [pendingAt]
    rw [e1, e2]

/-- After construction the active streams have exactly the inputs to deliver. -/
theorem init_remaining (cmp : τ → τ → Int) (results : Mem τ σ) :
    (remaining (results.map ResultSet.start)
      (resultSetHeap.init cmp results (List.range results.length)).2.items).Perm
      (results.flatMap ResultSet.pending) := by
  refine (remaining_perm _ (init_items cmp results)).trans ?_
  rw [← flatMap_range_pendingAt results,
    ← flatMap_filter_nil (hasNext results) (pendingAt results)]
  · unfold remaining
    apply List.Perm.of_eq
    apply List.flatMap_congr
    intro p hp
    obtain ⟨s, hs, hc⟩ := init_contents results (List.mem_filter.mp hp).2
    rw [hc]; unfold pendingAt; rw [hs]
  · intro p _ hp
    unfold hasNext at hp
    unfold pendingAt
    cases hs : results[p]? with
    | none => rfl
    | some s =>
      rw [hs] at hp
      simp only [Bool.not_eq_false', List.isEmpty_iff] at hp
      exact hp

theorem init_Inv1 {cmp : τ → τ → Int} (hc : IsCompare cmp) (results : Mem τ σ)
    (hs : ∀ s ∈ results, NonDecreasing cmp s.pending) (r : mergedResultSet σ)
    (hr : r.heap = (resultSetHeap.init cmp results (List.range results.length)).2) :
    Inv1 cmp (results.map ResultSet.start) r := by
  have hw := init_WF cmp results
  have hh := init_heap hc results
  rw [init_mem] at hw hh
  refine ⟨hr ▸ hw, hr ▸ hh, ?_⟩
  intro p hp
  rw [hr] at hp
  have := (init_items cmp results).subset hp
  obtain ⟨s, hs', hc'⟩ := init_contents results (List.mem_filter.mp this).2
  rw [hc']
  exact hs s (mem_of_getElem?_eq_some hs')

end reads

namespace reads

variable {τ σ : Type}

/-! ## The merged output is ordered -/

theorem natCmp_isCompare : IsCompare natCmp := by
  refine ⟨?_, ?_, ?_⟩
  · intro a b; unfold natCmp; split_ifs <;> simp
  · intro a b; unfold natCmp; split_ifs <;> omega
  · intro a b c; unfold natCmp; split_ifs <;> intros <;> omega

/-- C1: for two or more source streams whose tag-set sequences are each non-decreasing
under the comparator, draining the merger built by `NewMergedResultSet` (a bound of
`drainBound results` calls of `Next()` is enough to reach the call that returns false)
observes a sequence of `Tags()` values that is non-decreasing under the comparator.
This holds whether or not the streams report errors, so in particular for error-free
ones. -/
theorem merged_tags_nondecreasing [Zero σ] [Add σ] (cmp : τ → τ → Int) (hc : IsCompare cmp)
    (results : Mem τ σ) (hl : 2 ≤ results.length)
    (hs : ∀ s ∈ results, NonDecreasing cmp s.pending)
    (fuel : Nat) (hfuel : drainBound results ≤ fuel) :
    ∃ mem r, NewMergedResultSet cmp results = (mem, Result.merged r) ∧
      ∃ out mem' r', drain cmp fuel mem r = some (out, mem', r') ∧ NonDecreasing cmp out := by
  rw [NewMergedResultSet_eq cmp results hl]
  refine ⟨_, _, rfl, ?_⟩
  have hI := init_Inv1 (σ := σ) hc results hs
    { heap := (resultSetHeap.init cmp results (List.range results.length)).2,
      err := none, first := true, stats := 0 } rfl
  have hb : budget (results.map ResultSet.start)
      ({ heap := (resultSetHeap.init cmp results (List.range results.length)).2,
         err := none, first := true, stats := 0 } : mergedResultSet σ) < fuel := by
    unfold budget
    rw [(init_remaining cmp results).length_eq]
    unfold drainBound at hfuel
    simp only [if_true]
    omega
  obtain ⟨o, ho⟩ := drain_terminates cmp fuel _ _ hI.wf hb
  refine ⟨o.1, o.2.1, o.2.2, ho, ?_⟩
  cases fuel with
  | zero => simp [drain] at ho
  | succ fuel =>
    rw [drain] at ho
    cases hi : (resultSetHeap.init cmp results (List.range results.length)).2.items with
    | nil =>
      rw [Next_nil cmp _ _ hi] at ho
      simp only [Bool.false_eq_true, if_false, Option.some.injEq] at ho
      rw [← ho]
      exact List.chain'_nil
    | cons top rest =>
      rw [Next_first cmp _ _ hi rfl] at ho
      have hw := hI.wf
      have hlt := hw.1 top (by rw [hi]; exact List.mem_cons_self _ _)
      have hs' : (results.map ResultSet.start)[top]? =
          some ((results.map ResultSet.start).get ⟨top, hlt⟩) := List.getElem?_eq_getElem hlt
      generalize (results.map ResultSet.start).get ⟨top, hlt⟩ = s at hs'
      have ht : mergedResultSet.Tags (results.map ResultSet.start)
          ({ heap := (resultSetHeap.init cmp results (List.range results.length)).2,
             err := none, first := false, stats := 0 } : mergedResultSet σ) = some s.tags := by
        unfold mergedResultSet.Tags
        simp only [hi, hs', Option.map_some', ResultSet.Tags]
      simp only [if_true, ht, Option.map_eq_some'] at ho
      obtain ⟨o1, ho1, rfl⟩ := ho
      exact drain_sorted hc fuel (results.map ResultSet.start)
        { heap := (resultSetHeap.init cmp results (List.range results.length)).2,
          err := none, first := false, stats := 0 }
        ⟨hI.wf, hI.heap, hI.sorted⟩ rfl top rest s hi hs' o1 ho1

/-- C1, on the sources `[A, C]`, `[B]`, `[D]` (as the numbers 1 to 4): the merged output
is `[A, B, C, D]`. -/
theorem merged_tags_nondecreasing_witness :
    (match NewMergedResultSet natCmp
        [ResultSet.ofList 0 [1, 3], ResultSet.ofList 0 [2], ResultSet.ofList (σ := Nat) 0 [4]] with
      | (m, Result.merged r) => (drain natCmp 6 m r).map Prod.fst
      | _ => none) = some [1, 2, 3, 4] ∧
    ∃ mem r, NewMergedResultSet natCmp
        [ResultSet.ofList 0 [1, 3], ResultSet.ofList 0 [2], ResultSet.ofList (σ := Nat) 0 [4]] =
          (mem, Result.merged r) ∧
      ∃ out mem' r', drain natCmp 6 mem r = some (out, mem', r') ∧ NonDecreasing natCmp out :=
  ⟨by decide,
    merged_tags_nondecreasing natCmp natCmp_isCompare
      [ResultSet.ofList 0 [1, 3], ResultSet.ofList 0 [2], ResultSet.ofList (σ := Nat) 0 [4]]
      (by decide) (by
        intro s hs
        simp only [List.mem_cons, List.mem_singleton, List.not_mem_nil, or_false] at hs
        rcases hs with rfl | rfl | rfl <;> simp [NonDecreasing, ResultSet.ofList, natCmp])
      6 (by decide)⟩

end reads

namespace reads

variable {τ σ : Type}

/-! ## The merged output is a rearrangement of the inputs -/

theorem start_err (s : ResultSet τ σ) : s.start.err = s.err := by
  unfold ResultSet.start; split <;> rfl

theorem init_ErrFree (results : Mem τ σ) (herr : ∀ s ∈ results, s.err = none)
    (items : List Nat) : ErrFree (results.map ResultSet.start) items := by
  intro p _ s hs
  rw [List.getElem?_map] at hs
  cases h : results[p]? with
  | none => rw [h] at hs; simp at hs
  | some s0 =>
    rw [h] at hs
    simp only [Option.map_some', Option.some.injEq] at hs
    rw [← hs, start_err]
    exact herr s0 (mem_of_getElem?_eq_some h)

/-- `Next` keeps the active streams error-free. -/
theorem Next_ErrFree [Add σ] (cmp : τ → τ → Int) (mem : Mem τ σ) (r : mergedResultSet σ)
    (hw : WF mem r.heap.items) (he : ErrFree mem r.heap.items) :
    ErrFree (mergedResultSet.Next cmp mem r).2.1 (mergedResultSet.Next cmp mem r).2.2.heap.items := by
  rcases Next_cases cmp mem r hw with ⟨hi, e⟩ | ⟨top, rest, hi, hf, e⟩ |
    ⟨top, rest, s, t, ts, hi, hf, hs, hp, e⟩ | ⟨top, rest, s, hi, hf, hs, hp, _, e⟩ |
    ⟨top, rest, s, e', hi, _, hs, _, _, e⟩
  · rw [e]; exact he
  · rw [e]; exact he
  · rw [e]
    intro p hpm x hx
    have hp' : p ∈ r.heap.items := (Fix_perm _ _ _).subset hpm
    have hlt : top < mem.length := (List.getElem?_eq_some_iff.mp hs).1
    simp only at hx
    by_cases e1 : top = p
    · subst e1
      simp only [List.getElem?_set, hlt, if_true, Option.some.injEq] at hx
      rw [← hx]
      exact he top hp' s hs
    · rw [List.getElem?_set_ne e1] at hx
      exact he p hp' x hx
  · rw [e]
    intro p hpm x hx
    have hp' : p ∈ rest := (Pop_perm _ _ _ top rest hi).subset hpm
    have hne : top ≠ p := fun h => (WF_tail (hi ▸ hw)).2 (h ▸ hp')
    simp only at hx
    rw [List.getElem?_set_ne hne] at hx
    exact he p (by rw [hi]; exact List.mem_cons_of_mem _ hp') x hx
  · rw [e]; intro p hpm; simp at hpm

/-- A `Next` call after the first one, on error-free streams, takes the tag set the
root was positioned on out of what remains to be delivered. -/
theorem Next_remaining [Add σ] (cmp : τ → τ → Int) (mem : Mem τ σ) (r : mergedResultSet σ)
    (hw : WF mem r.heap.items) (he : ErrFree mem r.heap.items) (hf : r.first = false)
    {top : Nat} {rest : List Nat} (hi : r.heap.items = top :: rest) {s : ResultSet τ σ}
    (hs : mem[top]? = some s) :
    (s.tags :: remaining (mergedResultSet.Next cmp mem r).2.1
      (mergedResultSet.Next cmp mem r).2.2.heap.items).Perm (remaining mem r.heap.items) := by
  rcases Next_cases cmp mem r hw with ⟨h0, e⟩ | ⟨top1, rest1, _, hf1, e⟩ |
    ⟨top1, rest1, s1, t, ts, hi1, _, hs1, hp, e⟩ | ⟨top1, rest1, s1, hi1, _, hs1, hp, _, e⟩ |
    ⟨top1, rest1, s1, e', hi1, _, hs1, _, herr, e⟩
  · rw [hi] at h0; simp at h0
  · rw [hf] at hf1; simp at hf1
  · rw [hi] at hi1
    obtain ⟨rfl, rfl⟩ := List.cons.inj hi1
    rw [hs] at hs1
    obtain rfl := Option.some.inj hs1
    rw [e, hi, remaining_cons, contents_of hs, hp]
    exact List.Perm.cons _ (advance_remaining mem (hi ▸ hw) _ (hi ▸ Fix_perm cmp _ r.heap))
  · rw [hi] at hi1
    obtain ⟨rfl, rfl⟩ := List.cons.inj hi1
    rw [hs] at hs1
    obtain rfl := Option.some.inj hs1
    rw [e, hi, remaining_cons, contents_of hs, hp]
    exact List.Perm.cons _ (pop_remaining mem (hi ▸ hw) _ (Pop_perm cmp _ r.heap top rest hi))
  · have := he top1 (by rw [hi1]; exact List.mem_cons_self _ _) s1 hs1
    rw [herr] at this; simp at this

/-- On error-free streams the consumer loop observes, after the first call, exactly what
the active streams had to deliver beyond the tag set the root was positioned on. -/
theorem drain_perm [Add σ] (cmp : τ → τ → Int) :
    ∀ (fuel : Nat) (mem : Mem τ σ) (r : mergedResultSet σ), WF mem r.heap.items →
      ErrFree mem r.heap.items → r.first = false →
      ∀ top rest s, r.heap.items = top :: rest → mem[top]? = some s →
      ∀ o, drain cmp fuel mem r = some o → (s.tags :: o.1).Perm (remaining mem r.heap.items) := by
  intro fuel
  induction fuel with
  | zero => intro mem r _ _ _ _ _ _ _ _ o h; simp [drain] at h
  | succ fuel ih =>
    intro mem r hw he hf top rest s hi hs o ho
    have hrem := Next_remaining cmp mem r hw he hf hi hs
    rw [drain] at ho
    cases hb : (mergedResultSet.Next cmp mem r).1 with
    | false =>
      simp only [hb, Bool.false_eq_true, if_false, Option.some.injEq] at ho
      rw [← ho]
      rw [Next_false cmp mem r hw hb] at hrem
      exact hrem
    | true =>
      obtain ⟨top', rest', s', hi', hs', ht⟩ := Next_true cmp mem r hw hb
      simp only [hb, if_true, ht, Option.map_eq_some'] at ho
      obtain ⟨o1, ho1, rfl⟩ := ho
      have h1 := ih _ _ (Next_WF cmp mem r hw).1 (Next_ErrFree cmp mem r hw he)
        (Next_first_false cmp mem r hw (Or.inl hf)) top' rest' s' hi' hs' o1 ho1
      exact (List.Perm.cons _ h1).trans hrem

/-- C2: for two or more error-free source streams, the tag sets observed by draining the
merger built by `NewMergedResultSet` are a rearrangement of all the tag sets of all the
input streams: none is lost, none is emitted twice, and equal tag sets of different
sources are all kept. -/
theorem merged_tags_perm [Zero σ] [Add σ] (cmp : τ → τ → Int) (results : Mem τ σ)
    (hl : 2 ≤ results.length) (herr : ∀ s ∈ results, s.err = none)
    (fuel : Nat) (hfuel : drainBound results ≤ fuel) :
    ∃ mem r, NewMergedResultSet cmp results = (mem, Result.merged r) ∧
      ∃ out mem' r', drain cmp fuel mem r = some (out, mem', r') ∧
        out.Perm (results.flatMap ResultSet.pending) := by
  rw [NewMergedResultSet_eq cmp results hl]
  refine ⟨_, _, rfl, ?_⟩
  have hw := init_WF cmp results
  rw [init_mem] at hw
  have hrem := init_remaining cmp results
  have hb : budget (results.map ResultSet.start)
      ({ heap := (resultSetHeap.init cmp results (List.range results.length)).2,
         err := none, first := true, stats := 0 } : mergedResultSet σ) < fuel := by
    unfold budget
    rw [hrem.length_eq]
    unfold drainBound at hfuel
    simp only [if_true]
    omega
  obtain ⟨o, ho⟩ := drain_terminates cmp fuel _ _ hw hb
  refine ⟨o.1, o.2.1, o.2.2, ho, ?_⟩
  cases fuel with
  | zero => simp [drain] at ho
  | succ fuel =>
    rw [drain] at ho
    cases hi : (resultSetHeap.init cmp results (List.range results.length)).2.items with
    | nil =>
      rw [Next_nil cmp _ _ hi] at ho
      simp only [Bool.false_eq_true, if_false, Option.some.injEq] at ho
      rw [← ho]
      rw [hi] at hrem
      exact hrem
    | cons top rest =>
      rw [Next_first cmp _ _ hi rfl] at ho
      have hlt := hw.1 top (by rw [hi]; exact List.mem_cons_self _ _)
      have hs' : (results.map ResultSet.start)[top]? =
          some ((results.map ResultSet.start).get ⟨top, hlt⟩) := List.getElem?_eq_getElem hlt
      generalize (results.map ResultSet.start).get ⟨top, hlt⟩ = s at hs'
      have ht : mergedResultSet.Tags (results.map ResultSet.start)
          ({ heap := (resultSetHeap.init cmp results (List.range results.length)).2,
             err := none, first := false, stats := 0 } : mergedResultSet σ) = some s.tags := by
        unfold mergedResultSet.Tags
        simp only [hi, hs', Option.map_some', ResultSet.Tags]
      simp only [if_true, ht, Option.map_eq_some'] at ho
      obtain ⟨o1, ho1, rfl⟩ := ho
      exact (drain_perm cmp fuel (results.map ResultSet.start)
        { heap := (resultSetHeap.init cmp results (List.range results.length)).2,
          err := none, first := false, stats := 0 }
        hw (init_ErrFree results herr _) rfl top rest s hi hs' o1 ho1).trans hrem

/-- C2, on the sources `[X]` and `[X]` (as the number 7): the merged output is
`[X, X]`. -/
theorem merged_tags_perm_witness :
    (match NewMergedResultSet natCmp
        [ResultSet.ofList 0 [7], ResultSet.ofList (σ := Nat) 0 [7]] with
      | (m, Result.merged r) => (drain natCmp 4 m r).map Prod.fst
      | _ => none) = some [7, 7] ∧
    ∃ mem r, NewMergedResultSet natCmp
        [ResultSet.ofList 0 [7], ResultSet.ofList (σ := Nat) 0 [7]] = (mem, Result.merged r) ∧
      ∃ out mem' r', drain natCmp 4 mem r = some (out, mem', r') ∧
        out.Perm ([ResultSet.ofList 0 [7], ResultSet.ofList (σ := Nat) 0 [7]].flatMap
          ResultSet.pending) :=
  ⟨by decide,
    merged_tags_perm natCmp [ResultSet.ofList 0 [7], ResultSet.ofList (σ := Nat) 0 [7]]
      (by decide) (by
        intro s hs
        simp only [List.mem_cons, List.mem_singleton, List.not_mem_nil, or_false] at hs
        rcases hs with rfl | rfl <;> rfl)
      4 (by decide)⟩

end reads

namespace reads

variable {τ σ : Type}

/-! ## Errors at construction, and the degenerate constructions -/

/-- C3, at the failing input: the first of two streams fails on its first advance
(K = 1) with the error `boom`, the second delivers one tag set.  After the merger has
been drained its `Err()` is nil: `resultSetHeap.init` closed the failing stream without
looking at its `Err()`. -/
theorem init_swallows_error :
    (match NewMergedResultSet natCmp
        [{ tags := 0, pending := [], err := some "boom", stats := 0, closed := 0, done := false },
         ResultSet.ofList (σ := Nat) 0 [1]] with
      | (m, Result.merged r) => (drain natCmp 3 m r).map (fun o => (o.1, o.2.2.Err))
      | _ => none) = some ([1], none) := by
  decide

/-- C8, as stated, fails: for the empty list `NewMergedResultSet` returns the nil
interface, and a first `Next()` on it does not return false, it panics. -/
theorem empty_merge_next_panics :
    Result.Next natCmp (NewMergedResultSet natCmp ([] : Mem Nat Nat)).1
      (NewMergedResultSet natCmp ([] : Mem Nat Nat)).2 = none := by
  decide

/-- C8, amended: for the empty list `NewMergedResultSet` returns nil, no result set at
all; nothing is built and there is nothing to iterate, and a `Next()` call on the
returned value is not defined. -/
theorem empty_merge_is_nil [Zero σ] [Add σ] (cmp : τ → τ → Int) :
    NewMergedResultSet cmp ([] : Mem τ σ) = ([], Result.nil) ∧
      Result.Next cmp ([] : Mem τ σ) (Result.nil : Result σ) = none :=
  ⟨rfl, rfl⟩

/-- C9: for a single-element list `[s]`, `NewMergedResultSet` returns `s` itself (the
pointer to it) and leaves it as it is: not advanced, not closed, no heap built.
Advancing the result is advancing `s`, and its tag set, error and statistics are
those of `s`. -/
theorem single_merge_is_identity [Zero σ] [Add σ] (cmp : τ → τ → Int) (s : ResultSet τ σ) :
    NewMergedResultSet cmp [s] = ([s], Result.stream 0) ∧
      Result.Next cmp [s] (Result.stream 0 : Result σ) =
        some (s.Next.1, [s.Next.2], Result.stream 0) :=
  ⟨rfl, by simp [Result.Next]⟩

end reads

namespace reads

variable {τ σ : Type}

/-! ## The closing discipline -/

theorem init_Inv4 (cmp : τ → τ → Int) (results : Mem τ σ) (r : mergedResultSet σ)
    (hr : r.heap = (resultSetHeap.init cmp results (List.range results.length)).2)
    (he : r.err = none) : Inv4 results (results.map ResultSet.start) r := by
  have hw := init_WF cmp results
  rw [init_mem] at hw
  refine ⟨hr ▸ hw, ?_, fun h => absurd he h⟩
  intro i s0 hs0
  refine ⟨s0.start, by rw [List.getElem?_map, hs0]; rfl, ?_⟩
  have hi : i < results.length := (List.getElem?_eq_some_iff.mp hs0).1
  have hmem : i ∈ r.heap.items ↔ hasNext results i = true := by
    rw [hr, (init_items cmp results).mem_iff, List.mem_filter, List.mem_range]
    exact ⟨fun h => h.2, fun h => ⟨hi, h⟩⟩
  cases hp : s0.pending with
  | nil =>
    have : hasNext results i = false := by simp [hasNext, hs0, hp]
    have hn : i ∉ r.heap.items := by rw [hmem, this]; simp
    simp [hn, ResultSet.start, hp, ResultSet.finish]
  | cons t ts =>
    have : hasNext results i = true := by simp [hasNext, hs0, hp]
    have hn : i ∈ r.heap.items := hmem.mpr this
    simp [hn, ResultSet.start, hp]

/-- `Next` keeps the closing discipline. -/
theorem Next_Inv4 [Add σ] (cmp : τ → τ → Int) (results mem : Mem τ σ) (r : mergedResultSet σ)
    (hI : Inv4 results mem r) :
    Inv4 results (mergedResultSet.Next cmp mem r).2.1 (mergedResultSet.Next cmp mem r).2.2 := by
  have hw' := (Next_WF cmp mem r hI.wf).1
  rcases Next_cases cmp mem r hI.wf with ⟨hi, e⟩ | ⟨top, rest, hi, hf, e⟩ |
    ⟨top, rest, s, t, ts, hi, hf, hs, hp, e⟩ | ⟨top, rest, s, hi, hf, hs, hp, _, e⟩ |
    ⟨top, rest, s, e', hi, _, hs, _, _, e⟩
  · rw [e]; exact hI
  · rw [e]; exact ⟨hI.wf, hI.closed, hI.err⟩
  · rw [e] at hw' ⊢
    have hlt : top < mem.length := (List.getElem?_eq_some_iff.mp hs).1
    refine ⟨hw', ?_, ?_⟩
    · intro i s0 hs0
      obtain ⟨x, hx, hc⟩ := hI.closed i s0 hs0
      have hm : i ∈ (heap.Fix cmp (mem.set top { s with tags := t, pending := ts })
          r.heap 0).items ↔ i ∈ r.heap.items := (Fix_perm _ _ _).mem_iff
      simp only [hm]
      by_cases e1 : top = i
      · subst e1
        rw [hs] at hx
        obtain rfl := Option.some.inj hx
        exact ⟨{ s with tags := t, pending := ts }, by simp [List.getElem?_set, hlt], hc⟩
      · exact ⟨x, by rw [List.getElem?_set_ne e1]; exact hx, hc⟩
    · intro h
      have := hI.err h
      rw [hi] at this; simp at this
  · rw [e] at hw' ⊢
    have hlt : top < mem.length := (List.getElem?_eq_some_iff.mp hs).1
    have hnt : top ∉ rest := (WF_tail (hi ▸ hI.wf)).2
    refine ⟨hw', ?_, ?_⟩
    · intro i s0 hs0
      obtain ⟨x, hx, hc⟩ := hI.closed i s0 hs0
      have hm : i ∈ (heap.Pop cmp (mem.set top s.finish) r.heap).items ↔ i ∈ rest :=
        (Pop_perm _ _ _ top rest hi).mem_iff
      simp only [hm]
      rw [hi] at hc
      by_cases e1 : top = i
      · subst e1
        rw [hs] at hx
        obtain rfl := Option.some.inj hx
        refine ⟨s.finish, by simp [List.getElem?_set, hlt], ?_⟩
        simp only [List.mem_cons, true_or, if_true] at hc
        simp [hnt, ResultSet.finish, hc]
      · refine ⟨x, by rw [List.getElem?_set_ne e1]; exact hx, ?_⟩
        have e1' : ¬ i = top := fun h => e1 h.symm
        simp only [List.mem_cons, e1', false_or] at hc
        exact hc
    · intro h
      have := hI.err h
      rw [hi] at this; simp at this
  · rw [e] at hw' ⊢
    have hlt : top < mem.length := (List.getElem?_eq_some_iff.mp hs).1
    have hnt : top ∉ rest := (WF_tail (hi ▸ hI.wf)).2
    have hpp := Pop_perm cmp (mem.set top s.finish) r.heap top rest hi
    have hnd : (heap.Pop cmp (mem.set top s.finish) r.heap).items.Nodup :=
      hpp.nodup_iff.mpr (WF_tail (hi ▸ hI.wf)).1.2
    refine ⟨hw', ?_, fun _ => rfl⟩
    intro i s0 hs0
    obtain ⟨x, hx, hc⟩ := hI.closed i s0 hs0
    rw [hi] at hc
    simp only [closeAll_get _ _ _ hnd, hpp.mem_iff, List.not_mem_nil, if_false]
    by_cases e1 : top = i
    · subst e1
      rw [hs] at hx
      obtain rfl := Option.some.inj hx
      simp only [List.mem_cons, true_or, if_true] at hc
      refine ⟨s.finish, by simp [hnt, List.getElem?_set, hlt], ?_⟩
      simp [ResultSet.finish, hc]
    · have e1' : ¬ i = top := fun h => e1 h.symm
      simp only [List.mem_cons, e1', false_or] at hc
      rw [List.getElem?_set_ne e1, hx]
      by_cases e2 : i ∈ rest
      · refine ⟨x.Close, by simp [e2], ?_⟩
        simp only [e2, if_true] at hc
        simp [ResultSet.Close, hc]
      · refine ⟨x, by simp [e2], ?_⟩
        simp only [e2, if_false] at hc
        exact hc

/-- `Close` keeps the closing discipline. -/
theorem Close_Inv4 (results mem : Mem τ σ) (r : mergedResultSet σ) (hI : Inv4 results mem r) :
    Inv4 results (mergedResultSet.Close mem r).1 (mergedResultSet.Close mem r).2 := by
  unfold mergedResultSet.Close
  refine ⟨⟨by simp, List.nodup_nil⟩, ?_, fun _ => rfl⟩
  intro i s0 hs0
  obtain ⟨x, hx, hc⟩ := hI.closed i s0 hs0
  simp only [closeAll_get _ _ _ hI.wf.2, List.not_mem_nil, if_false, hx]
  by_cases e2 : i ∈ r.heap.items
  · refine ⟨x.Close, by simp [e2], ?_⟩
    simp only [e2, if_true] at hc
    simp [ResultSet.Close, hc]
  · refine ⟨x, by simp [e2], ?_⟩
    simp only [e2, if_false] at hc
    exact hc

theorem run_append [Add σ] (cmp : τ → τ → Int) : ∀ (a b : List Call) (mem : Mem τ σ)
    (r : mergedResultSet σ),
    run cmp (a ++ b) mem r =
      ((run cmp a mem r).1 ++ (run cmp b (run cmp a mem r).2.1 (run cmp a mem r).2.2).1,
        (run cmp b (run cmp a mem r).2.1 (run cmp a mem r).2.2).2) := by
  intro a
  induction a with
  | nil => intro b mem r; simp [run]
  | cons c a ih =>
    intro b mem r
    cases c with
    | next =>
      show run cmp (Call.next :: (a ++ b)) mem r = _
      simp only [run, ih, List.cons_append]
    | close =>
      show run cmp (Call.close :: (a ++ b)) mem r = _
      simp only [run, ih]

/-- Every sequence of calls keeps the closing discipline. -/
theorem run_Inv4 [Add σ] (cmp : τ → τ → Int) (results : Mem τ σ) : ∀ (calls : List Call)
    (mem : Mem τ σ) (r : mergedResultSet σ), Inv4 results mem r →
    Inv4 results (run cmp calls mem r).2.1 (run cmp calls mem r).2.2 := by
  intro calls
  induction calls with
  | nil => intro mem r h; exact h
  | cons c calls ih =>
    intro mem r h
    cases c with
    | next => simp only [run]; exact ih _ _ (Next_Inv4 cmp results mem r h)
    | close => simp only [run]; exact ih _ _ (Close_Inv4 results mem r h)

/-- On an empty heap no call changes anything, and every `Next()` returns false. -/
theorem run_empty [Add σ] (cmp : τ → τ → Int) : ∀ (calls : List Call) (mem : Mem τ σ)
    (r : mergedResultSet σ), r.heap.items = [] →
    (run cmp calls mem r).2 = (mem, r) ∧ ∀ b ∈ (run cmp calls mem r).1, b = false := by
  intro calls
  induction calls with
  | nil => intro mem r _; simp [run]
  | cons c calls ih =>
    intro mem r h
    cases c with
    | next =>
      simp only [run, Next_nil cmp mem r h]
      obtain ⟨h1, h2⟩ := ih mem r h
      refine ⟨h1, ?_⟩
      intro b hb
      rcases List.mem_cons.mp hb with e | hb'
      · exact e
      · exact h2 b hb'
    | close =>
      have hc : mergedResultSet.Close mem r = (mem, r) := by
        unfold mergedResultSet.Close
        rw [h]
        simp only [closeAll]
        congr
        cases r with
        | mk hp e f st => cases hp with | mk items => simp only at h; rw [h]
      simp only [run, hc]
      exact ih mem r h

end reads

namespace reads

variable {τ σ : Type}

theorem merged_Inv4 [Zero σ] [Add σ] (cmp : τ → τ → Int) (results : Mem τ σ)
    (hl : 2 ≤ results.length) (mem : Mem τ σ) (r : mergedResultSet σ)
    (hnew : NewMergedResultSet cmp results = (mem, Result.merged r)) (calls : List Call) :
    Inv4 results (run cmp calls mem r).2.1 (run cmp calls mem r).2.2 := by
  rw [NewMergedResultSet_eq cmp results hl] at hnew
  simp only [Prod.mk.injEq, Result.merged.injEq] at hnew
  obtain ⟨rfl, rfl⟩ := hnew
  exact run_Inv4 cmp results calls _ _ (init_Inv4 cmp results _ rfl rfl)

/-- C4: for two or more source streams and every sequence of `Next()` and `Close()`
calls on the merger built from them that ends with a `Close()` call, or with a `Next()`
call that returned false, or with an error recorded, every source stream has received
exactly one `Close()` call: its count is one more than it was when handed in. -/
theorem sources_closed_exactly_once [Zero σ] [Add σ] (cmp : τ → τ → Int) (results : Mem τ σ)
    (hl : 2 ≤ results.length) (mem : Mem τ σ) (r : mergedResultSet σ)
    (hnew : NewMergedResultSet cmp results = (mem, Result.merged r)) (calls : List Call)
    (hend : calls.getLast? = some Call.close ∨
      (calls.getLast? = some Call.next ∧ (run cmp calls mem r).1.getLast? = some false) ∨
      (run cmp calls mem r).2.2.Err ≠ none) :
    ∀ (i : Nat) (s0 : ResultSet τ σ), results[i]? = some s0 →
      ∃ s, (run cmp calls mem r).2.1[i]? = some s ∧ s.closed = s0.closed + 1 := by
  have hI := merged_Inv4 cmp results hl mem r hnew calls
  have hempty : (run cmp calls mem r).2.2.heap.items = [] := by
    rcases hend with h | ⟨h, ht⟩ | h
    · obtain ⟨pre, rfl⟩ : ∃ pre, calls = pre ++ [Call.close] := by
        rcases List.eq_nil_or_concat calls with e | ⟨pre, c, e⟩
        · rw [e] at h; simp at h
        · rw [e, List.concat_eq_append, List.getLast?_concat] at h
          exact ⟨pre, by rw [e, Option.some.inj h]; simp⟩
      rw [run_append]
      simp [run, mergedResultSet.Close]
    · obtain ⟨pre, rfl⟩ : ∃ pre, calls = pre ++ [Call.next] := by
        rcases List.eq_nil_or_concat calls with e | ⟨pre, c, e⟩
        · rw [e] at h; simp at h
        · rw [e, List.concat_eq_append, List.getLast?_concat] at h
          exact ⟨pre, by rw [e, Option.some.inj h]; simp⟩
      have hI1 := merged_Inv4 cmp results hl mem r hnew pre
      rw [run_append] at ht ⊢
      simp only [run, List.getLast?_concat, Option.some.injEq] at ht
      simp only [run]
      exact Next_false cmp _ _ hI1.wf ht
    · exact hI.err h
  intro i s0 hs0
  obtain ⟨s, hs, hc⟩ := hI.closed i s0 hs0
  rw [hempty] at hc
  exact ⟨s, hs, by simpa using hc⟩

/-- C4, on two streams delivering `[1]` and `[2]`, with the calls `Next`, `Next`,
`Close`: the first stream has been closed once. -/
theorem sources_closed_exactly_once_witness :
    ∃ s, (run natCmp [Call.next, Call.next, Call.close] (sampleClean.map ResultSet.start)
        sampleMerger).2.1[0]? = some s ∧ s.closed = 0 + 1 :=
  sources_closed_exactly_once natCmp sampleClean (by decide) (sampleClean.map ResultSet.start)
    sampleMerger (by decide) [Call.next, Call.next, Call.close] (Or.inl (by decide)) 0
    { tags := 0, pending := [1], err := none, stats := 5, closed := 0, done := false }
    (by decide)

/-- C10: once the merger built from two or more source streams has an error recorded,
the heap is empty and every source stream has received exactly one `Close()` call; and
whatever `Next()` and `Close()` calls follow, the memory and the merger stay as they
are, so `Err()` keeps returning the recorded error, and every `Next()` returns false. -/
theorem error_is_sticky [Zero σ] [Add σ] (cmp : τ → τ → Int) (results : Mem τ σ)
    (hl : 2 ≤ results.length) (mem : Mem τ σ) (r : mergedResultSet σ)
    (hnew : NewMergedResultSet cmp results = (mem, Result.merged r)) (calls : List Call)
    (e : String) (herr : (run cmp calls mem r).2.2.Err = some e) :
    (run cmp calls mem r).2.2.heap.items = [] ∧
    (∀ (i : Nat) (s0 : ResultSet τ σ), results[i]? = some s0 →
      ∃ s, (run cmp calls mem r).2.1[i]? = some s ∧ s.closed = s0.closed + 1) ∧
    ∀ later : List Call,
      (run cmp later (run cmp calls mem r).2.1 (run cmp calls mem r).2.2).2 =
        (run cmp calls mem r).2 ∧
      (run cmp later (run cmp calls mem r).2.1 (run cmp calls mem r).2.2).2.2.Err = some e ∧
      ∀ b ∈ (run cmp later (run cmp calls mem r).2.1 (run cmp calls mem r).2.2).1, b = false := by
  have hI := merged_Inv4 cmp results hl mem r hnew calls
  have hne : (run cmp calls mem r).2.2.err ≠ none := by
    unfold mergedResultSet.Err at herr; rw [herr]; simp
  have hempty := hI.err hne
  refine ⟨hempty, ?_, ?_⟩
  · intro i s0 hs0
    obtain ⟨s, hs, hc⟩ := hI.closed i s0 hs0
    rw [hempty] at hc
    exact ⟨s, hs, by simpa using hc⟩
  · intro later
    obtain ⟨h1, h2⟩ := run_empty cmp later _ _ hempty
    refine ⟨h1, ?_, h2⟩
    rw [h1]; exact herr

/-- C10, on two streams of which the first fails with `boom` after delivering `[1]`:
the second `Next()` records the error, and the calls `Next`, `Close`, `Next` that
follow change nothing. -/
theorem error_is_sticky_witness :
    (run natCmp [Call.next, Call.next] (sampleFailing.map ResultSet.start)
      sampleMerger).2.2.heap.items = [] ∧
    (∃ s, (run natCmp [Call.next, Call.next] (sampleFailing.map ResultSet.start)
      sampleMerger).2.1[1]? = some s ∧ s.closed = 0 + 1) ∧
    (run natCmp [Call.next, Call.close, Call.next]
      (run natCmp [Call.next, Call.next] (sampleFailing.map ResultSet.start) sampleMerger).2.1
      (run natCmp [Call.next, Call.next] (sampleFailing.map ResultSet.start)
        sampleMerger).2.2).2.2.Err = some "boom" ∧
    ∀ b ∈ (run natCmp [Call.next, Call.close, Call.next]
      (run natCmp [Call.next, Call.next] (sampleFailing.map ResultSet.start) sampleMerger).2.1
      (run natCmp [Call.next, Call.next] (sampleFailing.map ResultSet.start)
        sampleMerger).2.2).1, b = false :=
  ⟨(error_is_sticky natCmp sampleFailing (by decide) (sampleFailing.map ResultSet.start)
      sampleMerger (by decide) [Call.next, Call.next] "boom" (by decide)).1,
    (error_is_sticky natCmp sampleFailing (by decide) (sampleFailing.map ResultSet.start)
      sampleMerger (by decide) [Call.next, Call.next] "boom" (by decide)).2.1 1
      { tags := 0, pending := [2], err := none, stats := 7, closed := 0, done := false }
      (by decide),
    ((error_is_sticky natCmp sampleFailing (by decide) (sampleFailing.map ResultSet.start)
      sampleMerger (by decide) [Call.next, Call.next] "boom" (by decide)).2.2
      [Call.next, Call.close, Call.next]).2⟩

end reads

namespace reads

variable {τ σ : Type}

/-! ## Statistics -/

/-- Replacing a stream that did not count by another one adds what the new one
counts. -/
theorem statsOver_set [AddCommMonoid σ] (P : ResultSet τ σ → ResultSet τ σ → Bool) :
    ∀ (results mem : Mem τ σ) (top : Nat) (s0 s x : ResultSet τ σ),
      results[top]? = some s0 → mem[top]? = some s → P s0 s = false →
      statsOver P results (mem.set top x) =
        statsOver P results mem + (if P s0 x then x.stats else 0) := by
  intro results
  induction results with
  | nil => intro mem top s0 s x h; simp at h
  | cons a rs ih =>
    intro mem top s0 s x h0 h1 hP
    cases mem with
    | nil => simp at h1
    | cons b ms =>
      cases top with
      | zero =>
        simp only [List.getElem?_cons_zero, Option.some.injEq] at h0 h1
        subst h0; subst h1
        simp only [statsOver, List.set_cons_zero, List.zip_cons_cons, List.map_cons,
          List.sum_cons, hP, Bool.false_eq_true, if_false, zero_add]
        rw [add_comm]
      | succ k =>
        simp only [List.getElem?_cons_succ] at h0 h1
        have := ih ms k s0 s x h0 h1 hP
        simp only [statsOver] at this
        simp only [statsOver, List.set_cons_succ, List.zip_cons_cons, List.map_cons,
          List.sum_cons, this, add_assoc]

theorem foundExhausted_of_not_done (s0 s : ResultSet τ σ) (h : s.done = false) :
    foundExhausted s0 s = false := by
  simp [foundExhausted, h]

/-- Closing streams that have not reported exhaustion leaves the sum as it is. -/
theorem statsOver_closeAll [AddCommMonoid σ] (results : Mem τ σ) :
    ∀ (l : List Nat) (mem : Mem τ σ), mem.length = results.length →
      (∀ p ∈ l, ∀ s, mem[p]? = some s → s.done = false) →
      statsOver foundExhausted results (closeAll mem l) = statsOver foundExhausted results mem := by
  intro l
  induction l with
  | nil => intro mem _ _; rfl
  | cons p l ih =>
    intro mem hlen hd
    simp only [closeAll]
    have hstep : statsOver foundExhausted results (Mem.close mem p) =
        statsOver foundExhausted results mem := by
      unfold Mem.close
      cases hs : mem[p]? with
      | none => rfl
      | some s =>
        have hlt : p < results.length := hlen ▸ (List.getElem?_eq_some_iff.mp hs).1
        have hdone := hd p (List.mem_cons_self _ _) s hs
        rw [statsOver_set foundExhausted results mem p (results.get ⟨p, hlt⟩) s s.Close
          (List.getElem?_eq_getElem hlt) hs (foundExhausted_of_not_done _ _ hdone)]
        rw [foundExhausted_of_not_done _ _ (by simp [ResultSet.Close, hdone])]
        simp
    rw [ih (Mem.close mem p) (by rw [Mem.close_length]; exact hlen) ?_, hstep]
    intro q hq s hs
    rw [Mem.close_get] at hs
    by_cases e : q = p
    · subst e
      simp only [if_true, Option.map_eq_some'] at hs
      obtain ⟨s1, hs1, rfl⟩ := hs
      simp [ResultSet.Close, hd q (List.mem_cons_self _ _) s1 hs1]
    · simp only [e, if_false] at hs
      exact hd q (List.mem_cons_of_mem _ hq) s hs

theorem hasNext_pending {results : Mem τ σ} {p : Nat} (h : hasNext results p = true) :
    ∃ s0, results[p]? = some s0 ∧ s0.pending.isEmpty = false := by
  unfold hasNext at h
  cases hs : results[p]? with
  | none => rw [hs] at h; simp at h
  | some s0 => rw [hs] at h; exact ⟨s0, rfl, by simpa using h⟩

/-- `Next` keeps the invariant of the statistics. -/
theorem Next_Inv5 [AddCommMonoid σ] (cmp : τ → τ → Int) (results mem : Mem τ σ)
    (r : mergedResultSet σ) (hI : Inv5 results mem r) :
    Inv5 results (mergedResultSet.Next cmp mem r).2.1 (mergedResultSet.Next cmp mem r).2.2 := by
  obtain ⟨hw', hlen'⟩ := Next_WF cmp mem r hI.wf
  rcases Next_cases cmp mem r hI.wf with ⟨hi, e⟩ | ⟨top, rest, hi, hf, e⟩ |
    ⟨top, rest, s, t, ts, hi, hf, hs, hp, e⟩ | ⟨top, rest, s, hi, hf, hs, hp, _, e⟩ |
    ⟨top, rest, s, e', hi, _, hs, _, _, e⟩
  · rw [e]; exact hI
  · rw [e]; exact ⟨hI.wf, hI.len, hI.active, hI.stats⟩
  · rw [e] at hw' hlen' ⊢
    have htop : top ∈ r.heap.items := by rw [hi]; exact List.mem_cons_self _ _
    obtain ⟨hn, hd⟩ := hI.active top htop
    obtain ⟨s0, hs0, _⟩ := hasNext_pending hn
    have hdone := hd s hs
    have hlt : top < mem.length := (List.getElem?_eq_some_iff.mp hs).1
    refine ⟨hw', hlen'.trans hI.len, ?_, ?_⟩
    · intro p hpm
      have hp' : p ∈ r.heap.items := (Fix_perm _ _ _).subset hpm
      refine ⟨(hI.active p hp').1, ?_⟩
      intro x hx
      simp only at hx
      by_cases e1 : top = p
      · subst e1
        simp only [List.getElem?_set, hlt, if_true, Option.some.injEq] at hx
        rw [← hx]; exact hdone
      · rw [List.getElem?_set_ne e1] at hx
        exact (hI.active p hp').2 x hx
    · simp only
      rw [statsOver_set foundExhausted results mem top s0 s _ hs0 hs
        (foundExhausted_of_not_done _ _ hdone),
        foundExhausted_of_not_done _ _ (by simpa using hdone)]
      simp [hI.stats]
  · rw [e] at hw' hlen' ⊢
    have htop : top ∈ r.heap.items := by rw [hi]; exact List.mem_cons_self _ _
    obtain ⟨hn, hd⟩ := hI.active top htop
    obtain ⟨s0, hs0, hne⟩ := hasNext_pending hn
    have hdone := hd s hs
    have hnt : top ∉ rest := (WF_tail (hi ▸ hI.wf)).2
    refine ⟨hw', hlen'.trans hI.len, ?_, ?_⟩
    · intro p hpm
      have hp' : p ∈ rest := (Pop_perm _ _ _ top rest hi).subset hpm
      have hp'' : p ∈ r.heap.items := by rw [hi]; exact List.mem_cons_of_mem _ hp'
      have hne' : top ≠ p := fun h => hnt (h ▸ hp')
      refine ⟨(hI.active p hp'').1, ?_⟩
      intro x hx
      simp only at hx
      rw [List.getElem?_set_ne hne'] at hx
      exact (hI.active p hp'').2 x hx
    · simp only
      rw [statsOver_set foundExhausted results mem top s0 s _ hs0 hs
        (foundExhausted_of_not_done _ _ hdone)]
      simp [foundExhausted, ResultSet.finish, hne, hI.stats]
  · rw [e] at hw' hlen' ⊢
    have htop : top ∈ r.heap.items := by rw [hi]; exact List.mem_cons_self _ _
    obtain ⟨hn, hd⟩ := hI.active top htop
    obtain ⟨s0, hs0, hne⟩ := hasNext_pending hn
    have hdone := hd s hs
    have hnt : top ∉ rest := (WF_tail (hi ▸ hI.wf)).2
    refine ⟨hw', hlen'.trans hI.len, ?_, ?_⟩
    · intro p hpm; simp at hpm
    · simp only
      rw [statsOver_closeAll results _ _ (by rw [List.length_set]; exact hI.len) ?_,
        statsOver_set foundExhausted results mem top s0 s _ hs0 hs
          (foundExhausted_of_not_done _ _ hdone)]
      · simp [foundExhausted, ResultSet.finish, hne, hI.stats]
      · intro p hpm x hx
        have hp' : p ∈ rest := (Pop_perm _ _ _ top rest hi).subset hpm
        have hp'' : p ∈ r.heap.items := by rw [hi]; exact List.mem_cons_of_mem _ hp'
        have hne' : top ≠ p := fun h => hnt (h ▸ hp')
        rw [List.getElem?_set_ne hne'] at hx
        exact (hI.active p hp'').2 x hx

/-- What `Next` keeps holds when the consumer loop ends. -/
theorem drain_invariant [Add σ] (cmp : τ → τ → Int)
    (P : Mem τ σ → mergedResultSet σ → Prop)
    (hstep : ∀ mem r, P mem r →
      P (mergedResultSet.Next cmp mem r).2.1 (mergedResultSet.Next cmp mem r).2.2) :
    ∀ (fuel : Nat) (mem : Mem τ σ) (r : mergedResultSet σ), P mem r →
      ∀ o, drain cmp fuel mem r = some o → P o.2.1 o.2.2 := by
  intro fuel
  induction fuel with
  | zero => intro mem r _ o h; simp [drain] at h
  | succ fuel ih =>
    intro mem r hP o ho
    rw [drain] at ho
    cases hb : (mergedResultSet.Next cmp mem r).1 with
    | false =>
      simp only [hb, Bool.false_eq_true, if_false, Option.some.injEq] at ho
      rw [← ho]
      exact hstep mem r hP
    | true =>
      simp only [hb, if_true] at ho
      cases ht : mergedResultSet.Tags (mergedResultSet.Next cmp mem r).2.1
          (mergedResultSet.Next cmp mem r).2.2 with
      | none => rw [ht] at ho; simp at ho
      | some t =>
        rw [ht] at ho
        simp only [Option.map_eq_some'] at ho
        obtain ⟨o1, ho1, rfl⟩ := ho
        exact ih _ _ (hstep mem r hP) o1 ho1

theorem statsOver_init [AddCommMonoid σ] :
    ∀ (results : Mem τ σ), (∀ s ∈ results, s.done = false) →
      statsOver foundExhausted results (results.map ResultSet.start) = 0 := by
  intro results
  induction results with
  | nil => intro _; rfl
  | cons a rs ih =>
    intro h
    have h1 := ih (fun s hs => h s (List.mem_cons_of_mem _ hs))
    have ha := h a (List.mem_cons_self _ _)
    simp only [statsOver] at h1
    have hz : foundExhausted a a.start = false := by
      unfold foundExhausted ResultSet.start
      cases hp : a.pending with
      | nil => simp
      | cons t ts => simp [ha]
    simp only [statsOver, List.map_cons, List.zip_cons_cons, List.sum_cons, h1, hz,
      Bool.false_eq_true, if_false, add_zero]

theorem init_Inv5 [AddCommMonoid σ] (cmp : τ → τ → Int) (results : Mem τ σ)
    (hfresh : ∀ s ∈ results, s.done = false) (r : mergedResultSet σ)
    (hr : r.heap = (resultSetHeap.init cmp results (List.range results.length)).2)
    (hst : r.stats = 0) : Inv5 results (results.map ResultSet.start) r := by
  have hw := init_WF cmp results
  rw [init_mem] at hw
  refine ⟨hr ▸ hw, by simp, ?_, by rw [hst, statsOver_init results hfresh]⟩
  intro p hp
  rw [hr] at hp
  have hm := List.mem_filter.mp ((init_items cmp results).subset hp)
  refine ⟨hm.2, ?_⟩
  obtain ⟨s0, hs0, hne⟩ := hasNext_pending hm.2
  intro s hs
  rw [List.getElem?_map, hs0] at hs
  simp only [Option.map_some', Option.some.injEq] at hs
  rw [← hs]
  unfold ResultSet.start
  cases hp' : s0.pending with
  | nil => rw [hp'] at hne; simp at hne
  | cons t ts => exact hfresh s0 (mem_of_getElem?_eq_some hs0)

end reads

namespace reads

variable {τ σ : Type}

/-! ## The total of the statistics -/

/-- C5, counterexample: the first sample stream delivers one tag set and then fails
with `boom`, reporting the statistics 5; the second delivers one tag set.  The drained
merger reports `Stats() = 5`, although no stream completed without an error, so that
the sum the claim describes is 0: `mergedResultSet.Next` adds the statistics of the
stream whose error it records. -/
theorem merged_stats_counts_failing_source :
    (match NewMergedResultSet natCmp sampleFailing with
      | (m, Result.merged r) =>
        (drain natCmp 4 m r).map
          (fun o => (o.2.2.Stats, statsOver completedCleanly sampleFailing o.2.1, o.2.2.Err))
      | _ => none) = some (5, 0, some "boom") := by
  decide

/-- C5, amended: for two or more source streams, none of which has reported exhaustion
yet, draining the merger built by `NewMergedResultSet` (a bound of `drainBound results`
calls of `Next()` is enough to reach the call that returns false) leaves `Stats()`
equal to the sum of the final `Stats()` of exactly the streams that a `Next()` call of
the merger found exhausted at the heap root: the streams that completed before any
error was recorded and the stream whose error was recorded.  A stream whose first
advance fails, and a stream still active when the error was recorded, contribute
nothing. -/
theorem merged_stats_sum [AddCommMonoid σ] (cmp : τ → τ → Int) (results : Mem τ σ)
    (hl : 2 ≤ results.length) (hfresh : ∀ s ∈ results, s.done = false)
    (fuel : Nat) (hfuel : drainBound results ≤ fuel) :
    ∃ mem r, NewMergedResultSet cmp results = (mem, Result.merged r) ∧
      ∃ out mem' r', drain cmp fuel mem r = some (out, mem', r') ∧
        r'.Stats = statsOver foundExhausted results mem' := by
  rw [NewMergedResultSet_eq cmp results hl]
  refine ⟨_, _, rfl, ?_⟩
  have hI := init_Inv5 cmp results hfresh
    { heap := (resultSetHeap.init cmp results (List.range results.length)).2,
      err := none, first := true, stats := 0 } rfl rfl
  have hb : budget (results.map ResultSet.start)
      ({ heap := (resultSetHeap.init cmp results (List.range results.length)).2,
         err := none, first := true, stats := 0 } : mergedResultSet σ) < fuel := by
    unfold budget
    rw [(init_remaining cmp results).length_eq]
    unfold drainBound at hfuel
    simp only [if_true]
    omega
  obtain ⟨o, ho⟩ := drain_terminates cmp fuel _ _ hI.wf hb
  refine ⟨o.1, o.2.1, o.2.2, ho, ?_⟩
  exact (drain_invariant cmp (Inv5 results) (fun mem r h => Next_Inv5 cmp results mem r h)
    fuel _ _ hI o ho).stats

/-- C5, amended, on the sample streams of which the first fails after one tag set: the
drained merger reports the statistics 5 of the failing stream, and this is the sum over
the streams found exhausted at the root. -/
theorem merged_stats_sum_witness :
    (match NewMergedResultSet natCmp sampleFailing with
      | (m, Result.merged r) =>
        (drain natCmp 4 m r).map
          (fun o => (o.2.2.Stats, statsOver foundExhausted sampleFailing o.2.1))
      | _ => none) = some (5, 5) ∧
    ∃ mem r, NewMergedResultSet natCmp sampleFailing = (mem, Result.merged r) ∧
      ∃ out mem' r', drain natCmp 4 mem r = some (out, mem', r') ∧
        r'.Stats = statsOver foundExhausted sampleFailing mem' :=
  ⟨by decide,
    merged_stats_sum natCmp sampleFailing (by decide) (by decide) 4 (by decide)⟩

end reads

/-! ## String iterators -/

namespace cursors

theorem StringIterator.bound_eq (it : StringIterator) : it.bound = it.values.length := by
  cases it with
  | empty => rfl
  | slice x => simp [StringIterator.bound, StringIterator.values]

/-- `Next()` on an iterator without values left returns false and leaves none. -/
theorem StringIterator.Next_of_values_nil (it : StringIterator) (h : it.values = []) :
    it.Next.1 = false ∧ it.Next.2.values = [] := by
  cases it with
  | empty => exact ⟨rfl, rfl⟩
  | slice x =>
    simp only [StringIterator.values, List.drop_eq_nil_iff] at h
    have hn : ¬ x.i < x.s.length := by omega
    simp only [StringIterator.Next, StringSliceIterator.Next, hn, dite_false,
      StringIterator.values, List.drop_eq_nil_iff]
    exact ⟨trivial, h⟩

/-- `Next()` on an iterator with values left returns true and moves to the first. -/
theorem StringIterator.Next_of_values_cons (it : StringIterator) (v : String) (vs : List String)
    (h : it.values = v :: vs) :
    it.Next.1 = true ∧ it.Next.2.Value = v ∧ it.Next.2.values = vs := by
  cases it with
  | empty => simp [StringIterator.values] at h
  | slice x =>
    simp only [StringIterator.values] at h
    have hlt : x.i < x.s.length := by
      by_contra hn
      rw [List.drop_eq_nil_iff.mpr (by omega)] at h
      simp at h
    rw [List.drop_eq_getElem_cons hlt] at h
    simp only [List.cons.injEq] at h
    simp only [StringIterator.Next, StringSliceIterator.Next, hlt, dite_true,
      StringIterator.Value, StringSliceIterator.Value, StringIterator.values]
    exact ⟨trivial, h.1, h.2⟩

end cursors

namespace reads

open cursors

/-! ## The inner loop of the string merger -/

/-- The inner loop on an iterator that holds the values `vs`: it skips the values
already in the membership set; either all of them are, and the loop ends with the
iterator drained, or it stops at the first one that is not, and records it. -/
theorem scan_spec (p : Nat) : ∀ (fuel : Nat) (mem : Iters) (mr : MergedStringIterator)
    (it : StringIterator) (m : List String),
    mem[p]? = some it → mr.uniqueValues = some m → it.values.length < fuel →
    (it.values.dropWhile (fun v => decide (v ∈ m)) = [] ∧ ∃ it' nv,
      MergedStringIterator.scan p fuel mem mr =
        some (false, mem.set p it', { mr with nextValue := nv }) ∧ it'.values = []) ∨
    (∃ v t it', it.values.dropWhile (fun v => decide (v ∈ m)) = v :: t ∧
      MergedStringIterator.scan p fuel mem mr =
        some (true, mem.set p it', { mr with nextValue := v, uniqueValues := some (v :: m) }) ∧
      it'.values = t) := by
  intro fuel
  induction fuel with
  | zero => intro mem mr it m _ _ h; omega
  | succ fuel ih =>
    intro mem mr it m hmem hu hlen
    have hp : p < mem.length := (List.getElem?_eq_some_iff.mp hmem).1
    rw [MergedStringIterator.scan]
    simp only [hmem]
    cases hv : it.values with
    | nil =>
      obtain ⟨h1, h2⟩ := StringIterator.Next_of_values_nil it hv
      left
      refine ⟨rfl, it.Next.2, mr.nextValue, ?_, h2⟩
      simp [h1]
    | cons v vs =>
      obtain ⟨h1, h2, h3⟩ := StringIterator.Next_of_values_cons it v vs hv
      simp only [h1, if_true, hu, h2]
      by_cases hm : v ∈ m
      · simp only [hm, if_true, List.dropWhile_cons, decide_True]
        have hmem1 : (mem.set p it.Next.2)[p]? = some it.Next.2 := List.getElem?_set_self hp
        rw [hv] at hlen
        simp only [List.length_cons] at hlen
        rcases ih (mem.set p it.Next.2) { mr with nextValue := v } it.Next.2 m hmem1 hu
            (by rw [h3]; omega) with ⟨hd, it', nv, hs, hit⟩ | ⟨w, t, it', hd, hs, hit⟩
        · left
          rw [h3] at hd
          refine ⟨hd, it', nv, ?_, hit⟩
          simp only [List.set_set, hu] at hs ⊢
          exact hs
        · right
          rw [h3] at hd
          refine ⟨w, t, it', hd, ?_, hit⟩
          simp only [List.set_set, hu] at hs ⊢
          exact hs
      · right
        refine ⟨v, vs, it.Next.2, ?_, ?_, h3⟩
        · simp [List.dropWhile_cons, hm]
        · simp only [hm, if_false]

end reads

namespace reads

open cursors

/-! ## The outer loop of the string merger -/

theorem valuesAt_of {mem : Iters} {p : Nat} {it : StringIterator} (h : mem[p]? = some it) :
    valuesAt mem p = it.values := by
  unfold valuesAt; rw [h]

theorem valuesAt_congr {mem mem' : Iters} {q : Nat} (h : mem'[q]? = mem[q]?) :
    valuesAt mem' q = valuesAt mem q := by
  unfold valuesAt; rw [h]

theorem todo_cons (mem : Iters) (p : Nat) (rest : List Nat) :
    todo mem (p :: rest) = valuesAt mem p ++ todo mem rest := by
  simp [todo]

theorem todo_congr {mem mem' : Iters} : ∀ (its : List Nat),
    (∀ q ∈ its, mem'[q]? = mem[q]?) → todo mem' its = todo mem its := by
  intro its
  induction its with
  | nil => intro _; rfl
  | cons q its ih =>
    intro h
    rw [todo_cons, todo_cons, valuesAt_congr (h q (List.mem_cons_self _ _)),
      ih (fun x hx => h x (List.mem_cons_of_mem _ hx))]

theorem scanBound_gt {mem : Iters} {p : Nat} {it : StringIterator} (h : mem[p]? = some it) :
    it.values.length < scanBound mem p := by
  unfold scanBound
  rw [h]
  simp only [StringIterator.bound_eq]
  omega

/-- One `Next()` call of the string merger, entered with the membership set `m`: the
values of the remaining sources that are in `m` are skipped; either all of them are,
and the call returns false with every source drained, the list empty and the set
released, or the call stops at the first one that is not, returns true and records
it. -/
theorem nextLoop_spec : ∀ (its : List Nat) (mem : Iters) (mr : MergedStringIterator)
    (m : List String), WFs mem its → mr.uniqueValues = some m → mr.iterators = its →
    ∃ b mem' mr', MergedStringIterator.nextLoop its mem mr = some (b, mem', mr') ∧
      mem'.length = mem.length ∧ (∀ q, q ∉ its → mem'[q]? = mem[q]?) ∧
      ((b = false ∧ (todo mem its).dropWhile (fun v => decide (v ∈ m)) = [] ∧
          mr'.iterators = [] ∧ mr'.uniqueValues = none ∧ ∀ q ∈ its, valuesAt mem' q = []) ∨
        (b = true ∧ ∃ dropped,
          (todo mem its).dropWhile (fun v => decide (v ∈ m)) =
            mr'.nextValue :: todo mem' mr'.iterators ∧
          mr'.uniqueValues = some (mr'.nextValue :: m) ∧ its = dropped ++ mr'.iterators ∧
          ∀ q ∈ dropped, valuesAt mem' q = [])) := by
  intro its
  induction its with
  | nil =>
    intro mem mr m _ _ _
    refine ⟨false, mem, _, rfl, rfl, fun _ _ => rfl, Or.inl ⟨rfl, rfl, rfl, rfl, ?_⟩⟩
    intro q hq; simp at hq
  | cons p rest ih =>
    intro mem mr m hw hu hi
    have hp : p < mem.length := hw.1 p (List.mem_cons_self _ _)
    have hnd := List.nodup_cons.mp hw.2
    have hmem : mem[p]? = some (mem.get ⟨p, hp⟩) := List.getElem?_eq_getElem hp
    generalize mem.get ⟨p, hp⟩ = it at hmem
    rw [MergedStringIterator.nextLoop]
    rcases scan_spec p (scanBound mem p) mem mr it m hmem hu (scanBound_gt hmem) with
      ⟨hd, it', nv, hs, hit⟩ | ⟨v, t, it', hd, hs, hit⟩
    · rw [hs]
      simp only
      have hw1 : WFs (mem.set p it') rest := by
        refine ⟨fun q hq => ?_, hnd.2⟩
        rw [List.length_set]
        exact hw.1 q (List.mem_cons_of_mem _ hq)
      have hset : ∀ q, q ≠ p → (mem.set p it')[q]? = mem[q]? := fun q hq =>
        List.getElem?_set_ne (Ne.symm hq)
      have htodo : todo (mem.set p it') rest = todo mem rest :=
        todo_congr rest (fun q hq => hset q (fun e => hnd.1 (e ▸ hq)))
      have hdw : (todo mem (p :: rest)).dropWhile (fun v => decide (v ∈ m)) =
          (todo mem rest).dropWhile (fun v => decide (v ∈ m)) := by
        rw [todo_cons, valuesAt_of hmem, List.dropWhile_append, hd]
        simp
      obtain ⟨b, mem', mr', he, hl, hout, hc⟩ := ih (mem.set p it')
        { iterators := rest, uniqueValues := mr.uniqueValues, nextValue := nv } m hw1 hu rfl
      have hpd : valuesAt mem' p = [] := by
        rw [valuesAt_congr (hout p hnd.1), valuesAt_of (List.getElem?_set_self hp), hit]
      refine ⟨b, mem', mr', he, by rw [hl, List.length_set], ?_, ?_⟩
      · intro q hq
        have hq1 : q ≠ p := fun e => hq (e ▸ List.mem_cons_self _ _)
        have hq2 : q ∉ rest := fun e => hq (List.mem_cons_of_mem _ e)
        rw [hout q hq2, hset q hq1]
      · rcases hc with ⟨hb, hd', h1, h2, h3⟩ | ⟨hb, dropped, hd', h2, h3, h4⟩
        · left
          refine ⟨hb, by rw [hdw, ← htodo]; exact hd', h1, h2, ?_⟩
          intro q hq
          rcases List.mem_cons.mp hq with e | e
          · rw [e]; exact hpd
          · exact h3 q e
        · right
          refine ⟨hb, p :: dropped, by rw [hdw, ← htodo]; exact hd', h2, by rw [h3]; rfl, ?_⟩
          intro q hq
          rcases List.mem_cons.mp hq with e | e
          · rw [e]; exact hpd
          · exact h4 q e
    · rw [hs]
      simp only
      refine ⟨true, _, _, rfl, by rw [List.length_set], ?_, Or.inr ⟨rfl, [], ?_, rfl, ?_, ?_⟩⟩
      · intro q hq
        have hq1 : q ≠ p := fun e => hq (e ▸ List.mem_cons_self _ _)
        exact List.getElem?_set_ne (Ne.symm hq1)
      · simp only [hi]
        have htodo : todo (mem.set p it') rest = todo mem rest :=
          todo_congr rest (fun q hq =>
            List.getElem?_set_ne (fun (e : p = q) => hnd.1 (by rw [e]; exact hq)))
        rw [todo_cons, todo_cons, valuesAt_of hmem, valuesAt_of (List.getElem?_set_self hp),
          htodo, hit, List.dropWhile_append, hd]
        simp
      · simp only [hi, List.nil_append]
      · intro q hq; simp at hq

/-! ## First occurrences -/

theorem unseen_nil (m : List String) : ∀ (l : List String),
    l.dropWhile (fun v => decide (v ∈ m)) = [] → unseen m l = [] := by
  intro l
  induction l with
  | nil => intro _; rfl
  | cons x xs ih =>
    intro h
    rw [List.dropWhile_cons] at h
    by_cases hx : x ∈ m
    · simp only [hx, decide_True, if_true] at h
      simp only [unseen, hx, if_true]
      exact ih h
    · simp [hx] at h

theorem unseen_cons (m : List String) (v : String) (t : List String) : ∀ (l : List String),
    l.dropWhile (fun v => decide (v ∈ m)) = v :: t → unseen m l = v :: unseen (v :: m) t := by
  intro l
  induction l with
  | nil => intro h; simp at h
  | cons x xs ih =>
    intro h
    rw [List.dropWhile_cons] at h
    by_cases hx : x ∈ m
    · simp only [hx, decide_True, if_true] at h
      simp only [unseen, hx, if_true]
      exact ih h
    · simp only [hx, decide_False, Bool.false_eq_true, if_false, List.cons.injEq] at h
      obtain ⟨rfl, rfl⟩ := h
      simp only [unseen, hx, if_false]

theorem unseen_eq : ∀ (l seen : List String),
    unseen seen l = (firstOccurrences l).filter (fun y => decide (y ∉ seen)) := by
  intro l
  induction l with
  | nil => intro _; rfl
  | cons x xs ih =>
    intro seen
    simp only [unseen, firstOccurrences, List.filter_cons]
    by_cases hx : x ∈ seen
    · simp only [hx, if_true, not_true_eq_false, decide_False, Bool.false_eq_true, if_false]
      rw [ih, List.filter_filter]
      apply List.filter_congr
      intro y _
      by_cases hy : y ∈ seen
      · simp [hy]
      · have : y ≠ x := fun e => hy (e ▸ hx)
        simp [hy, this]
    · simp only [hx, if_false, not_false_eq_true, decide_True, if_true, List.cons.injEq,
        true_and]
      rw [ih, List.filter_filter]
      apply List.filter_congr
      intro y _
      by_cases hy : y = x
      · simp [hy]
      · simp [hy]

theorem unseen_empty (l : List String) : unseen [] l = firstOccurrences l := by
  rw [unseen_eq]
  simp

theorem firstOccurrences_nodup : ∀ (l : List String), (firstOccurrences l).Nodup := by
  intro l
  induction l with
  | nil => exact List.nodup_nil
  | cons x xs ih =>
    simp only [firstOccurrences]
    refine List.nodup_cons.mpr ⟨?_, ih.filter _⟩
    intro h
    have := (List.mem_filter.mp h).2
    simp at this

theorem unseen_nodup (seen l : List String) : (unseen seen l).Nodup := by
  rw [unseen_eq]
  exact (firstOccurrences_nodup l).filter _

end reads

namespace reads

open cursors

/-! ## The string merger, call by call -/

/-- One `Next()` call of the string merger under its invariant. -/
theorem Next_InvS (mem : Iters) (mr : MergedStringIterator) (m : List String)
    (h : InvS mem mr m) :
    ∃ b mem' mr', mr.Next mem = some (b, mem', mr') ∧ mem'.length = mem.length ∧
      ((b = false ∧ unseen m (todo mem mr.iterators) = [] ∧ Exhausted mem' mr') ∨
        (b = true ∧
          unseen m (todo mem mr.iterators) =
            mr'.nextValue :: unseen (mr'.nextValue :: m) (todo mem' mr'.iterators) ∧
          InvS mem' mr' (mr'.nextValue :: m) ∧
          (todo mem' mr'.iterators).length < (todo mem mr.iterators).length)) := by
  obtain ⟨b, mem', mr', he, hl, hout, hc⟩ := nextLoop_spec mr.iterators mem mr m h.wf h.set rfl
  refine ⟨b, mem', mr', he, hl, ?_⟩
  rcases hc with ⟨hb, hd, h1, h2, h3⟩ | ⟨hb, dropped, hd, h2, h3, h4⟩
  · left
    refine ⟨hb, unseen_nil m _ hd, h1, h2, ?_⟩
    intro q
    by_cases hq : q ∈ mr.iterators
    · exact h3 q hq
    · rw [valuesAt_congr (hout q hq)]; exact h.drained q hq
  · right
    refine ⟨hb, unseen_cons m _ _ _ hd, ⟨⟨?_, ?_⟩, h2, ?_⟩, ?_⟩
    · intro q hq
      rw [hl]
      exact h.wf.1 q (by rw [h3]; exact List.mem_append_right _ hq)
    · have := h.wf.2
      rw [h3] at this
      exact this.of_append_right
    · intro q hq
      by_cases hqd : q ∈ dropped
      · exact h4 q hqd
      · have hq' : q ∉ mr.iterators := by
          rw [h3]
          intro hm
          rcases List.mem_append.mp hm with e | e
          · exact hqd e
          · exact hq e
        rw [valuesAt_congr (hout q hq')]; exact h.drained q hq'
    · have := (List.dropWhile_suffix (l := todo mem mr.iterators)
        (fun v => decide (v ∈ m))).length_le
      rw [hd] at this
      simp only [List.length_cons] at this
      omega

/-- On an exhausted string merger `Next()` returns false and changes nothing. -/
theorem Next_exhausted (mem : Iters) (mr : MergedStringIterator) (hi : mr.iterators = [])
    (hu : mr.uniqueValues = none) : mr.Next mem = some (false, mem, mr) := by
  cases mr with
  | mk its u nv =>
    simp only at hi hu
    subst hi; subst hu
    rfl

theorem callStrings_exhausted : ∀ (k : Nat) (mem : Iters) (mr : MergedStringIterator),
    mr.iterators = [] → mr.uniqueValues = none → callStrings k mem mr = some ([], mem, mr) := by
  intro k
  induction k with
  | zero => intro mem mr _ _; rfl
  | succ k ih =>
    intro mem mr hi hu
    rw [callStrings, Next_exhausted mem mr hi hu]
    simp [ih mem mr hi hu]

/-- Draining the string merger under its invariant yields the values of the remaining
sources that are not in the membership set, each at its first occurrence. -/
theorem drainStrings_spec : ∀ (fuel : Nat) (mem : Iters) (mr : MergedStringIterator)
    (m : List String), InvS mem mr m → (todo mem mr.iterators).length < fuel →
    ∃ mem' mr', drainStrings fuel mem mr = some (unseen m (todo mem mr.iterators), mem', mr') := by
  intro fuel
  induction fuel with
  | zero => intro mem mr m _ h; omega
  | succ fuel ih =>
    intro mem mr m hI hlen
    rw [drainStrings]
    obtain ⟨b, mem1, mr1, he, _, hc⟩ := Next_InvS mem mr m hI
    rw [he]
    rcases hc with ⟨hb, hu, _⟩ | ⟨hb, hu, hI1, hlt⟩
    · subst hb
      exact ⟨mem1, mr1, by rw [hu]⟩
    · subst hb
      obtain ⟨mem', mr', hd⟩ := ih mem1 mr1 _ hI1 (by omega)
      refine ⟨mem', mr', ?_⟩
      simp only [hd, hu, Option.map_some', MergedStringIterator.Value]

/-- Any number of `Next()` calls on the string merger under its invariant: no call
panics, the values observed are the first of those that draining yields, and the
invariant holds afterwards or the merger is exhausted. -/
theorem callStrings_spec : ∀ (n : Nat) (mem : Iters) (mr : MergedStringIterator)
    (m : List String), InvS mem mr m →
    ∃ out mem' mr', callStrings n mem mr = some (out, mem', mr') ∧
      out <+: unseen m (todo mem mr.iterators) ∧ mem'.length = mem.length ∧
      ((∃ m', InvS mem' mr' m') ∨ Exhausted mem' mr') := by
  intro n
  induction n with
  | zero =>
    intro mem mr m hI
    exact ⟨[], mem, mr, rfl, List.nil_prefix, rfl, Or.inl ⟨m, hI⟩⟩
  | succ n ih =>
    intro mem mr m hI
    rw [callStrings]
    obtain ⟨b, mem1, mr1, he, hl1, hc⟩ := Next_InvS mem mr m hI
    rw [he]
    rcases hc with ⟨hb, _, hx⟩ | ⟨hb, hu, hI1, _⟩
    · subst hb
      refine ⟨[], mem1, mr1, ?_, List.nil_prefix, hl1, Or.inr hx⟩
      simp [callStrings_exhausted n mem1 mr1 hx.1 hx.2.1]
    · subst hb
      obtain ⟨out, mem', mr', hcall, hpre, hl', hend⟩ := ih mem1 mr1 _ hI1
      refine ⟨mr1.nextValue :: out, mem', mr', ?_, ?_, hl'.trans hl1, hend⟩
      · simp [hcall, MergedStringIterator.Value]
      · rw [hu]
        exact (List.prefix_cons_inj _).mpr hpre

/-! ## The string merger after construction -/

theorem todo_range : ∀ (l : Iters),
    todo l (List.range l.length) = l.flatMap StringIterator.values := by
  intro l
  induction l with
  | nil => rfl
  | cons a l ih =>
    unfold todo at ih ⊢
    rw [List.length_cons, List.range_succ_eq_map, List.flatMap_cons, List.flatMap_cons, ← ih]
    have e1 : valuesAt (a :: l) 0 = a.values := by simp [valuesAt]
    have e2 : (List.map Nat.succ (List.range l.length)).flatMap (valuesAt (a :: l)) =
        (List.range l.length).flatMap (valuesAt l) := by
      rw [List.flatMap_def, List.flatMap_def, List.map_map]
      congr 1
      apply List.map_congr_left
      intro p _
      simp [valuesAt]
    rw [e1, e2]

theorem New_InvS (iterators : Iters) :
    InvS (NewMergedStringIterator iterators).1 (NewMergedStringIterator iterators).2 [] := by
  refine ⟨⟨?_, List.nodup_range _⟩, rfl, ?_⟩
  · intro p hp
    exact List.mem_range.mp hp
  · intro q hq
    have hq' : ¬ q < iterators.length := fun h => hq (List.mem_range.mpr h)
    unfold valuesAt
    simp only [NewMergedStringIterator]
    rw [List.getElem?_eq_none (by omega)]

theorem New_todo (iterators : Iters) :
    todo (NewMergedStringIterator iterators).1 (NewMergedStringIterator iterators).2.iterators =
      iterators.flatMap StringIterator.values :=
  todo_range iterators

end reads

namespace reads

open cursors

/-! ## The output of the string merger -/

/-- C6: for every list of string iterators, draining the iterator built by
`NewMergedStringIterator` (a bound of `stringsBound iterators` calls of `Next()` is
enough to reach the call that returns false) observes, as the `Value()` after each
`Next()` that returns true, the concatenation of the inputs' value sequences in list
order with every occurrence of a string after its first occurrence removed. -/
theorem merged_strings_first_occurrences (iterators : Iters) (fuel : Nat)
    (hfuel : stringsBound iterators ≤ fuel) :
    ∃ mem' mr', drainStrings fuel (NewMergedStringIterator iterators).1
        (NewMergedStringIterator iterators).2 =
      some (firstOccurrences (iterators.flatMap StringIterator.values), mem', mr') := by
  have hI := New_InvS iterators
  have ht := New_todo iterators
  obtain ⟨mem', mr', hd⟩ := drainStrings_spec fuel _ _ [] hI (by
    rw [ht]; unfold stringsBound at hfuel; omega)
  rw [ht, unseen_empty] at hd
  exact ⟨mem', mr', hd⟩

/-- C6, on the sources `["a", "b"]` then `["b", "c"]`: the merged output is
`"a", "b", "c"`. -/
theorem merged_strings_first_occurrences_witness :
    (drainStrings 5 (NewMergedStringIterator sampleStrings).1
        (NewMergedStringIterator sampleStrings).2).map Prod.fst = some ["a", "b", "c"] ∧
    firstOccurrences (sampleStrings.flatMap StringIterator.values) = ["a", "b", "c"] ∧
    ∃ mem' mr', drainStrings 5 (NewMergedStringIterator sampleStrings).1
        (NewMergedStringIterator sampleStrings).2 =
      some (firstOccurrences (sampleStrings.flatMap StringIterator.values), mem', mr') :=
  ⟨by decide, by decide, merged_strings_first_occurrences sampleStrings 5 (by decide)⟩

/-- C7: for every list of string iterators and every number of `Next()` calls on the
iterator built by `NewMergedStringIterator`, no call panics and the sequence of
`Value()` results observed after the calls that return true contains no repeated
string. -/
theorem merged_strings_nodup (iterators : Iters) (n : Nat) :
    ∃ out mem' mr', callStrings n (NewMergedStringIterator iterators).1
        (NewMergedStringIterator iterators).2 = some (out, mem', mr') ∧ out.Nodup := by
  obtain ⟨out, mem', mr', hc, hp, _⟩ := callStrings_spec n _ _ [] (New_InvS iterators)
  exact ⟨out, mem', mr', hc, (unseen_nodup _ _).sublist hp.sublist⟩

end reads

namespace reads

open cursors

/-! ## Exhaustion of the string merger, its order, and the slice iterator -/

/-- C14: for every list of string iterators and every number of `Next()` calls on the
iterator built by `NewMergedStringIterator`, if the next `Next()` call returns false
then it leaves the remaining-source list empty, the membership set released (nil) and
every input iterator drained, and every later `Next()` call returns false without a
panic and without changing the state. -/
theorem strings_false_is_final (iterators : Iters) (n : Nat)
    (h : ((callStrings n (NewMergedStringIterator iterators).1
        (NewMergedStringIterator iterators).2).bind
          (fun o => o.2.2.Next o.2.1)).map Prod.fst = some false) :
    ∃ out mem mr mem' mr',
      callStrings n (NewMergedStringIterator iterators).1
        (NewMergedStringIterator iterators).2 = some (out, mem, mr) ∧
      mr.Next mem = some (false, mem', mr') ∧
      mr'.iterators = [] ∧ mr'.uniqueValues = none ∧
      mem'.length = iterators.length ∧ (∀ it ∈ mem', it.values = []) ∧
      ∀ k, callStrings k mem' mr' = some ([], mem', mr') ∧
        mr'.Next mem' = some (false, mem', mr') := by
  obtain ⟨out, mem, mr, hc, _, hl, hend⟩ := callStrings_spec n _ _ [] (New_InvS iterators)
  have hfin : ∀ (mem' : Iters) (mr' : MergedStringIterator), Exhausted mem' mr' →
      mr'.iterators = [] ∧ mr'.uniqueValues = none ∧ (∀ it ∈ mem', it.values = []) ∧
      ∀ k : Nat, callStrings k mem' mr' = some ([], mem', mr') ∧
        mr'.Next mem' = some (false, mem', mr') := by
    intro mem' mr' hx
    refine ⟨hx.1, hx.2.1, ?_, fun k => ⟨callStrings_exhausted k mem' mr' hx.1 hx.2.1,
      Next_exhausted mem' mr' hx.1 hx.2.1⟩⟩
    intro it hit
    obtain ⟨q, hq, hget⟩ := List.getElem_of_mem hit
    have := hx.2.2 q
    rw [valuesAt_of ((List.getElem?_eq_some_iff).mpr ⟨hq, hget⟩)] at this
    exact this
  rw [hc] at h
  simp only [Option.some_bind] at h
  rcases hend with ⟨m', hI⟩ | hx
  · obtain ⟨b, mem', mr', he, hl', hcase⟩ := Next_InvS mem mr m' hI
    rw [he] at h
    simp only [Option.map_some', Option.some.injEq] at h
    subst h
    rcases hcase with ⟨_, _, hx⟩ | ⟨hb, _⟩
    · obtain ⟨h1, h2, h3, h4⟩ := hfin mem' mr' hx
      exact ⟨out, mem, mr, mem', mr', hc, he, h1, h2, hl'.trans hl, h3, h4⟩
    · simp at hb
  · obtain ⟨h1, h2, h3, h4⟩ := hfin mem mr hx
    exact ⟨out, mem, mr, mem, mr, hc, Next_exhausted mem mr hx.1 hx.2.1, h1, h2, hl, h3, h4⟩

/-- C14, on the sources `["a", "b"]` then `["b", "c"]`: the fourth `Next()` call is the
one that returns false. -/
theorem strings_false_is_final_witness :
    (callStrings 4 (NewMergedStringIterator sampleStrings).1
        (NewMergedStringIterator sampleStrings).2).map Prod.fst = some ["a", "b", "c"] ∧
    ∃ out mem mr mem' mr',
      callStrings 3 (NewMergedStringIterator sampleStrings).1
        (NewMergedStringIterator sampleStrings).2 = some (out, mem, mr) ∧
      mr.Next mem = some (false, mem', mr') ∧
      mr'.iterators = [] ∧ mr'.uniqueValues = none ∧
      mem'.length = sampleStrings.length ∧ (∀ it ∈ mem', it.values = []) ∧
      ∀ k, callStrings k mem' mr' = some ([], mem', mr') ∧
        mr'.Next mem' = some (false, mem', mr') :=
  ⟨by decide, strings_false_is_final sampleStrings 3 (by decide)⟩

/-- C15: the sources `["b"]` then `["a"]` are each sorted ascending, and the sequence
emitted by the iterator built by `NewMergedStringIterator` from them, `"b", "a"`, is
not sorted ascending. -/
theorem merged_strings_not_sorted :
    (∀ it ∈ sampleUnsorted, List.Sorted (fun a b : String => a ≤ b) it.values) ∧
    ∃ out,
      (drainStrings (stringsBound sampleUnsorted) (NewMergedStringIterator sampleUnsorted).1
        (NewMergedStringIterator sampleUnsorted).2).map Prod.fst = some out ∧
      out = ["b", "a"] ∧ ¬ List.Sorted (fun a b : String => a ≤ b) out := by
  refine ⟨?_, ["b", "a"], by decide, rfl, ?_⟩
  · intro it hit
    simp only [sampleUnsorted, List.mem_cons, List.mem_singleton, List.not_mem_nil,
      or_false] at hit
    rcases hit with rfl | rfl <;>
      simp [StringIterator.values, NewStringSliceIterator]
  · simp only [List.sorted_cons, List.mem_singleton, forall_eq, List.sorted_singleton,
      and_true, String.le_iff_toList_le]
    decide

theorem callSlice_spec : ∀ (n : Nat) (it : StringSliceIterator),
    (callSlice n it).1 =
      (List.range n).map (fun k => (decide (it.i + k < it.s.length), it.s.getD (it.i + k) "")) := by
  intro n
  induction n with
  | zero => intro it; rfl
  | succ n ih =>
    intro it
    rw [callSlice, List.range_succ_eq_map, List.map_cons, List.map_map]
    simp only [ih]
    by_cases h : it.i < it.s.length
    · simp only [StringSliceIterator.Next, h, dite_true, StringSliceIterator.Value,
        Nat.add_zero, decide_True, List.cons.injEq, Prod.mk.injEq, true_and]
      refine ⟨by simp [List.getD_eq_getElem?_getD, List.getElem?_eq_getElem h], ?_⟩
      apply List.map_congr_left
      intro k _
      simp only [Function.comp, Nat.succ_eq_add_one]
      rw [show it.i + 1 + k = it.i + (k + 1) by omega]
    · simp only [StringSliceIterator.Next, h, dite_false, StringSliceIterator.Value,
        Nat.add_zero, decide_False, List.cons.injEq, Prod.mk.injEq, true_and]
      refine ⟨by simp [List.getD_eq_getElem?_getD, List.getElem?_eq_none (not_lt.mp h)], ?_⟩
      apply List.map_congr_left
      intro k _
      have h1 : ¬ it.i + k < it.s.length := by omega
      have h2 : ¬ it.i + (k + 1) < it.s.length := by omega
      simp [Function.comp, h1, h2, List.getD_eq_getElem?_getD,
        List.getElem?_eq_none (not_lt.mp h1), List.getElem?_eq_none (not_lt.mp h2)]

/-- C16: for every string slice `s` and every number `n` of `Next()` calls on the
iterator built by `NewStringSliceIterator(s)`, the call number `k + 1` returns true
exactly when `k < len(s)`, the `Value()` observed after it is then `s[k]`, and it is
the empty string after a call that returns false.  So `Next()` returns true exactly
`len(s)` times, on the first `len(s)` calls, and false on every later call. -/
theorem slice_iterator_enumerates (s : List String) (n : Nat) :
    (callSlice n (NewStringSliceIterator s)).1 =
      (List.range n).map (fun k => (decide (k < s.length), s.getD k "")) := by
  rw [callSlice_spec]
  simp [NewStringSliceIterator]

end reads

namespace reads

variable {τ σ : Type}

/-! ## Closing, exhaustion and the first call -/

/-- C11: on a merger whose heap refers to distinct streams, `Close()` leaves the heap
empty and calls `Close()` exactly once on every stream of the heap and on no other
stream; it leaves `Err()` and `Stats()` as they are; and a second `Close()` changes
neither the merger nor any stream. -/
theorem close_is_idempotent (mem : Mem τ σ) (r : mergedResultSet σ)
    (hw : WF mem r.heap.items) :
    (mergedResultSet.Close mem r).2.heap.items = [] ∧
    (∀ q s, mem[q]? = some s →
      (mergedResultSet.Close mem r).1[q]? = some (if q ∈ r.heap.items then s.Close else s) ∧
      (if q ∈ r.heap.items then s.Close else s).closed =
        s.closed + (if q ∈ r.heap.items then 1 else 0)) ∧
    (mergedResultSet.Close mem r).1.length = mem.length ∧
    (mergedResultSet.Close mem r).2.Err = r.Err ∧
    (mergedResultSet.Close mem r).2.Stats = r.Stats ∧
    mergedResultSet.Close (mergedResultSet.Close mem r).1 (mergedResultSet.Close mem r).2 =
      mergedResultSet.Close mem r := by
  refine ⟨rfl, ?_, closeAll_length _ _, rfl, rfl, rfl⟩
  intro q s hs
  unfold mergedResultSet.Close
  simp only [closeAll_get _ _ _ hw.2, hs, Option.map_some']
  by_cases hq : q ∈ r.heap.items
  · simp [hq, ResultSet.Close]
  · simp [hq]

/-- C11, on two active streams: `Close()` closes both once and the second `Close()`
changes nothing. -/
theorem close_is_idempotent_witness :
    (mergedResultSet.Close (sampleClean.map ResultSet.start) sampleMerger).2.heap.items = [] ∧
    (∀ q s, (sampleClean.map ResultSet.start)[q]? = some s →
      (mergedResultSet.Close (sampleClean.map ResultSet.start) sampleMerger).1[q]? =
        some (if q ∈ sampleMerger.heap.items then s.Close else s) ∧
      (if q ∈ sampleMerger.heap.items then s.Close else s).closed =
        s.closed + (if q ∈ sampleMerger.heap.items then 1 else 0)) ∧
    (mergedResultSet.Close (sampleClean.map ResultSet.start) sampleMerger).1.length =
      (sampleClean.map ResultSet.start).length ∧
    (mergedResultSet.Close (sampleClean.map ResultSet.start) sampleMerger).2.Err =
      sampleMerger.Err ∧
    (mergedResultSet.Close (sampleClean.map ResultSet.start) sampleMerger).2.Stats =
      sampleMerger.Stats ∧
    mergedResultSet.Close
        (mergedResultSet.Close (sampleClean.map ResultSet.start) sampleMerger).1
        (mergedResultSet.Close (sampleClean.map ResultSet.start) sampleMerger).2 =
      mergedResultSet.Close (sampleClean.map ResultSet.start) sampleMerger :=
  close_is_idempotent (sampleClean.map ResultSet.start) sampleMerger
    ⟨by decide, by decide⟩

/-- C12: for two or more source streams and every sequence of `Next()` and `Close()`
calls on the merger built from them that ends with a `Next()` call that returned false,
whatever `Next()` and `Close()` calls follow, the merger (its heap, `Err()` and
`Stats()`) and every source stream stay as they are, and every `Next()` returns false.
Such a `Next()` call returns at the test of the heap length, before any index is
used. -/
theorem exhaustion_is_idempotent [Zero σ] [Add σ] (cmp : τ → τ → Int) (results : Mem τ σ)
    (hl : 2 ≤ results.length) (mem : Mem τ σ) (r : mergedResultSet σ)
    (hnew : NewMergedResultSet cmp results = (mem, Result.merged r)) (calls : List Call)
    (hfalse : (run cmp (calls ++ [Call.next]) mem r).1.getLast? = some false) :
    (run cmp (calls ++ [Call.next]) mem r).2.2.heap.items = [] ∧
    ∀ later : List Call,
      (run cmp later (run cmp (calls ++ [Call.next]) mem r).2.1
        (run cmp (calls ++ [Call.next]) mem r).2.2).2 =
          (run cmp (calls ++ [Call.next]) mem r).2 ∧
      ∀ b ∈ (run cmp later (run cmp (calls ++ [Call.next]) mem r).2.1
        (run cmp (calls ++ [Call.next]) mem r).2.2).1, b = false := by
  have hI1 := merged_Inv4 cmp results hl mem r hnew calls
  have hempty : (run cmp (calls ++ [Call.next]) mem r).2.2.heap.items = [] := by
    rw [run_append] at hfalse ⊢
    simp only [run, List.getLast?_concat, Option.some.injEq] at hfalse
    simp only [run]
    exact Next_false cmp _ _ hI1.wf hfalse
  exact ⟨hempty, fun later => run_empty cmp later _ _ hempty⟩

/-- C12, on two streams delivering `[1]` and `[2]`: the third `Next()` returns false,
and the calls `Next`, `Close`, `Next` that follow return false and change nothing. -/
theorem exhaustion_is_idempotent_witness :
    (run natCmp ([Call.next, Call.next] ++ [Call.next]) (sampleClean.map ResultSet.start)
      sampleMerger).1 = [true, true, false] ∧
    (run natCmp [Call.next, Call.close, Call.next]
      (run natCmp ([Call.next, Call.next] ++ [Call.next]) (sampleClean.map ResultSet.start)
        sampleMerger).2.1
      (run natCmp ([Call.next, Call.next] ++ [Call.next]) (sampleClean.map ResultSet.start)
        sampleMerger).2.2).2 =
      (run natCmp ([Call.next, Call.next] ++ [Call.next]) (sampleClean.map ResultSet.start)
        sampleMerger).2 ∧
    ∀ b ∈ (run natCmp [Call.next, Call.close, Call.next]
      (run natCmp ([Call.next, Call.next] ++ [Call.next]) (sampleClean.map ResultSet.start)
        sampleMerger).2.1
      (run natCmp ([Call.next, Call.next] ++ [Call.next]) (sampleClean.map ResultSet.start)
        sampleMerger).2.2).1, b = false :=
  ⟨by decide,
    (exhaustion_is_idempotent natCmp sampleClean (by decide) (sampleClean.map ResultSet.start)
      sampleMerger (by decide) [Call.next, Call.next] (by decide)).2
      [Call.next, Call.close, Call.next]⟩

/-- C13, counterexample: the merger built from two streams without any tag set has an
empty heap, and its very first `Next()` returns false, not true. -/
theorem first_next_on_empty_heap_is_false :
    (match NewMergedResultSet natCmp sampleEmpty with
      | (m, Result.merged r) =>
        some ((mergedResultSet.Next natCmp m r).1, r.first, r.heap.items)
      | _ => none) = some (false, true, []) := by
  decide

/-- C13, amended: the very first `Next()` on a merger freshly built from two or more
streams returns true exactly when some stream has a tag set to deliver (then the heap
is not empty), and false otherwise; in both cases it leaves the heap and every source
stream as they are. -/
theorem first_next_leaves_heap [Zero σ] [Add σ] (cmp : τ → τ → Int) (results : Mem τ σ)
    (hl : 2 ≤ results.length) :
    ∃ mem r, NewMergedResultSet cmp results = (mem, Result.merged r) ∧
      ((mergedResultSet.Next cmp mem r).1 = true ↔ ∃ s ∈ results, s.pending ≠ []) ∧
      ((mergedResultSet.Next cmp mem r).1 = true ↔ r.heap.items ≠ []) ∧
      (mergedResultSet.Next cmp mem r).2.1 = mem ∧
      (mergedResultSet.Next cmp mem r).2.2.heap = r.heap := by
  rw [NewMergedResultSet_eq cmp results hl]
  refine ⟨_, _, rfl, ?_⟩
  have hitems := init_items cmp results
  have hex : (resultSetHeap.init cmp results (List.range results.length)).2.items ≠ [] ↔
      ∃ s ∈ results, s.pending ≠ [] := by
    constructor
    · intro h
      obtain ⟨p, hp⟩ := List.exists_mem_of_ne_nil _ h
      have hm := List.mem_filter.mp (hitems.subset hp)
      obtain ⟨s0, hs0, hne⟩ := hasNext_pending hm.2
      refine ⟨s0, mem_of_getElem?_eq_some hs0, ?_⟩
      intro e; rw [e] at hne; simp at hne
    · rintro ⟨s, hs, hne⟩
      obtain ⟨p, hp, hget⟩ := List.getElem_of_mem hs
      have hs0 : results[p]? = some s := (List.getElem?_eq_some_iff).mpr ⟨hp, hget⟩
      have hn : hasNext results p = true := by
        unfold hasNext; rw [hs0]
        cases hpe : s.pending with
        | nil => exact absurd hpe hne
        | cons t ts => simp [hpe]
      have hm : p ∈ (resultSetHeap.init cmp results (List.range results.length)).2.items :=
        hitems.symm.subset (List.mem_filter.mpr ⟨List.mem_range.mpr hp, hn⟩)
      exact List.ne_nil_of_mem hm
  cases hi : (resultSetHeap.init cmp results (List.range results.length)).2.items with
  | nil =>
    rw [hi] at hex
    rw [Next_nil cmp _ _ hi]
    refine ⟨?_, ?_, rfl, rfl⟩
    · rw [← hex]; simp
    · simp [hi]
  | cons top rest =>
    rw [hi] at hex
    rw [Next_first cmp _ _ hi rfl]
    refine ⟨?_, ?_, rfl, rfl⟩
    · rw [← hex]; simp
    · simp [hi]

/-- C13, amended, on two streams delivering `[1]` and `[2]`: the first `Next()` returns
true and leaves the heap `[0, 1]` as it is. -/
theorem first_next_leaves_heap_witness :
    (match NewMergedResultSet natCmp sampleClean with
      | (m, Result.merged r) =>
        some ((mergedResultSet.Next natCmp m r).1, r.heap.items,
          (mergedResultSet.Next natCmp m r).2.2.heap.items)
      | _ => none) = some (true, [0, 1], [0, 1]) ∧
    ∃ mem r, NewMergedResultSet natCmp sampleClean = (mem, Result.merged r) ∧
      ((mergedResultSet.Next natCmp mem r).1 = true ↔ ∃ s ∈ sampleClean, s.pending ≠ []) ∧
      ((mergedResultSet.Next natCmp mem r).1 = true ↔ r.heap.items ≠ []) ∧
      (mergedResultSet.Next natCmp mem r).2.1 = mem ∧
      (mergedResultSet.Next natCmp mem r).2.2.heap = r.heap :=
  ⟨by decide, first_next_leaves_heap natCmp sampleClean (by decide)⟩

end reads

namespace reads

variable {τ σ : Type}

/-! ## The heap invariant along a sequence of calls -/

theorem run_heap [Add σ] {cmp : τ → τ → Int} (hc : IsCompare cmp) : ∀ (calls : List Call)
    (mem : Mem τ σ) (r : mergedResultSet σ), WF mem r.heap.items → IsHeap cmp mem r.heap →
    WF (run cmp calls mem r).2.1 (run cmp calls mem r).2.2.heap.items ∧
      IsHeap cmp (run cmp calls mem r).2.1 (run cmp calls mem r).2.2.heap := by
  intro calls
  induction calls with
  | nil => intro mem r hw hh; exact ⟨hw, hh⟩
  | cons c calls ih =>
    intro mem r hw hh
    cases c with
    | next =>
      simp only [run]
      exact ih _ _ (Next_WF cmp mem r hw).1 (Next_heap hc mem r hw hh)
    | close =>
      simp only [run]
      exact ih _ _ ⟨by simp [mergedResultSet.Close], List.nodup_nil⟩ (IsHeap_empty cmp _)

/-- C17: for two or more source streams and a comparator that is a three-way
comparison of a total preorder, after construction by `NewMergedResultSet` and after
every sequence of `Next()` and `Close()` calls, the items of the heap satisfy the binary
min-heap property under `Less`, and when the heap is not empty the current tag set of
the stream at index 0 is not greater than that of any stream in the heap. -/
theorem heap_is_min_heap [Zero σ] [Add σ] (cmp : τ → τ → Int) (hc : IsCompare cmp)
    (results : Mem τ σ) (hl : 2 ≤ results.length) (mem : Mem τ σ) (r : mergedResultSet σ)
    (hnew : NewMergedResultSet cmp results = (mem, Result.merged r)) (calls : List Call) :
    IsHeap cmp (run cmp calls mem r).2.1 (run cmp calls mem r).2.2.heap ∧
    ∀ top rest s, (run cmp calls mem r).2.2.heap.items = top :: rest →
      (run cmp calls mem r).2.1[top]? = some s →
      ∀ q ∈ (run cmp calls mem r).2.2.heap.items, ∀ sq,
        (run cmp calls mem r).2.1[q]? = some sq → cmp s.Tags sq.Tags ≤ 0 := by
  rw [NewMergedResultSet_eq cmp results hl] at hnew
  simp only [Prod.mk.injEq, Result.merged.injEq] at hnew
  obtain ⟨rfl, rfl⟩ := hnew
  have hw := init_WF cmp results
  rw [init_mem] at hw
  have hh := init_heap (σ := σ) hc results
  rw [init_mem] at hh
  obtain ⟨hw', hh'⟩ := run_heap hc calls (results.map ResultSet.start)
    { heap := (resultSetHeap.init cmp results (List.range results.length)).2,
      err := none, first := true, stats := 0 } hw hh
  refine ⟨hh', ?_⟩
  intro top rest s hi hs q hq sq hsq
  exact root_le hc _ _ hw'.1 hh' hi hs q hq sq hsq

/-- C17, on two streams delivering `[1]` and `[2]`, after one `Next()` call. -/
theorem heap_is_min_heap_witness :
    (run natCmp [Call.next] (sampleClean.map ResultSet.start) sampleMerger).2.2.heap.items =
      [0, 1] ∧
    IsHeap natCmp (run natCmp [Call.next] (sampleClean.map ResultSet.start) sampleMerger).2.1
      (run natCmp [Call.next] (sampleClean.map ResultSet.start) sampleMerger).2.2.heap ∧
    ∀ top rest s,
      (run natCmp [Call.next] (sampleClean.map ResultSet.start) sampleMerger).2.2.heap.items =
        top :: rest →
      (run natCmp [Call.next] (sampleClean.map ResultSet.start) sampleMerger).2.1[top]? =
        some s →
      ∀ q ∈ (run natCmp [Call.next] (sampleClean.map ResultSet.start)
          sampleMerger).2.2.heap.items, ∀ sq,
        (run natCmp [Call.next] (sampleClean.map ResultSet.start) sampleMerger).2.1[q]? =
          some sq → natCmp s.Tags sq.Tags ≤ 0 :=
  ⟨by decide,
    heap_is_min_heap natCmp natCmp_isCompare sampleClean (by decide)
      (sampleClean.map ResultSet.start) sampleMerger (by decide) [Call.next]⟩

end reads

namespace reads

variable {τ σ : Type}

/-! ## The position of the active streams -/

theorem drop_cons_step {l : List τ} {k : Nat} {t : τ} {ts : List τ}
    (h : l.drop (k + 1) = t :: ts) : l[k + 1]? = some t ∧ ts = l.drop (k + 1 + 1) := by
  have hlt : k + 1 < l.length := by
    by_contra hn
    rw [List.drop_eq_nil_iff.mpr (by omega)] at h
    simp at h
  rw [List.drop_eq_getElem_cons hlt] at h
  simp only [List.cons.injEq] at h
  exact ⟨by rw [List.getElem?_eq_getElem hlt, h.1], h.2.symm⟩

theorem init_Inv6 (cmp : τ → τ → Int) (results : Mem τ σ) (r : mergedResultSet σ)
    (hr : r.heap = (resultSetHeap.init cmp results (List.range results.length)).2) :
    Inv6 results (results.map ResultSet.start) r := by
  have hw := init_WF cmp results
  rw [init_mem] at hw
  refine ⟨hr ▸ hw, by simp, ?_⟩
  intro p hp s0 s hs0 hs
  rw [hr] at hp
  have hm := List.mem_filter.mp ((init_items cmp results).subset hp)
  obtain ⟨s1, hs1, hne⟩ := hasNext_pending hm.2
  rw [hs0] at hs1
  obtain rfl := Option.some.inj hs1
  rw [List.getElem?_map, hs0] at hs
  simp only [Option.map_some', Option.some.injEq] at hs
  subst hs
  unfold ResultSet.start
  cases hp' : s0.pending with
  | nil => rw [hp'] at hne; simp at hne
  | cons t ts => exact ⟨0, by simp, by simp⟩

/-- `Next` keeps the position invariant. -/
theorem Next_Inv6 [Add σ] (cmp : τ → τ → Int) (results mem : Mem τ σ) (r : mergedResultSet σ)
    (hI : Inv6 results mem r) :
    Inv6 results (mergedResultSet.Next cmp mem r).2.1 (mergedResultSet.Next cmp mem r).2.2 := by
  obtain ⟨hw', hlen'⟩ := Next_WF cmp mem r hI.wf
  rcases Next_cases cmp mem r hI.wf with ⟨hi, e⟩ | ⟨top, rest, hi, hf, e⟩ |
    ⟨top, rest, s, t, ts, hi, hf, hs, hp, e⟩ | ⟨top, rest, s, hi, hf, hs, hp, _, e⟩ |
    ⟨top, rest, s, e', hi, _, hs, _, _, e⟩
  · rw [e]; exact hI
  · rw [e]; exact ⟨hI.wf, hI.len, hI.pos⟩
  · rw [e] at hw' hlen' ⊢
    have hlt : top < mem.length := (List.getElem?_eq_some_iff.mp hs).1
    have htop : top ∈ r.heap.items := by rw [hi]; exact List.mem_cons_self _ _
    refine ⟨hw', hlen'.trans hI.len, ?_⟩
    intro p hpm s0 x hs0 hx
    have hp' : p ∈ r.heap.items := (Fix_perm _ _ _).subset hpm
    simp only at hx
    by_cases e1 : top = p
    · subst e1
      simp only [List.getElem?_set, hlt, if_true, Option.some.injEq] at hx
      subst hx
      obtain ⟨k, _, hk2⟩ := hI.pos top htop s0 s hs0 hs
      rw [hp] at hk2
      obtain ⟨h1, h2⟩ := drop_cons_step hk2.symm
      exact ⟨k + 1, h1, h2⟩
    · rw [List.getElem?_set_ne e1] at hx
      exact hI.pos p hp' s0 x hs0 hx
  · rw [e] at hw' hlen' ⊢
    have hnt : top ∉ rest := (WF_tail (hi ▸ hI.wf)).2
    refine ⟨hw', hlen'.trans hI.len, ?_⟩
    intro p hpm s0 x hs0 hx
    have hp' : p ∈ rest := (Pop_perm _ _ _ top rest hi).subset hpm
    have hp'' : p ∈ r.heap.items := by rw [hi]; exact List.mem_cons_of_mem _ hp'
    have hne' : top ≠ p := fun h => hnt (h ▸ hp')
    simp only at hx
    rw [List.getElem?_set_ne hne'] at hx
    exact hI.pos p hp'' s0 x hs0 hx
  · rw [e] at hw' hlen' ⊢
    refine ⟨hw', hlen'.trans hI.len, ?_⟩
    intro p hpm; simp at hpm

/-- `Close` keeps the position invariant. -/
theorem Close_Inv6 (results mem : Mem τ σ) (r : mergedResultSet σ) (hI : Inv6 results mem r) :
    Inv6 results (mergedResultSet.Close mem r).1 (mergedResultSet.Close mem r).2 := by
  unfold mergedResultSet.Close
  refine ⟨⟨by simp, List.nodup_nil⟩, by rw [closeAll_length]; exact hI.len, ?_⟩
  intro p hp; simp at hp

theorem run_Inv6 [Add σ] (cmp : τ → τ → Int) (results : Mem τ σ) : ∀ (calls : List Call)
    (mem : Mem τ σ) (r : mergedResultSet σ), Inv6 results mem r →
    Inv6 results (run cmp calls mem r).2.1 (run cmp calls mem r).2.2 := by
  intro calls
  induction calls with
  | nil => intro mem r h; exact h
  | cons c calls ih =>
    intro mem r h
    cases c with
    | next => simp only [run]; exact ih _ _ (Next_Inv6 cmp results mem r h)
    | close => simp only [run]; exact ih _ _ (Close_Inv6 results mem r h)

/-- C18: for two or more source streams and every sequence of `Next()` and `Close()`
calls on the merger built from them that ends with a `Next()` call that returned true,
the heap is not empty, so that the index-0 accesses of `Tags()` and `Cursor()` are in
bounds: they return the current tag set and the cursor of the stream at the heap root.
That stream has received no `Close()` call from the merger and is positioned on one of
the tag sets of its input, with the later ones still to deliver. -/
theorem tags_defined_after_true [Zero σ] [Add σ] (cmp : τ → τ → Int) (results : Mem τ σ)
    (hl : 2 ≤ results.length) (mem : Mem τ σ) (r : mergedResultSet σ)
    (hnew : NewMergedResultSet cmp results = (mem, Result.merged r)) (calls : List Call)
    (htrue : (run cmp (calls ++ [Call.next]) mem r).1.getLast? = some true) :
    ∃ top rest s0 s,
      (run cmp (calls ++ [Call.next]) mem r).2.2.heap.items = top :: rest ∧
      results[top]? = some s0 ∧
      (run cmp (calls ++ [Call.next]) mem r).2.1[top]? = some s ∧
      mergedResultSet.Tags (run cmp (calls ++ [Call.next]) mem r).2.1
        (run cmp (calls ++ [Call.next]) mem r).2.2 = some s.Tags ∧
      mergedResultSet.Cursor (run cmp (calls ++ [Call.next]) mem r).2.2 = some top ∧
      s.closed = s0.closed ∧
      ∃ k, s0.pending[k]? = some s.Tags ∧ s.pending = s0.pending.drop (k + 1) := by
  have hI4 := merged_Inv4 cmp results hl mem r hnew (calls ++ [Call.next])
  have hI4' := merged_Inv4 cmp results hl mem r hnew calls
  have hI6 : Inv6 results (run cmp (calls ++ [Call.next]) mem r).2.1
      (run cmp (calls ++ [Call.next]) mem r).2.2 := by
    have hnew' := hnew
    rw [NewMergedResultSet_eq cmp results hl] at hnew'
    simp only [Prod.mk.injEq, Result.merged.injEq] at hnew'
    obtain ⟨rfl, rfl⟩ := hnew'
    exact run_Inv6 cmp results _ _ _ (init_Inv6 cmp results _ rfl)
  have hn : ∃ top rest s,
      (run cmp (calls ++ [Call.next]) mem r).2.2.heap.items = top :: rest ∧
      (run cmp (calls ++ [Call.next]) mem r).2.1[top]? = some s ∧
      mergedResultSet.Tags (run cmp (calls ++ [Call.next]) mem r).2.1
        (run cmp (calls ++ [Call.next]) mem r).2.2 = some s.tags := by
    rw [run_append] at htrue ⊢
    simp only [run, List.getLast?_concat, Option.some.injEq] at htrue
    simp only [run]
    exact Next_true cmp _ _ hI4'.wf htrue
  obtain ⟨top, rest, s, hi, hs, ht⟩ := hn
  have htop : top ∈ (run cmp (calls ++ [Call.next]) mem r).2.2.heap.items := by
    rw [hi]; exact List.mem_cons_self _ _
  have hlt : top < results.length := by
    rw [← hI6.len]; exact hI6.wf.1 top htop
  have hs0 : results[top]? = some (results.get ⟨top, hlt⟩) := List.getElem?_eq_getElem hlt
  generalize results.get ⟨top, hlt⟩ = s0 at hs0
  refine ⟨top, rest, s0, s, hi, hs0, hs, ht, ?_, ?_, hI6.pos top htop s0 s hs0 hs⟩
  · unfold mergedResultSet.Cursor; rw [hi]
  · obtain ⟨x, hx, hc⟩ := hI4.closed top s0 hs0
    rw [hs] at hx
    obtain rfl := Option.some.inj hx
    simpa [htop] using hc

/-- C18, on two streams delivering `[1]` and `[2]`: the second `Next()` returns true
with the second stream at the heap root, positioned on its tag set `2`. -/
theorem tags_defined_after_true_witness :
    (run natCmp ([Call.next] ++ [Call.next]) (sampleClean.map ResultSet.start)
      sampleMerger).1 = [true, true] ∧
    mergedResultSet.Tags
      (run natCmp ([Call.next] ++ [Call.next]) (sampleClean.map ResultSet.start)
        sampleMerger).2.1
      (run natCmp ([Call.next] ++ [Call.next]) (sampleClean.map ResultSet.start)
        sampleMerger).2.2 = some 2 ∧
    ∃ top rest s0 s,
      (run natCmp ([Call.next] ++ [Call.next]) (sampleClean.map ResultSet.start)
        sampleMerger).2.2.heap.items = top :: rest ∧
      sampleClean[top]? = some s0 ∧
      (run natCmp ([Call.next] ++ [Call.next]) (sampleClean.map ResultSet.start)
        sampleMerger).2.1[top]? = some s ∧
      mergedResultSet.Tags
        (run natCmp ([Call.next] ++ [Call.next]) (sampleClean.map ResultSet.start)
          sampleMerger).2.1
        (run natCmp ([Call.next] ++ [Call.next]) (sampleClean.map ResultSet.start)
          sampleMerger).2.2 = some s.Tags ∧
      mergedResultSet.Cursor
        (run natCmp ([Call.next] ++ [Call.next]) (sampleClean.map ResultSet.start)
          sampleMerger).2.2 = some top ∧
      s.closed = s0.closed ∧
      ∃ k, s0.pending[k]? = some s.Tags ∧ s.pending = s0.pending.drop (k + 1) :=
  ⟨by decide, by decide,
    tags_defined_after_true natCmp sampleClean (by decide) (sampleClean.map ResultSet.start)
      sampleMerger (by decide) [Call.next] (by decide)⟩

end reads

namespace reads

variable {τ σ : Type}

/-! ## Reads and closes -/

theorem ReadsOnly.nil (P : Nat → Prop) : ReadsOnly P [] := by
  intro a ha; simp at ha

theorem ReadsOnly.append {P : Nat → Prop} {l1 l2 : List Access} (h1 : ReadsOnly P l1)
    (h2 : ReadsOnly P l2) : ReadsOnly P (l1 ++ l2) := by
  intro a ha
  rcases List.mem_append.mp ha with h | h
  · exact h1 a h
  · exact h2 a h

theorem ReadsOnly.mono {P Q : Nat → Prop} {l : List Access} (h : ReadsOnly P l)
    (hpq : ∀ p, P p → Q p) : ReadsOnly Q l := by
  intro a ha
  obtain ⟨p, e, hp⟩ := h a ha
  exact ⟨p, e, hpq p hp⟩

/-- Reads of streams that are not closed keep a list of calls safe. -/
theorem safe_reads {P : Nat → Prop} : ∀ (l : List Access) (C : List Nat) (t : List Access),
    ReadsOnly P l → (∀ p, P p → p ∉ C) → noReadAfterClose C t = true →
    noReadAfterClose C (l ++ t) = true := by
  intro l
  induction l with
  | nil => intro C t _ _ h; exact h
  | cons a l ih =>
    intro C t hr hP ht
    obtain ⟨p, e, hp⟩ := hr a (List.mem_cons_self _ _)
    subst e
    have := ih C t (fun b hb => hr b (List.mem_cons_of_mem _ hb)) hP ht
    simp only [List.cons_append, noReadAfterClose, Bool.and_eq_true, decide_eq_true_eq]
    exact ⟨hP p hp, this⟩

/-- Closing streams adds them to the closed ones. -/
theorem safe_closes : ∀ (l : List Nat) (C : List Nat) (t : List Access),
    noReadAfterClose (l.reverse ++ C) t = true →
    noReadAfterClose C (l.map Access.close ++ t) = true := by
  intro l
  induction l with
  | nil => intro C t h; exact h
  | cons p l ih =>
    intro C t h
    simp only [List.map_cons, List.cons_append, noReadAfterClose]
    apply ih
    simpa using h

/-! ## The reads of the heap operations -/

theorem Below_mem {h : resultSetHeap} {n p : Nat} (hb : Below h n p) : p ∈ h.items := by
  obtain ⟨k, _, hk⟩ := hb
  exact mem_of_getElem?_eq_some hk

theorem Below_Swap {h : resultSetHeap} {a b n p : Nat} (ha : a < n) (hb : b < n)
    (hn : n ≤ h.Len) (hp : Below (h.Swap a b) n p) : Below h n p := by
  obtain ⟨k, hk, hg⟩ := hp
  rw [Swap_get h (by omega) (by omega)] at hg
  exact ⟨tr a b k, tr_lt ha hb hk, hg⟩

theorem LessLog_reads (h : resultSetHeap) {i j n : Nat} (hi : i < n) (hj : j < n) :
    ReadsOnly (Below h n) (h.LessLog i j) := by
  intro a ha
  unfold resultSetHeap.LessLog at ha
  rcases List.mem_append.mp ha with h1 | h1
  · cases hp : h.items[i]? with
    | none => rw [hp] at h1; simp at h1
    | some p =>
      rw [hp] at h1
      simp only [List.mem_singleton] at h1
      exact ⟨p, h1, i, hi, hp⟩
  · cases hq : h.items[j]? with
    | none => rw [hq] at h1; simp at h1
    | some q =>
      rw [hq] at h1
      simp only [List.mem_singleton] at h1
      exact ⟨q, h1, j, hj, hq⟩

theorem downLoopLog_reads (cmp : τ → τ → Int) (mem : Mem τ σ) (n : Nat) :
    ∀ (fuel : Nat) (h : resultSetHeap) (i : Nat), n ≤ h.Len →
      ReadsOnly (Below h n) (heap.downLoopLog cmp mem fuel h i n) := by
  intro fuel
  induction fuel with
  | zero => intro h i _; exact ReadsOnly.nil _
  | succ fuel ih =>
    intro h i hn
    rw [heap.downLoopLog]
    simp only
    by_cases h1 : 2 * i + 1 ≥ n
    · simp only [h1, if_true]; exact ReadsOnly.nil _
    · simp only [h1, if_false]
      have hi : i < n := by omega
      have hl1 : ReadsOnly (Below h n)
          (if 2 * i + 1 + 1 < n then h.LessLog (2 * i + 1 + 1) (2 * i + 1) else []) := by
        by_cases h2 : 2 * i + 1 + 1 < n
        · simp only [h2, if_true]; exact LessLog_reads h h2 (by omega)
        · simp only [h2, if_false]; exact ReadsOnly.nil _
      generalize hj : (if (decide (2 * i + 1 + 1 < n) &&
        h.Less cmp mem (2 * i + 1 + 1) (2 * i + 1)) = true then 2 * i + 1 + 1
          else 2 * i + 1) = j
      have hjn : j < n := by
        rw [← hj]
        split
        · rename_i hc
          simp only [Bool.and_eq_true, decide_eq_true_eq] at hc
          exact hc.1
        · omega
      have hl2 := LessLog_reads h hjn hi
      split
      · exact hl1.append hl2
      · refine (hl1.append hl2).append ?_
        have := ih (h.Swap i j) j (by rw [Swap_length]; exact hn)
        exact this.mono (fun p hp => Below_Swap hi hjn hn hp)

theorem downLog_reads (cmp : τ → τ → Int) (mem : Mem τ σ) (h : resultSetHeap) (i n : Nat)
    (hn : n ≤ h.Len) : ReadsOnly (Below h n) (heap.downLog cmp mem h i n) :=
  downLoopLog_reads cmp mem n n h i hn

theorem upLog_zero (cmp : τ → τ → Int) (mem : Mem τ σ) (h : resultSetHeap) :
    heap.upLog cmp mem h 0 = [] := by
  simp [heap.upLog, heap.upLoopLog]

/-- The calls of `heap.Fix(h, 0)` are reads of streams in the heap. -/
theorem FixLog_reads (cmp : τ → τ → Int) (mem : Mem τ σ) (h : resultSetHeap) :
    ReadsOnly (fun p => p ∈ h.items) (heap.FixLog cmp mem h 0) := by
  unfold heap.FixLog
  simp only [upLog_zero, ite_self, List.append_nil]
  exact (downLog_reads cmp mem h 0 h.Len (le_refl _)).mono (fun p hp => Below_mem hp)

theorem heap_initLoopLog_reads (cmp : τ → τ → Int) (mem : Mem τ σ) (n : Nat) :
    ∀ (k : Nat) (h : resultSetHeap), n ≤ h.Len →
      ReadsOnly (fun p => p ∈ h.items) (heap.initLoopLog cmp mem n k h) := by
  intro k
  induction k with
  | zero => intro h _; exact ReadsOnly.nil _
  | succ k ih =>
    intro h hn
    rw [heap.initLoopLog]
    refine ((downLog_reads cmp mem h k n hn).mono (fun p hp => Below_mem hp)).append ?_
    have := ih (heap.down cmp mem h k n).1 (by rw [down_length]; exact hn)
    exact this.mono (fun p hp => (down_perm cmp mem h k n).subset hp)

/-- The calls of `heap.Init` are reads of streams in the heap. -/
theorem InitLog_reads (cmp : τ → τ → Int) (mem : Mem τ σ) (h : resultSetHeap) :
    ReadsOnly (fun p => p ∈ h.items) (heap.InitLog cmp mem h) :=
  heap_initLoopLog_reads cmp mem h.Len (h.Len / 2) h (le_refl _)

/-- The calls of `heap.Pop` are reads of streams in the heap other than the root: the
root has been swapped to the last slot, which `down` does not look at. -/
theorem PopLog_reads (cmp : τ → τ → Int) (mem : Mem τ σ) (h : resultSetHeap) (top : Nat)
    (rest : List Nat) (hi : h.items = top :: rest) :
    ReadsOnly (fun p => p ∈ rest) (heap.PopLog cmp mem h) := by
  unfold heap.PopLog
  simp only
  have hlen : h.Len = rest.length + 1 := by simp [resultSetHeap.Len, hi]
  refine (downLog_reads cmp mem (h.Swap 0 (h.Len - 1)) 0 (h.Len - 1)
    (by rw [Swap_length]; omega)).mono ?_
  intro p hp
  obtain ⟨k, hk, hg⟩ := hp
  rw [Swap_get h (by omega) (by omega), hi] at hg
  have hpos : 0 < tr 0 (h.Len - 1) k := by
    unfold tr
    split_ifs <;> omega
  obtain ⟨m, hm⟩ : ∃ m, tr 0 (h.Len - 1) k = m + 1 := ⟨tr 0 (h.Len - 1) k - 1, by omega⟩
  rw [hm, List.getElem?_cons_succ] at hg
  exact mem_of_getElem?_eq_some hg

end reads

namespace reads

variable {τ σ : Type}

/-! ## The calls of `mergedResultSet.Next` -/

theorem NextLog_nil [Add σ] (cmp : τ → τ → Int) (mem : Mem τ σ) (r : mergedResultSet σ)
    (hi : r.heap.items = []) : mergedResultSet.NextLog cmp mem r = [] := by
  unfold mergedResultSet.NextLog; rw [hi]

theorem NextLog_first [Add σ] (cmp : τ → τ → Int) (mem : Mem τ σ) (r : mergedResultSet σ)
    {top : Nat} {rest : List Nat} (hi : r.heap.items = top :: rest) (hf : r.first = true) :
    mergedResultSet.NextLog cmp mem r = [] := by
  unfold mergedResultSet.NextLog; rw [hi]; simp [hf]

theorem NextLog_advance [Add σ] (cmp : τ → τ → Int) (mem : Mem τ σ) (r : mergedResultSet σ)
    {top : Nat} {rest : List Nat} (hi : r.heap.items = top :: rest) (hf : r.first = false)
    {s : ResultSet τ σ} (hs : mem[top]? = some s) {t : τ} {ts : List τ}
    (hp : s.pending = t :: ts) :
    mergedResultSet.NextLog cmp mem r =
      Access.read top ::
        heap.FixLog cmp (mem.set top { s with tags := t, pending := ts }) r.heap 0 := by
  unfold mergedResultSet.NextLog; rw [hi]; simp [hf, hs, ResultSet.Next, hp]

theorem NextLog_pop [Add σ] (cmp : τ → τ → Int) (mem : Mem τ σ) (r : mergedResultSet σ)
    {top : Nat} {rest : List Nat} (hi : r.heap.items = top :: rest) (hf : r.first = false)
    {s : ResultSet τ σ} (hs : mem[top]? = some s) (hp : s.pending = []) (he : s.err = none) :
    mergedResultSet.NextLog cmp mem r =
      [Access.read top, Access.read top, Access.read top, Access.close top] ++
        heap.PopLog cmp (mem.set top s.finish) r.heap := by
  have hlt : top < mem.length := (List.getElem?_eq_some_iff.mp hs).1
  unfold mergedResultSet.NextLog; rw [hi]
  simp [hf, hs, ResultSet.Next, hp, Mem.close, hlt, ResultSet.Err, he, ResultSet.Close,
    ResultSet.finish]

theorem NextLog_error [Add σ] (cmp : τ → τ → Int) (mem : Mem τ σ) (r : mergedResultSet σ)
    {top : Nat} {rest : List Nat} (hi : r.heap.items = top :: rest) (hf : r.first = false)
    {s : ResultSet τ σ} (hs : mem[top]? = some s) (hp : s.pending = []) {e : String}
    (he : s.err = some e) :
    mergedResultSet.NextLog cmp mem r =
      [Access.read top, Access.read top, Access.read top, Access.close top] ++
        (heap.PopLog cmp (mem.set top s.finish) r.heap ++
          (heap.Pop cmp (mem.set top s.finish) r.heap).items.map Access.close) := by
  have hlt : top < mem.length := (List.getElem?_eq_some_iff.mp hs).1
  unfold mergedResultSet.NextLog; rw [hi]
  simp [hf, hs, ResultSet.Next, hp, Mem.close, hlt, ResultSet.Err, he, ResultSet.Close,
    ResultSet.finish, mergedResultSet.CloseLog]

/-! ## No read after a close -/

/-- From a merger whose heap refers to distinct streams none of which is closed, no
sequence of calls reads a stream after it has been closed. -/
theorem runLog_safe [Add σ] (cmp : τ → τ → Int) : ∀ (calls : List Op) (mem : Mem τ σ)
    (r : mergedResultSet σ) (C : List Nat), WF mem r.heap.items →
    (∀ p ∈ r.heap.items, p ∉ C) → noReadAfterClose C (runLog cmp calls mem r) = true := by
  intro calls
  induction calls with
  | nil => intro mem r C _ _; rfl
  | cons c calls ih =>
    intro mem r C hw hC
    cases c with
    | next =>
      simp only [runLog]
      have hw' := (Next_WF cmp mem r hw).1
      rcases Next_cases cmp mem r hw with ⟨hi, e⟩ | ⟨top, rest, hi, hf, e⟩ |
        ⟨top, rest, s, t, ts, hi, hf, hs, hp, e⟩ | ⟨top, rest, s, hi, hf, hs, hp, he, e⟩ |
        ⟨top, rest, s, e', hi, hf, hs, hp, he, e⟩
      · rw [NextLog_nil cmp mem r hi, e]
        exact ih mem r C hw hC
      · rw [NextLog_first cmp mem r hi hf, e]
        exact ih _ _ C hw hC
      · rw [e] at hw'
        rw [NextLog_advance cmp mem r hi hf hs hp, e]
        have htop : top ∈ r.heap.items := by rw [hi]; exact List.mem_cons_self _ _
        simp only [List.cons_append, noReadAfterClose, Bool.and_eq_true, decide_eq_true_eq]
        refine ⟨hC top htop, ?_⟩
        refine safe_reads _ C _ (FixLog_reads cmp _ r.heap) hC ?_
        exact ih _ _ C hw' (fun p hp' => hC p ((Fix_perm _ _ _).subset hp'))
      · rw [e] at hw'
        rw [NextLog_pop cmp mem r hi hf hs hp he, e]
        have htop : top ∈ r.heap.items := by rw [hi]; exact List.mem_cons_self _ _
        have hnt : top ∉ rest := (WF_tail (hi ▸ hw)).2
        have hrest : ∀ p, p ∈ rest → p ∉ top :: C := by
          intro p hp' hm
          rcases List.mem_cons.mp hm with e1 | e1
          · exact hnt (e1 ▸ hp')
          · exact hC p (by rw [hi]; exact List.mem_cons_of_mem _ hp') e1
        simp only [List.cons_append, List.nil_append, noReadAfterClose, Bool.and_eq_true,
          decide_eq_true_eq]
        refine ⟨hC top htop, hC top htop, hC top htop, ?_⟩
        refine safe_reads _ (top :: C) _ (PopLog_reads cmp _ r.heap top rest hi) hrest ?_
        exact ih _ _ (top :: C) hw'
          (fun p hp' => hrest p ((Pop_perm _ _ _ top rest hi).subset hp'))
      · rw [e] at hw'
        rw [NextLog_error cmp mem r hi hf hs hp he, e]
        have htop : top ∈ r.heap.items := by rw [hi]; exact List.mem_cons_self _ _
        have hnt : top ∉ rest := (WF_tail (hi ▸ hw)).2
        have hrest : ∀ p, p ∈ rest → p ∉ top :: C := by
          intro p hp' hm
          rcases List.mem_cons.mp hm with e1 | e1
          · exact hnt (e1 ▸ hp')
          · exact hC p (by rw [hi]; exact List.mem_cons_of_mem _ hp') e1
        rw [List.append_assoc, List.append_assoc]
        simp only [List.cons_append, List.nil_append, noReadAfterClose, Bool.and_eq_true,
          decide_eq_true_eq]
        refine ⟨hC top htop, hC top htop, hC top htop, ?_⟩
        refine safe_reads (heap.PopLog cmp (mem.set top s.finish) r.heap) (top :: C) _
          (PopLog_reads cmp _ r.heap top rest hi) hrest ?_
        apply safe_closes
        exact ih _ _ _ hw' (fun p hp' => by simp at hp')
    | tags =>
      simp only [runLog]
      cases hi : r.heap.items with
      | nil => rfl
      | cons top rest =>
        simp only [noReadAfterClose, Bool.and_eq_true, decide_eq_true_eq]
        exact ⟨hC top (by rw [hi]; exact List.mem_cons_self _ _), ih mem r C hw hC⟩
    | cursor =>
      simp only [runLog]
      cases hi : r.heap.items with
      | nil => rfl
      | cons top rest =>
        simp only [noReadAfterClose, Bool.and_eq_true, decide_eq_true_eq]
        exact ⟨hC top (by rw [hi]; exact List.mem_cons_self _ _), ih mem r C hw hC⟩
    | close =>
      simp only [runLog, mergedResultSet.CloseLog]
      apply safe_closes
      exact ih _ _ _ ⟨by simp [mergedResultSet.Close], List.nodup_nil⟩
        (fun p hp' => by simp [mergedResultSet.Close] at hp')

/-- The loop of `resultSetHeap.init` reads every stream once and closes those that
yield nothing; what follows runs with exactly those closed in addition. -/
theorem initLoopLog_safe : ∀ (ps : List Nat) (mem : Mem τ σ) (C : List Nat)
    (t : List Access), ps.Nodup → (∀ p ∈ ps, p ∉ C) →
    (∀ C' : List Nat, (∀ p ∈ C', p ∈ C ∨ (p ∈ ps ∧ hasNext mem p = false)) →
      noReadAfterClose C' t = true) →
    noReadAfterClose C (resultSetHeap.initLoopLog mem ps ++ t) = true := by
  intro ps
  induction ps with
  | nil =>
    intro mem C t _ _ hk
    exact hk C (fun p hp => Or.inl hp)
  | cons rs rest ih =>
    intro mem C t hn hC hk
    have hnd := List.nodup_cons.mp hn
    have hCr : ∀ p ∈ rest, p ∉ C := fun p hp => hC p (List.mem_cons_of_mem _ hp)
    rw [resultSetHeap.initLoopLog]
    cases hs : mem[rs]? with
    | none =>
      simp only
      apply ih mem C t hnd.2 hCr
      intro C' hC'
      apply hk C'
      intro p hp
      rcases hC' p hp with h | ⟨h1, h2⟩
      · exact Or.inl h
      · exact Or.inr ⟨List.mem_cons_of_mem _ h1, h2⟩
    | some s =>
      simp only
      have hne : ∀ p ∈ rest, p ≠ rs := fun p hp e => hnd.1 (e ▸ hp)
      cases hp : s.pending with
      | cons t1 ts =>
        simp only [ResultSet.Next, hp, if_true, List.cons_append, noReadAfterClose,
          Bool.and_eq_true, decide_eq_true_eq]
        refine ⟨hC rs (List.mem_cons_self _ _), ?_⟩
        apply ih _ C t hnd.2 hCr
        intro C' hC'
        apply hk C'
        intro p hp'
        rcases hC' p hp' with h | ⟨h1, h2⟩
        · exact Or.inl h
        · rw [hasNext_set_ne mem _ (hne p h1)] at h2
          exact Or.inr ⟨List.mem_cons_of_mem _ h1, h2⟩
      | nil =>
        simp only [ResultSet.Next, hp, Bool.false_eq_true, if_false, List.cons_append,
          noReadAfterClose, Bool.and_eq_true, decide_eq_true_eq]
        refine ⟨hC rs (List.mem_cons_self _ _), ?_⟩
        apply ih _ (rs :: C) t hnd.2
        · intro p hp' hm
          rcases List.mem_cons.mp hm with e1 | e1
          · exact hne p hp' e1
          · exact hCr p hp' e1
        · intro C' hC'
          apply hk C'
          intro p hp'
          rcases hC' p hp' with h | ⟨h1, h2⟩
          · rcases List.mem_cons.mp h with e1 | e1
            · right
              refine ⟨by rw [e1]; exact List.mem_cons_self _ _, ?_⟩
              rw [e1]
              simp [hasNext, hs, hp]
            · exact Or.inl e1
          · rw [hasNext_set_ne mem _ (hne p h1)] at h2
            exact Or.inr ⟨List.mem_cons_of_mem _ h1, h2⟩

/-- C19: for two or more source streams and every sequence of `Next()`, `Tags()`,
`Cursor()` and `Close()` calls on the merger built from them, in the list of the method
calls made on the source streams, from the construction on and the comparisons of
`heap.Init`, `heap.Fix` and `heap.Pop` included, no call of `Next()`, `Tags()`,
`Cursor()`, `Err()` or `Stats()` on a stream comes after a call of `Close()` on that
stream. -/
theorem no_read_after_close [Zero σ] [Add σ] (cmp : τ → τ → Int) (results : Mem τ σ)
    (hl : 2 ≤ results.length) (mem : Mem τ σ) (r : mergedResultSet σ)
    (hnew : NewMergedResultSet cmp results = (mem, Result.merged r)) (calls : List Op) :
    noReadAfterClose [] (NewMergedResultSetLog cmp results ++ runLog cmp calls mem r) = true := by
  rw [NewMergedResultSet_eq cmp results hl] at hnew
  simp only [Prod.mk.injEq, Result.merged.injEq] at hnew
  obtain ⟨rfl, rfl⟩ := hnew
  have hw := init_WF cmp results
  rw [init_mem] at hw
  have hitems := init_items cmp results
  obtain ⟨_, _, h3⟩ := initLoop_spec (List.range results.length) results []
    (List.nodup_range _) (fun p hp => List.mem_range.mp hp)
  unfold NewMergedResultSetLog resultSetHeap.initLog
  simp only [List.append_assoc]
  apply initLoopLog_safe _ results [] _ (List.nodup_range _) (fun p _ => by simp)
  intro C' hC'
  have hclosed : ∀ p, hasNext results p = true → p ∉ C' := by
    intro p hp hm
    rcases hC' p hm with h | ⟨_, h⟩
    · simp at h
    · rw [hp] at h; simp at h
  refine safe_reads _ C' _ (InitLog_reads cmp _ _) ?_ ?_
  · intro p hp
    simp only [h3, List.nil_append] at hp
    exact hclosed p (List.mem_filter.mp hp).2
  · apply runLog_safe cmp calls _ _ C' hw
    intro p hp
    exact hclosed p (List.mem_filter.mp (hitems.subset hp)).2

/-- C19, on two streams of which the first fails with `boom` after delivering `[1]`,
with the calls `Next`, `Tags`, `Next`, `Tags`, `Close`: the second `Next()` closes both
streams, and nothing is read afterwards. -/
theorem no_read_after_close_witness :
    (NewMergedResultSetLog natCmp sampleFailing ++
      runLog natCmp [Op.next, Op.tags, Op.next, Op.tags, Op.close]
        (sampleFailing.map ResultSet.start) sampleMerger) =
      [Access.read 0, Access.read 1, Access.read 1, Access.read 0, Access.read 0,
        Access.read 0, Access.read 0, Access.read 0, Access.close 0, Access.close 1] ∧
    noReadAfterClose [] (NewMergedResultSetLog natCmp sampleFailing ++
      runLog natCmp [Op.next, Op.tags, Op.next, Op.tags, Op.close]
        (sampleFailing.map ResultSet.start) sampleMerger) = true :=
  ⟨by decide,
    no_read_after_close natCmp sampleFailing (by decide) (sampleFailing.map ResultSet.start)
      sampleMerger (by decide) [Op.next, Op.tags, Op.next, Op.tags, Op.close]⟩

end reads

namespace reads

open cursors

variable {τ σ : Type}

/-! ## The running total of the statistics -/

/-- What `Next` does to the total: the statistics of the root it finds exhausted are
added, and nothing else. -/
theorem Next_Stats [Add σ] (cmp : τ → τ → Int) (mem : Mem τ σ) (r : mergedResultSet σ) :
    (mergedResultSet.Next cmp mem r).2.2.Stats =
      (match exhaustedRoot mem r with
        | some s => r.Stats + s.Stats
        | none => r.Stats) := by
  cases hi : r.heap.items with
  | nil =>
    rw [Next_nil cmp mem r hi]
    simp [exhaustedRoot, hi]
  | cons top rest =>
    rcases Bool.eq_false_or_eq_true r.first with hf | hf
    · rw [Next_first cmp mem r hi hf]
      simp [exhaustedRoot, hi, hf, mergedResultSet.Stats]
    · cases hs : mem[top]? with
      | none =>
        unfold mergedResultSet.Next
        simp [exhaustedRoot, hi, hf, hs]
      | some s =>
        cases hp : s.pending with
        | cons t ts =>
          rw [Next_advance cmp mem r hi hf hs hp]
          simp [exhaustedRoot, hi, hf, hs, hp, mergedResultSet.Stats]
        | nil =>
          cases he : s.err with
          | none =>
            rw [Next_pop cmp mem r hi hf hs hp he]
            simp [exhaustedRoot, hi, hf, hs, hp, mergedResultSet.Stats, ResultSet.Stats]
          | some e =>
            rw [Next_error cmp mem r hi hf hs hp he]
            simp [exhaustedRoot, hi, hf, hs, hp, mergedResultSet.Stats, ResultSet.Stats]

/-- The root that `Next` finds exhausted is the stream at index 0 of a merger that has
been started, and it has no tag set left. -/
theorem exhaustedRoot_some {mem : Mem τ σ} {r : mergedResultSet σ} {s : ResultSet τ σ}
    (hx : exhaustedRoot mem r = some s) :
    ∃ top rest, r.heap.items = top :: rest ∧ r.first = false ∧ mem[top]? = some s ∧
      s.pending = [] := by
  unfold exhaustedRoot at hx
  cases hi : r.heap.items with
  | nil => rw [hi] at hx; simp at hx
  | cons top rest =>
    rw [hi] at hx
    simp only at hx
    rcases Bool.eq_false_or_eq_true r.first with hf | hf
    · simp [hf] at hx
    · cases hs : mem[top]? with
      | none => simp [hf, hs] at hx
      | some s1 =>
        simp only [hf, Bool.false_eq_true, if_false, hs] at hx
        cases hp : s1.pending with
        | cons t ts => simp [hp] at hx
        | nil =>
          simp only [hp, List.isEmpty_nil, if_true, Option.some.injEq] at hx
          subst hx
          exact ⟨top, rest, rfl, hf, hs, hp⟩

/-- Without overflow, adding counts that are not negative does not decrease a Go
`int`. -/
theorem wrapInt_add_ge (a b : Int) (ha : -9223372036854775808 ≤ a) (hb : 0 ≤ b)
    (hs : a + b < 9223372036854775808) : a ≤ wrapInt (a + b) := by
  unfold wrapInt
  rw [Int.emod_eq_of_lt (by omega) (by omega)]
  omega

/-- C20, counterexample: the sample streams report the scanned values `2^63 - 1` and 1,
neither of them negative.  The `Next()` call that finds the first stream exhausted
brings the total to `2^63 - 1`; the next one finds the second stream exhausted, and
the total becomes `-2^63`: the addition of the Go `int` counts wraps around and the
total decreases. -/
theorem stats_total_wraps_around :
    (match NewMergedResultSet natCmp sampleOverflow with
      | (m, Result.merged r) =>
        some ((run natCmp [Call.next, Call.next] m r).2.2.Stats,
          (run natCmp [Call.next, Call.next, Call.next] m r).2.2.Stats,
          decide ((run natCmp [Call.next, Call.next] m r).2.2.Stats ≤
            (run natCmp [Call.next, Call.next, Call.next] m r).2.2.Stats),
          decide (∀ s ∈ sampleOverflow, (0 : CursorStats) ≤ s.Stats))
      | _ => none) =
    some ({ ScannedValues := 9223372036854775807, ScannedBytes := 0 },
      { ScannedValues := -9223372036854775808, ScannedBytes := 0 }, false, true) := by
  decide

/-- C20, amended: for every merger state, a `Next()` call that finds the heap root
exhausted, whether or not that root reports an error, changes `Stats()` to the previous
total plus the `Stats()` of that root, which it reads after the root's `Next()` and
`Err()` and before the root's `Close()`; every other `Next()` call (the first one, one
that advances the root in place, one on an empty heap) and `Close()` leave `Stats()` as
it is.  The total is a running sum under the add operation of the statistics: a
`Next()` call does not decrease it exactly when adding the statistics of the exhausted
root to the total does not, which for counts that wrap around fails on overflow. -/
theorem stats_change_only_on_completion [Add σ] [LE σ] (cmp : τ → τ → Int)
    (mem : Mem τ σ) (r : mergedResultSet σ) :
    (mergedResultSet.Next cmp mem r).2.2.Stats =
      (match exhaustedRoot mem r with
        | some s => r.Stats + s.Stats
        | none => r.Stats) ∧
    (mergedResultSet.Close mem r).2.Stats = r.Stats ∧
    (∀ s, exhaustedRoot mem r = some s →
      ∃ top rest tail, r.heap.items = top :: rest ∧ mem[top]? = some s ∧
        mergedResultSet.NextLog cmp mem r =
          [Access.read top, Access.read top, Access.read top, Access.close top] ++ tail) ∧
    (∀ s, exhaustedRoot mem r = some s →
      (r.Stats ≤ (mergedResultSet.Next cmp mem r).2.2.Stats ↔ r.Stats ≤ r.Stats + s.Stats)) := by
  refine ⟨Next_Stats cmp mem r, rfl, ?_, ?_⟩
  · intro s hx
    obtain ⟨top, rest, hi, hf, hs, hp⟩ := exhaustedRoot_some hx
    cases he : s.err with
    | none => exact ⟨top, rest, _, hi, hs, NextLog_pop cmp mem r hi hf hs hp he⟩
    | some e => exact ⟨top, rest, _, hi, hs, NextLog_error cmp mem r hi hf hs hp he⟩
  · intro s hx
    rw [Next_Stats cmp mem r, hx]

/-- The total of the wrapping counts does not decrease when the counts of the exhausted
root are not negative and neither addition overflows. -/
theorem CursorStats_total_le (cmp : τ → τ → Int) (mem : Mem τ CursorStats)
    (r : mergedResultSet CursorStats) (s : ResultSet τ CursorStats)
    (hx : exhaustedRoot mem r = some s) (h0 : (0 : CursorStats) ≤ s.Stats)
    (hv : -9223372036854775808 ≤ r.Stats.ScannedValues ∧
      r.Stats.ScannedValues + s.Stats.ScannedValues < 9223372036854775808)
    (hb : -9223372036854775808 ≤ r.Stats.ScannedBytes ∧
      r.Stats.ScannedBytes + s.Stats.ScannedBytes < 9223372036854775808) :
    r.Stats ≤ (mergedResultSet.Next cmp mem r).2.2.Stats := by
  rw [Next_Stats cmp mem r, hx]
  exact ⟨wrapInt_add_ge _ _ hv.1 h0.1 hv.2, wrapInt_add_ge _ _ hb.1 h0.2 hb.2⟩

/-- C20, amended, on the sample streams after the first `Next()`: the second `Next()`
finds the first stream exhausted and adds its count `2^63 - 1` to the total 0, which
does not overflow, and the total does not decrease. -/
theorem stats_change_only_on_completion_witness :
    (match NewMergedResultSet natCmp sampleOverflow with
      | (m, Result.merged r) => some (run natCmp [Call.next] m r).2
      | _ => none) = some (sampleOverflow.map ResultSet.start, sampleStarted) ∧
    (mergedResultSet.Next natCmp (sampleOverflow.map ResultSet.start)
      sampleStarted).2.2.Stats = { ScannedValues := 9223372036854775807, ScannedBytes := 0 } ∧
    sampleStarted.Stats ≤
      (mergedResultSet.Next natCmp (sampleOverflow.map ResultSet.start)
        sampleStarted).2.2.Stats :=
  ⟨by decide, by decide,
    ((stats_change_only_on_completion natCmp (sampleOverflow.map ResultSet.start)
      sampleStarted).2.2.2
      { tags := 1, pending := [], err := none,
        stats := { ScannedValues := 9223372036854775807, ScannedBytes := 0 },
        closed := 0, done := false }
      (by decide)).mpr (by decide)⟩

end reads
